import Mathlib

/-!
Verification development for the incremental tokeniser of the Hack compiler
(`main.go`).

The Go program builds a parse tree through pointers: every `*Token` is an
address, the context stack and the `children` slices hold addresses, and
`AddToken` mutates the node the top address points to.  The embedding keeps
that shape: a heap (`List Token`, address = index), explicit allocation, and
state passing.  A Go run-time panic (index or slice bounds out of range) is
the result `none`; the Go code has no other failure mode.
-/

namespace HackCompiler

/-! ## Data model -/

/-- Go `type Token struct`; `children []*Token` holds heap addresses. -/
structure Token where
  tokenType : String
  token : String
  children : List Nat
deriving DecidableEq, Repr

/-- Go `type TokenContextStack struct`; `items []*Token` holds heap addresses,
the top of the stack is the last item. -/
structure TokenContextStack where
  items : List Nat
deriving DecidableEq, Repr

/-- Go `type Tokeniser struct`, together with the heap its pointers live in. -/
structure Tokeniser where
  tokenBeingParsed : String
  currentTokenStack : TokenContextStack
  tokens : List Nat
  heap : List Token
deriving DecidableEq, Repr

/-- What `printTokenTree` walks: a node with its kind, literal and subtrees. -/
inductive Tree where
  | node (tokenType : String) (token : String) (children : List Tree) : Tree
deriving Repr

/-! ## Tables -/

def keywords : List String := ["class", "function", "void", "return", "do"]

def symbols : List String :=
  ["\x7b", "\x7d", "(", ")", "[", "]", ".", ",", ";", "+", "-", "*", "/", "&", "|", "<", ">",
    "=", "~"]

def whitespace : List String := [" ", "\n", "\t"]

/-- The keyword leaves that the composite literals of `initialTokens` allocate
once, at program start: addresses 0 to 3. -/
def globalHeap : List Token :=
  [⟨"keyword", "class", []⟩, ⟨"keyword", "function", []⟩, ⟨"keyword", "return", []⟩,
    ⟨"keyword", "do", []⟩]

/-- Go `var initialTokens = map[string]Token`; a missing key gives the zero
`Token`.  The `children` slices have length = capacity, so a later `append`
never writes into the table. -/
def initialTokens (key : String) : Token :=
  if key == "class" then ⟨"class", "", [0]⟩
  else if key == "function" then ⟨"subroutineDec", "", [1]⟩
  else if key == "parameterList" then ⟨"parameterList", "", []⟩
  else if key == "expressionList" then ⟨"expressionList", "", []⟩
  else if key == "subroutineBody" then ⟨"subroutineBody", "", []⟩
  else if key == "statements" then ⟨"statements", "", []⟩
  else if key == "return" then ⟨"returnStatement", "", [2]⟩
  else if key == "do" then ⟨"doStatement", "", [3]⟩
  else ⟨"", "", []⟩

/-! ## Character and lexeme classes -/

/-- Go `isSymbol`. -/
def isSymbol (r : String) : Bool :=
  if r == "" then false else symbols.any (fun symbol => r == symbol)

/-- Go `isWhitespace`. -/
def isWhitespace (r : String) : Bool :=
  whitespace.any (fun ws => r == ws)

/-- RE2 class `[a-zA-Z_]`. -/
def isIdentStart (c : Char) : Bool :=
  (97 ≤ c.toNat && c.toNat ≤ 122) || (65 ≤ c.toNat && c.toNat ≤ 90) || c.toNat == 95

/-- RE2 class `\d`, ASCII digits only. -/
def isDigit (c : Char) : Bool :=
  48 ≤ c.toNat && c.toNat ≤ 57

/-- RE2 class `\w`, that is `[0-9A-Za-z_]`. -/
def isWordChar (c : Char) : Bool :=
  isDigit c || isIdentStart c

/-- A matcher for the anchored regular expression `^[a-zA-Z_]\w*$`. -/
def matchIdentifier (token : String) : Bool :=
  match token.data with
  | [] => false
  | c :: cs => isIdentStart c && cs.all isWordChar

/-- A matcher for the anchored regular expression `^\d*$`; the star accepts the
empty string. -/
def matchDigits (token : String) : Bool :=
  token.data.all isDigit

/-- Go `Tokeniser.GetTokenType` (it reads no field of the receiver). -/
def GetTokenType (token : String) : String :=
  if keywords.any (fun keyword => token == keyword) then "keyword"
  else if isSymbol token then "symbol"
  else if matchIdentifier token then "identifier"
  else if matchDigits token then "integerConstant"
  else ""

/-! ## The context stack -/

/-- Go `TokenContextStack.Push`. -/
def TokenContextStack.Push (tcs : TokenContextStack) (token : Nat) : TokenContextStack :=
  ⟨tcs.items ++ [token]⟩

/-- Go `TokenContextStack.Pop(count ...int)`: the slice expression
`items[:len(items)-c]` panics exactly when `len(items)-c` is negative. -/
def TokenContextStack.Pop (tcs : TokenContextStack) (count : List Nat) :
    Option TokenContextStack :=
  let c := match count with
    | [] => 1
    | c0 :: _ => c0
  if c ≤ tcs.items.length then some ⟨tcs.items.take (tcs.items.length - c)⟩ else none

/-- Go `TokenContextStack.Peek`: `items[len(items)-1]` panics on an empty stack. -/
def TokenContextStack.Peek (tcs : TokenContextStack) : Option Nat :=
  tcs.items.getLast?

/-! ## Heap access -/

/-- Pointer dereference.  Addresses come only from `alloc` and the initial
state, so a look-up outside the heap does not arise in a run from
`NewTokeniser`. -/
def Tokeniser.deref (t : Tokeniser) (p : Nat) : Option Token :=
  t.heap[p]?

/-- Go `&Token{...}`: a fresh address, the next free index of the heap. -/
def Tokeniser.alloc (t : Tokeniser) (tok : Token) : Nat × Tokeniser :=
  (t.heap.length, { t with heap := t.heap ++ [tok] })

/-- Go `GetInitialToken`: the address of a fresh copy of the table entry. -/
def Tokeniser.GetInitialToken (t : Tokeniser) (tokenType : String) : Nat × Tokeniser :=
  t.alloc (initialTokens tokenType)

/-! ## The builder -/

/-- Go `NewTokeniser`: the root is allocated after the global leaves. -/
def NewTokeniser : Tokeniser :=
  { tokenBeingParsed := ""
    currentTokenStack := ⟨[4]⟩
    tokens := [4]
    heap := globalHeap ++ [⟨"root", "", []⟩] }

/-- Go `shouldEndCurrentTokenGroup`. -/
def shouldEndCurrentTokenGroup (token : String) : Bool :=
  ["\x7d", ";", ")", "]"].any (fun tokenGroupEndingToken => token == tokenGroupEndingToken)

/-- Go `shouldOpenNewTokenGroup`. -/
def shouldOpenNewTokenGroup (token : String) : Bool :=
  ["\x7b", "(", "["].any (fun tokenGroupEndingToken => token == tokenGroupEndingToken)

/-- The loop of Go `CheckCurrentContext`: one `Peek` per listed kind. -/
def Tokeniser.checkLoop (t : Tokeniser) : List String → Bool → Option Bool
  | [], matchesContextTypes => some matchesContextTypes
  | contextType :: rest, matchesContextTypes => do
    let top ← t.currentTokenStack.Peek
    let tok ← t.deref top
    t.checkLoop rest (if tok.tokenType == contextType then true else matchesContextTypes)

/-- Go `Tokeniser.CheckCurrentContext(contextType ...string)`. -/
def Tokeniser.CheckCurrentContext (t : Tokeniser) (contextType : List String) : Option Bool :=
  t.checkLoop contextType false

/-- Go `Tokeniser.PopContextStack(count ...int)`. -/
def Tokeniser.PopContextStack (t : Tokeniser) (count : List Nat) : Option Tokeniser :=
  match count with
  | [] => do
    let s ← t.currentTokenStack.Pop []
    pure { t with currentTokenStack := s }
  | c0 :: _ => do
    let s ← t.currentTokenStack.Pop [c0]
    pure { t with currentTokenStack := s }

/-- Go `Tokeniser.AddToken`: append the address to the children of the node on
top of the stack. -/
def Tokeniser.AddToken (t : Tokeniser) (token : Nat) : Option Tokeniser := do
  let cur ← t.currentTokenStack.Peek
  let currentTokenContext ← t.deref cur
  let updated : Token :=
    ⟨currentTokenContext.tokenType, currentTokenContext.token,
      currentTokenContext.children ++ [token]⟩
  pure { t with heap := t.heap.set cur updated }

/-- Go `Tokeniser.UpdateCurrentContext`. -/
def Tokeniser.UpdateCurrentContext (t : Tokeniser) (token : Nat) : Tokeniser :=
  { t with currentTokenStack := t.currentTokenStack.Push token }

/-- Go `Tokeniser.handleSymbol`; the `&&` evaluates `Peek` only for an operator. -/
def Tokeniser.handleSymbol (t : Tokeniser) (token : String) : Option Tokeniser := do
  let t1 ← (if token == "+" || token == "*" || token == "/" then do
      let top ← t.currentTokenStack.Peek
      let tok ← t.deref top
      if tok.tokenType == "term" then t.PopContextStack [] else pure t
    else pure t)
  let (p, t2) := t1.alloc ⟨"symbol", token, []⟩
  t2.AddToken p

/-- Go `Tokeniser.handleKeyword`. -/
def Tokeniser.handleKeyword (t : Tokeniser) (token : String) : Option Tokeniser :=
  let (p, t1) := t.alloc ⟨"keyword", token, []⟩
  t1.AddToken p

/-- Go `Tokeniser.handleReturnStatement`. -/
def Tokeniser.handleReturnStatement (t : Tokeniser) (_token : String) : Option Tokeniser := do
  let (returnToken, t1) := t.GetInitialToken "return"
  let t2 ← t1.AddToken returnToken
  pure (t2.UpdateCurrentContext returnToken)

/-- Go `Tokeniser.handleDoStatement`. -/
def Tokeniser.handleDoStatement (t : Tokeniser) (_token : String) : Option Tokeniser := do
  let (returnToken, t1) := t.GetInitialToken "do"
  let t2 ← t1.AddToken returnToken
  pure (t2.UpdateCurrentContext returnToken)

/-- Go `Tokeniser.handleClass`. -/
def Tokeniser.handleClass (t : Tokeniser) (_token : String) : Option Tokeniser := do
  let (classToken, t1) := t.GetInitialToken "class"
  let t2 ← t1.AddToken classToken
  pure (t2.UpdateCurrentContext classToken)

/-- Go `Tokeniser.handleFunction`. -/
def Tokeniser.handleFunction (t : Tokeniser) (_token : String) : Option Tokeniser := do
  let (functionToken, t1) := t.GetInitialToken "function"
  let t2 ← t1.AddToken functionToken
  pure (t2.UpdateCurrentContext functionToken)

/-- Go `Tokeniser.endCurrentTokenGroup`. -/
def Tokeniser.endCurrentTokenGroup (t : Tokeniser) (token : String) : Option Tokeniser :=
  if token == "\x7d" then do
    if (← t.CheckCurrentContext ["statements"]) then
      let t1 ← t.PopContextStack []
      let t2 ← t1.handleSymbol token
      t2.PopContextStack [2]
    else
      let t1 ← t.handleSymbol token
      t1.PopContextStack []
  else if token == ";" then do
    let t1 ← t.handleSymbol token
    t1.PopContextStack []
  else if token == ")" then do
    if (← t.CheckCurrentContext ["expression"]) then
      let t1 ← t.PopContextStack []
      let t2 ← t1.handleSymbol token
      if (← t2.CheckCurrentContext ["term", "expressionList"]) then
        t2.PopContextStack []
      else
        pure t2
    else
      let t1 ← t.PopContextStack []
      t1.handleSymbol token
  else if token == "]" then
    some t
  else
    some t

/-- Go `Tokeniser.openNewTokenGroup`.  The Go code tests `CheckCurrentContext`
only inside `if token == "("` and otherwise falls through to the final plain
leaf; the fall-through is written out in both `else` branches here. -/
def Tokeniser.openNewTokenGroup (t : Tokeniser) (token : String) : Option Tokeniser := do
  let cur ← t.currentTokenStack.Peek
  let currentTokenContext ← t.deref cur
  if token == "\x7b" && currentTokenContext.tokenType == "subroutineDec" then
    let (subroutineBodyToken, t1) := t.GetInitialToken "subroutineBody"
    let t2 ← t1.AddToken subroutineBodyToken
    let t3 := t2.UpdateCurrentContext subroutineBodyToken
    let (sym, t4) := t3.alloc ⟨"symbol", token, []⟩
    let t5 ← t4.AddToken sym
    let (statementsToken, t6) := t5.GetInitialToken "statements"
    let t7 ← t6.AddToken statementsToken
    pure (t7.UpdateCurrentContext statementsToken)
  else if token == "(" && currentTokenContext.tokenType == "subroutineDec" then
    let (sym, t1) := t.alloc ⟨"symbol", token, []⟩
    let t2 ← t1.AddToken sym
    let (parameterListToken, t3) := t2.GetInitialToken "parameterList"
    let t4 ← t3.AddToken parameterListToken
    pure (t4.UpdateCurrentContext parameterListToken)
  else if token == "(" && currentTokenContext.tokenType == "doStatement" then
    let (sym, t1) := t.alloc ⟨"symbol", token, []⟩
    let t2 ← t1.AddToken sym
    let (expressionListToken, t3) := t2.GetInitialToken "expressionList"
    let t4 ← t3.AddToken expressionListToken
    pure (t4.UpdateCurrentContext expressionListToken)
  else if token == "(" then
    if (← t.CheckCurrentContext ["expressionList", "expression", "term"]) then
      let t3 ← (if !(← t.CheckCurrentContext ["expression"]) then do
          let (expressionToken, t1) := t.alloc ⟨"expression", "", []⟩
          let t2 ← t1.AddToken expressionToken
          pure (t2.UpdateCurrentContext expressionToken)
        else pure t)
      let (termToken, t4) := t3.alloc ⟨"term", "", []⟩
      let t5 ← t4.AddToken termToken
      let t6 := t5.UpdateCurrentContext termToken
      let (sym, t7) := t6.alloc ⟨"symbol", token, []⟩
      let t8 ← t7.AddToken sym
      let (expressionToken, t9) := t8.alloc ⟨"expression", "", []⟩
      let t10 ← t9.AddToken expressionToken
      pure (t10.UpdateCurrentContext expressionToken)
    else
      let (sym, t1) := t.alloc ⟨"symbol", token, []⟩
      t1.AddToken sym
  else
    let (sym, t1) := t.alloc ⟨"symbol", token, []⟩
    t1.AddToken sym

/-- Go `Tokeniser.ProcessToken`. -/
def Tokeniser.ProcessToken (t : Tokeniser) (token : String) : Option Tokeniser :=
  let tokenType := GetTokenType token
  if shouldEndCurrentTokenGroup token then t.endCurrentTokenGroup token
  else if shouldOpenNewTokenGroup token then t.openNewTokenGroup token
  else if tokenType == "symbol" then t.handleSymbol token
  else if tokenType == "keyword" then
    if token == "class" then t.handleClass token
    else if token == "function" then t.handleFunction token
    else if token == "return" then t.handleReturnStatement token
    else if token == "do" then t.handleDoStatement token
    else t.handleKeyword token
  else if tokenType == "integerConstant" || tokenType == "identifier" then do
    let t2 ← (if (← t.CheckCurrentContext ["expressionList"]) then do
        let (expressionToken, t0) := t.alloc ⟨"expression", "", []⟩
        let t1 ← t0.AddToken expressionToken
        pure (t1.UpdateCurrentContext expressionToken)
      else pure t)
    let t5 ← (if (← t2.CheckCurrentContext ["expression"]) then do
        let (termToken, t3) := t2.alloc ⟨"term", "", []⟩
        let t4 ← t3.AddToken termToken
        pure (t4.UpdateCurrentContext termToken)
      else pure t2)
    let t7 ← (if tokenType == "integerConstant" then do
        let (leaf, t6) := t5.alloc ⟨"integerConstant", token, []⟩
        t6.AddToken leaf
      else pure t5)
    let t9 ← (if tokenType == "identifier" then do
        let (leaf, t8) := t7.alloc ⟨"identifier", token, []⟩
        t8.AddToken leaf
      else pure t7)
    if (← t9.CheckCurrentContext ["term"]) then t9.PopContextStack [] else pure t9
  else
    some t

/-- The body of the `for scanner.Scan()` loop of Go `Tokeniser.Tokenise` for
the rune `c`; `scanner.Text()` is the one-rune string. -/
def Tokeniser.scanStep (t : Tokeniser) (c : Char) : Option Tokeniser := do
  let char := String.singleton c
  let isTokenTerminator := (isSymbol char || isWhitespace char) && t.tokenBeingParsed != ""
  let t1 ← (if isTokenTerminator then do
      let t0 ← t.ProcessToken t.tokenBeingParsed
      pure { t0 with tokenBeingParsed := "" }
    else pure t)
  if isWhitespace char then
    pure t1
  else if isSymbol char then do
    let t2 ← t1.ProcessToken char
    pure { t2 with tokenBeingParsed := "" }
  else
    pure { t1 with tokenBeingParsed := t1.tokenBeingParsed ++ char }

/-- Go `Tokeniser.Tokenise` over the runes that the scanner yields; the state
it leaves is what `printTokenTree(t.tokens[0], ...)` then renders. -/
def Tokeniser.Tokenise (t : Tokeniser) (scanner : List Char) : Option Tokeniser :=
  scanner.foldlM Tokeniser.scanStep t

/-- All subtrees, when every one of them could be read. -/
def collect : List (Option Tree) → Option (List Tree)
  | [] => some []
  | none :: _ => none
  | some x :: rest => (collect rest).map (fun xs => x :: xs)

/-- The tree below address `p`, read the way `printTokenTree` recurses over
`token.children`; `fuel` bounds the depth of the walk, and the result is
`none` when the walk is cut short. -/
def treeOf (heap : List Token) : Nat → Nat → Option Tree
  | 0, _ => none
  | fuel + 1, p =>
    match heap[p]? with
    | none => none
    | some tok =>
      (collect (tok.children.map (treeOf heap fuel))).map
        (fun cs => Tree.node tok.tokenType tok.token cs)

/-- The tree that `Tokenise` prints: the one below `t.tokens[0]`. -/
def Tokeniser.tree (t : Tokeniser) (fuel : Nat) : Option Tree := do
  let root ← t.tokens.head?
  treeOf t.heap fuel root

/-- Depth of the context stack. -/
def Tokeniser.depth (t : Tokeniser) : Nat :=
  t.currentTokenStack.items.length

/-! ## Auxiliary definitions used by the statements -/

/-- Process a sequence of finished lexemes, one `ProcessToken` call each. -/
def Tokeniser.run (t : Tokeniser) (lexemes : List String) : Option Tokeniser :=
  lexemes.foldlM Tokeniser.ProcessToken t

/-- The node `E` after `AddToken` appended the address `p` to its children. -/
def Token.addChild (E : Token) (p : Nat) : Token :=
  ⟨E.tokenType, E.token, E.children ++ [p]⟩

/-- The one-rune string of `c` is a symbol or a whitespace character. -/
def isSeparator (c : Char) : Bool :=
  isSymbol (String.singleton c) || isWhitespace (String.singleton c)

/-- The ASCII letters, spelled out. -/
def asciiLetters : List Char :=
  "abcdefghijklmnopqrstuvwxyzABCDEFGHIJKLMNOPQRSTUVWXYZ".data

/-- The ASCII digits, spelled out. -/
def asciiDigits : List Char := "0123456789".data

/-- A letter or underscore followed by zero or more ASCII letters, digits or
underscores. -/
def IsIdentifierShape (s : String) : Prop :=
  ∃ c cs, s.data = c :: cs ∧ (c ∈ asciiLetters ∨ c = '_') ∧
    ∀ d ∈ cs, d ∈ asciiLetters ∨ d ∈ asciiDigits ∨ d = '_'

/-- One or more ASCII digits. -/
def IsDigitRun (s : String) : Prop :=
  s.data ≠ [] ∧ ∀ d ∈ s.data, d ∈ asciiDigits

/-- The input of the worked example: a class with one function that returns. -/
def exampleInput : List Char :=
  "class\x7bfunction void f()\x7breturn;\x7d\x7d".toList

/-- The tree the worked example is expected to give. -/
def exampleTree : Tree :=
  .node "root" "" [
    .node "class" "" [
      .node "keyword" "class" [],
      .node "symbol" "\x7b" [],
      .node "subroutineDec" "" [
        .node "keyword" "function" [],
        .node "keyword" "void" [],
        .node "identifier" "f" [],
        .node "symbol" "(" [],
        .node "parameterList" "" [],
        .node "symbol" ")" [],
        .node "subroutineBody" "" [
          .node "symbol" "\x7b" [],
          .node "statements" "" [
            .node "returnStatement" "" [
              .node "keyword" "return" [],
              .node "symbol" ";" []]],
          .node "symbol" "\x7d" []]],
      .node "symbol" "\x7d" []]]

/-! ## The context stack seen as a stack of kinds

`ProcessToken` branches only on the lexeme and on the kind of the node on top
of the context stack, so the depth of the stack can be followed on the list
of kinds alone.  The functions below repeat the control flow of the builder
on that list; `sim_ProcessToken` relates them to the builder itself. -/

/-- Kind of the node at address `p`. -/
def kindOf (heap : List Token) (p : Nat) : String :=
  match heap[p]? with
  | some tok => tok.tokenType
  | none => ""

/-- The kinds of the nodes on the context stack, bottom first. -/
def Tokeniser.kinds (t : Tokeniser) : List String :=
  t.currentTokenStack.items.map (kindOf t.heap)

/-- Every address on the context stack points into the heap. -/
def Tokeniser.Valid (t : Tokeniser) : Prop :=
  ∀ p ∈ t.currentTokenStack.items, p < t.heap.length

/-- The heap `H'` extends `H`: it is at least as long, the old addresses keep
their kind, and no node of kind root has been added. -/
def Ext (H H' : List Token) : Prop :=
  H.length ≤ H'.length ∧ (∀ p, p < H.length → kindOf H' p = kindOf H p) ∧
    ∀ p, H.length ≤ p → kindOf H' p ≠ "root"

/-- The state `t` has the stack of kinds `ks` and the buffer `b`, over a heap
that extends `H`. -/
def Rel (b : String) (H : List Token) (t : Tokeniser) (ks : List String) : Prop :=
  t.Valid ∧ t.kinds = ks ∧ t.tokenBeingParsed = b ∧ Ext H t.heap

/-- A step of the builder and a step on kinds agree: both fail, or both succeed
in related states. -/
def OSim (b : String) (H : List Token) (r : Option Tokeniser) (a : Option (List String)) :
    Prop :=
  match r, a with
  | some t, some ks => Rel b H t ks
  | none, none => True
  | _, _ => False

/-- `CheckCurrentContext` on kinds. -/
def absCheck (ks : List String) (contextType : List String) : Option Bool :=
  match contextType with
  | [] => some false
  | _ :: _ =>
    match ks.getLast? with
    | none => none
    | some k => some (contextType.any (fun c => k == c))

/-- `AddToken` on kinds: it needs a top and changes no kind. -/
def absAdd (ks : List String) : Option (List String) :=
  if ks = [] then none else some ks

/-- `Pop` on kinds. -/
def absPop (ks : List String) (c : Nat) : Option (List String) :=
  if c ≤ ks.length then some (ks.take (ks.length - c)) else none

/-- `handleSymbol` on kinds. -/
def absHandleSymbol (ks : List String) (token : String) : Option (List String) := do
  let ks1 ← (if token == "+" || token == "*" || token == "/" then do
      let top ← ks.getLast?
      if top == "term" then absPop ks 1 else pure ks
    else pure ks)
  absAdd ks1

/-- `endCurrentTokenGroup` on kinds. -/
def absEndCurrentTokenGroup (ks : List String) (token : String) : Option (List String) :=
  if token == "\x7d" then do
    if (← absCheck ks ["statements"]) then
      let ks1 ← absPop ks 1
      let ks2 ← absHandleSymbol ks1 token
      absPop ks2 2
    else
      let ks1 ← absHandleSymbol ks token
      absPop ks1 1
  else if token == ";" then do
    let ks1 ← absHandleSymbol ks token
    absPop ks1 1
  else if token == ")" then do
    if (← absCheck ks ["expression"]) then
      let ks1 ← absPop ks 1
      let ks2 ← absHandleSymbol ks1 token
      if (← absCheck ks2 ["term", "expressionList"]) then
        absPop ks2 1
      else
        pure ks2
    else
      let ks1 ← absPop ks 1
      absHandleSymbol ks1 token
  else
    some ks

/-- `openNewTokenGroup` on kinds. -/
def absOpenNewTokenGroup (ks : List String) (token : String) : Option (List String) := do
  let top ← ks.getLast?
  if token == "\x7b" && top == "subroutineDec" then
    let ks2 ← absAdd ks
    let ks5 ← absAdd (ks2 ++ ["subroutineBody"])
    let ks7 ← absAdd ks5
    pure (ks7 ++ ["statements"])
  else if token == "(" && top == "subroutineDec" then
    let ks2 ← absAdd ks
    let ks4 ← absAdd ks2
    pure (ks4 ++ ["parameterList"])
  else if token == "(" && top == "doStatement" then
    let ks2 ← absAdd ks
    let ks4 ← absAdd ks2
    pure (ks4 ++ ["expressionList"])
  else if token == "(" then
    if (← absCheck ks ["expressionList", "expression", "term"]) then
      let ks3 ← (if !(← absCheck ks ["expression"]) then do
          let ks2 ← absAdd ks
          pure (ks2 ++ ["expression"])
        else pure ks)
      let ks5 ← absAdd ks3
      let ks8 ← absAdd (ks5 ++ ["term"])
      let ks10 ← absAdd ks8
      pure (ks10 ++ ["expression"])
    else
      absAdd ks
  else
    absAdd ks

/-- The four construct keywords on kinds: append the skeleton and push it. -/
def absOpenNew (ks : List String) (kind : String) : Option (List String) := do
  let ks2 ← absAdd ks
  pure (ks2 ++ [kind])

/-- `ProcessToken` on kinds. -/
def absProcessToken (ks : List String) (token : String) : Option (List String) :=
  let tokenType := GetTokenType token
  if shouldEndCurrentTokenGroup token then absEndCurrentTokenGroup ks token
  else if shouldOpenNewTokenGroup token then absOpenNewTokenGroup ks token
  else if tokenType == "symbol" then absHandleSymbol ks token
  else if tokenType == "keyword" then
    if token == "class" then absOpenNew ks "class"
    else if token == "function" then absOpenNew ks "subroutineDec"
    else if token == "return" then absOpenNew ks "returnStatement"
    else if token == "do" then absOpenNew ks "doStatement"
    else absAdd ks
  else if tokenType == "integerConstant" || tokenType == "identifier" then do
    let ks2 ← (if (← absCheck ks ["expressionList"]) then do
        let ks1 ← absAdd ks
        pure (ks1 ++ ["expression"])
      else pure ks)
    let ks5 ← (if (← absCheck ks2 ["expression"]) then do
        let ks4 ← absAdd ks2
        pure (ks4 ++ ["term"])
      else pure ks2)
    let ks7 ← (if tokenType == "integerConstant" then absAdd ks5 else pure ks5)
    let ks9 ← (if tokenType == "identifier" then absAdd ks7 else pure ks7)
    if (← absCheck ks9 ["term"]) then absPop ks9 1 else pure ks9
  else
    some ks

/-- A run of `ProcessToken` on kinds. -/
def absRun (ks : List String) (lexemes : List String) : Option (List String) :=
  lexemes.foldlM absProcessToken ks

/-! ## The lexemes of an input and the shape of a well-formed input -/

/-- One round of the scanning loop on the buffer alone: the lexemes it hands
to `ProcessToken`, in order, and the buffer it leaves. -/
def lexStep (buf : String) (c : Char) : List String × String :=
  let char := String.singleton c
  let isTokenTerminator := (isSymbol char || isWhitespace char) && buf != ""
  let flushed := if isTokenTerminator then [buf] else []
  let buf1 := if isTokenTerminator then "" else buf
  if isWhitespace char then (flushed, buf1)
  else if isSymbol char then (flushed ++ [char], "")
  else (flushed, buf1 ++ char)

/-- The lexemes that a scan of the input hands to `ProcessToken`, and the run
still waiting in the buffer when the input ends. -/
def lexScan : String → List Char → List String × String
  | buf, [] => ([], buf)
  | buf, c :: cs => ((lexStep buf c).1 ++ (lexScan (lexStep buf c).2 cs).1,
      (lexScan (lexStep buf c).2 cs).2)

/-- A safe run on kinds: the run succeeds and the stack of kinds is non-empty
after every lexeme (and before the first). -/
def SafeRun (ks : List String) (lexemes : List String) (ks' : List String) : Prop :=
  absRun ks lexemes = some ks' ∧
    ∀ n, ∃ ks1, absRun ks (lexemes.take n) = some ks1 ∧ ks1 ≠ []

/-- Expressions: identifiers and integer constants, parentheses, unary and
binary operators. -/
inductive Expr where
  | atom (x : String) : Expr
  | paren (e : Expr) : Expr
  | unary (op : String) (e : Expr) : Expr
  | binary (l : Expr) (op : String) (r : Expr) : Expr

/-- A lexeme the classifier calls an identifier. -/
def isIdent (x : String) : Bool :=
  GetTokenType x == "identifier"

/-- An identifier or a (non-empty) integer constant. -/
def isAtom (x : String) : Bool :=
  x != "" && (GetTokenType x == "identifier" || GetTokenType x == "integerConstant")

def unaryOps : List String := ["-", "~"]

def binaryOps : List String := ["+", "-", "*", "/", "&", "|", "<", ">", "="]

/-- Every lexeme of the expression is of the right class. -/
def Expr.ok : Expr → Bool
  | .atom x => isAtom x
  | .paren e => e.ok
  | .unary op e => unaryOps.contains op && e.ok
  | .binary l op r => l.ok && binaryOps.contains op && r.ok

/-- The expression has no parentheses. -/
def Expr.parenFree : Expr → Bool
  | .atom _ => true
  | .paren _ => false
  | .unary _ e => e.parenFree
  | .binary l _ r => l.parenFree && r.parenFree

/-- The lexemes of an expression, in source order. -/
def Expr.lexemes : Expr → List String
  | .atom x => [x]
  | .paren e => "(" :: e.lexemes ++ [")"]
  | .unary op e => op :: e.lexemes
  | .binary l op r => l.lexemes ++ op :: r.lexemes

/-- The arguments of a call, separated by commas. -/
def argLexemes : List Expr → List String
  | [] => []
  | e :: rest => e.lexemes ++ (rest.map (fun a => "," :: a.lexemes)).flatten

/-- Statements: `return`, with or without a value, and `do` with a call. -/
inductive Statement where
  | ret (value : Option Expr) : Statement
  | call (receiver : Option String) (name : String) (args : List Expr) : Statement

/-- The lexemes of a statement. -/
def Statement.lexemes : Statement → List String
  | .ret none => ["return", ";"]
  | .ret (some e) => "return" :: e.lexemes ++ [";"]
  | .call none name args => ["do", name, "("] ++ argLexemes args ++ [")", ";"]
  | .call (some r) name args => ["do", r, ".", name, "("] ++ argLexemes args ++ [")", ";"]

/-- Every lexeme of the statement is of the right class. -/
def Statement.ok : Statement → Bool
  | .ret none => true
  | .ret (some e) => e.ok
  | .call none name args => isIdent name && args.all Expr.ok
  | .call (some r) name args => isIdent r && isIdent name && args.all Expr.ok

/-- The value of a `return`, if any, has no parentheses. -/
def Statement.returnParenFree : Statement → Bool
  | .ret (some e) => e.parenFree
  | _ => true

/-- A function declaration: return type (`void` or a type name), name, typed
parameters and a body of statements. -/
structure Subroutine where
  returnType : String
  name : String
  params : List (String × String)
  body : List Statement

/-- The parameters, separated by commas. -/
def paramLexemes : List (String × String) → List String
  | [] => []
  | p :: rest => [p.1, p.2] ++ (rest.map (fun q => [",", q.1, q.2])).flatten

/-- The lexemes of a function declaration. -/
def Subroutine.lexemes (s : Subroutine) : List String :=
  ["function", s.returnType, s.name, "("] ++ paramLexemes s.params ++ [")", "\x7b"] ++
    (s.body.map Statement.lexemes).flatten ++ ["\x7d"]

/-- Every lexeme of the function declaration is of the right class. -/
def Subroutine.ok (s : Subroutine) : Bool :=
  (s.returnType == "void" || isIdent s.returnType) && isIdent s.name &&
    s.params.all (fun p => isIdent p.1 && isIdent p.2) && s.body.all Statement.ok

/-- A class: an optional name and function declarations. -/
structure ClassDecl where
  name : Option String
  subroutines : List Subroutine

/-- The lexemes of a class. -/
def ClassDecl.lexemes (c : ClassDecl) : List String :=
  "class" :: (match c.name with
    | none => []
    | some n => [n]) ++ ["\x7b"] ++
    (c.subroutines.map Subroutine.lexemes).flatten ++ ["\x7d"]

/-- Every lexeme of the class is of the right class. -/
def ClassDecl.ok (c : ClassDecl) : Bool :=
  (match c.name with
    | none => true
    | some n => isIdent n) && c.subroutines.all Subroutine.ok

/-- No `return` of the class has a parenthesised value. -/
def ClassDecl.returnsParenFree (c : ClassDecl) : Bool :=
  c.subroutines.all (fun s => s.body.all Statement.returnParenFree)

/-- A well-formed input: the scan splits it into exactly the lexemes of a class
whose body holds function declarations with a parameter list and a body of
return and do statements with balanced parenthesised expressions, and no
unfinished run is left in the buffer. -/
def WellFormed (input : List Char) : Prop :=
  ∃ c : ClassDecl, c.ok = true ∧ lexScan "" input = (c.lexemes, "")

/-- A well-formed input in which parentheses occur in expressions only inside
the argument list of a `do` call. -/
def WellFormedPlainReturn (input : List Char) : Prop :=
  ∃ c : ClassDecl, c.ok = true ∧ c.returnsParenFree = true ∧
    lexScan "" input = (c.lexemes, "")

/-- An input with a parenthesised return value. -/
def parenReturnInput : List Char :=
  "class\x7bfunction void f()\x7breturn(5);\x7d\x7d".toList

/-! ## Shapes used by the statements about nesting -/

/-- The lexemes of an atom `x` inside `k` pairs of parentheses. -/
def nestedLexemes (x : String) : Nat → List String
  | 0 => [x]
  | k + 1 => "(" :: (nestedLexemes x k ++ [")"])

/-- The subtree expected for an atom `x` of class `kind` inside `k` pairs of
parentheses: `term[x]` for `k = 0`, and one `term[(, expression[..], )]`
around the shape for `k` otherwise. -/
def nestedTerm (kind x : String) : Nat → Tree
  | 0 => Tree.node "term" "" [Tree.node kind x []]
  | k + 1 => Tree.node "term" "" [Tree.node "symbol" "(" [],
      Tree.node "expression" "" [nestedTerm kind x k], Tree.node "symbol" ")" []]

/-! ## The calls of `ProcessToken` made by the scanning loop -/

/-- The body of the `for scanner.Scan()` loop of Go `Tokeniser.Tokenise` for
the rune `c`, instrumented: the arguments of the `ProcessToken` calls it
makes, in order, next to the state it leaves.  A failed stack access inside a
call ends the program, so no later call is made. -/
def Tokeniser.scanStepTrace (t : Tokeniser) (c : Char) : List String × Option Tokeniser :=
  let char := String.singleton c
  let isTokenTerminator := (isSymbol char || isWhitespace char) && t.tokenBeingParsed != ""
  let flushed : List String × Option Tokeniser :=
    if isTokenTerminator then
      ([t.tokenBeingParsed],
        (t.ProcessToken t.tokenBeingParsed).map (fun t0 => { t0 with tokenBeingParsed := "" }))
    else ([], some t)
  match flushed with
  | (calls, none) => (calls, none)
  | (calls, some t1) =>
    if isWhitespace char then (calls, some t1)
    else if isSymbol char then
      (calls ++ [char],
        (t1.ProcessToken char).map (fun t2 => { t2 with tokenBeingParsed := "" }))
    else (calls, some { t1 with tokenBeingParsed := t1.tokenBeingParsed ++ char })

/-- Go `Tokeniser.Tokenise`, instrumented in the same way: all `ProcessToken`
arguments of the scan, in call order, and the final state if no stack access
failed. -/
def Tokeniser.TokeniseTrace (t : Tokeniser) : List Char → List String × Option Tokeniser
  | [] => ([], some t)
  | c :: cs =>
    match t.scanStepTrace c with
    | (calls, none) => (calls, none)
    | (calls, some t1) => (calls ++ (t1.TokeniseTrace cs).1, (t1.TokeniseTrace cs).2)

/-! ## The leaves of a tree and the elementary moves of the builder -/

/-- The kinds of the terminal nodes. -/
def isTerminalKind (k : String) : Bool :=
  k == "keyword" || k == "symbol" || k == "identifier" || k == "integerConstant"

mutual
/-- The terminal leaves below a node, left to right, as pairs of kind and
literal, in the order in which `printTokenTree` prints them. -/
def Tree.leaves : Tree → List (String × String)
  | .node k lit cs => if isTerminalKind k then [(k, lit)] else leavesList cs
/-- The terminal leaves of a list of siblings, left to right. -/
def leavesList : List Tree → List (String × String)
  | [] => []
  | t :: ts => t.leaves ++ leavesList ts
end

/-- The leaf that a processed lexeme is expected to contribute: its class by
`GetTokenType` and the lexeme itself; nothing for a closing bracket and for a
lexeme without a class. -/
def expectedLeaf (x : String) : Option (String × String) :=
  if x == "]" then none
  else if GetTokenType x == "" then none
  else some (GetTokenType x, x)

/-- The elementary moves that the handlers of `ProcessToken` are composed of,
each with the leaves it adds to the tree: `AddToken` of a fresh leaf; `AddToken`
and `UpdateCurrentContext` of a fresh structural node (empty, or a skeleton of
the table with its keyword leaf); the same for the `statements` node, which
is only opened on a `subroutineBody` on a `subroutineDec`; a `Pop` of one
entry; and an assignment to the buffer. -/
inductive Step : Tokeniser → List (String × String) → Tokeniser → Prop
  | leaf (t : Tokeniser) (e : Nat) (E : Token) (k x : String) :
      t.currentTokenStack.Peek = some e → t.deref e = some E → isTerminalKind k = true →
      Step t [(k, x)] { t with
        heap := (t.heap.set e (E.addChild t.heap.length) ++ [Token.mk k x []]) }
  | openEmpty (t : Tokeniser) (e : Nat) (E : Token) (k : String) :
      t.currentTokenStack.Peek = some e → t.deref e = some E →
      k ∈ ["expression", "term", "parameterList", "expressionList", "subroutineBody"] →
      Step t [] { t with
        currentTokenStack := ⟨t.currentTokenStack.items ++ [t.heap.length]⟩
        heap := (t.heap.set e (E.addChild t.heap.length) ++ [Token.mk k "" []]) }
  | openSkeleton (t : Tokeniser) (e : Nat) (E : Token) (key : String) :
      t.currentTokenStack.Peek = some e → t.deref e = some E →
      key ∈ ["class", "function", "return", "do"] →
      Step t [("keyword", key)] { t with
        currentTokenStack := ⟨t.currentTokenStack.items ++ [t.heap.length]⟩
        heap := (t.heap.set e (E.addChild t.heap.length) ++ [initialTokens key]) }
  | openStatements (t : Tokeniser) (S : List Nat) (d b : Nat) (D B : Token) :
      t.currentTokenStack.items = S ++ [d, b] →
      t.deref d = some D → D.tokenType = "subroutineDec" →
      t.deref b = some B → B.tokenType = "subroutineBody" →
      Step t [] { t with
        currentTokenStack := ⟨t.currentTokenStack.items ++ [t.heap.length]⟩
        heap := (t.heap.set b (B.addChild t.heap.length) ++ [Token.mk "statements" "" []]) }
  | pop (t : Tokeniser) (S : List Nat) (e : Nat) :
      t.currentTokenStack.items = S ++ [e] →
      Step t [] { t with currentTokenStack := ⟨S⟩ }
  | setBuffer (t : Tokeniser) (b : String) :
      Step t [] { t with tokenBeingParsed := b }

/-- A sequence of elementary moves, with the leaves it adds in order. -/
inductive Evolves : Tokeniser → List (String × String) → Tokeniser → Prop
  | refl (t : Tokeniser) : Evolves t [] t
  | tail (t t1 t2 : Tokeniser) (L1 L2 : List (String × String)) :
      Evolves t L1 t1 → Step t1 L2 t2 → Evolves t (L1 ++ L2) t2

/-- The state `t` is reached from `t0` by elementary moves that add the leaves
`L`, and its stack lies inside its heap. -/
def Reach (t0 : Tokeniser) (L : List (String × String)) (t : Tokeniser) : Prop :=
  Evolves t0 L t ∧ t.Valid

/-- The shape of the context stack: empty, or the root of `NewTokeniser` at
the bottom and nowhere else. -/
def RootAtBottom (items : List Nat) : Prop :=
  items = [] ∨ ∃ rest, items = 4 :: rest ∧ 4 ∉ rest

/-- Every `statements` on a stack of kinds stands on a `subroutineBody` on a
`subroutineDec`. -/
def StatementsNested (ks : List String) : Prop :=
  ∀ A B, ks = A ++ "statements" :: B → ∃ A', A = A' ++ ["subroutineDec", "subroutineBody"]

/-- Every node of a terminal kind has no children, and every entry of the
context stack is a node of a structural kind. -/
def Tokeniser.TerminalsAreLeaves (t : Tokeniser) : Prop :=
  (∀ (p : Nat) (tok : Token), t.heap[p]? = some tok → isTerminalKind tok.tokenType = true →
    tok.children = []) ∧
    ∀ p ∈ t.currentTokenStack.items,
      ∃ tok, t.heap[p]? = some tok ∧ isTerminalKind tok.tokenType = false

/-! ## The open spine of the tree -/

/-- The heap `H'` agrees with `H` on the global leaves and on the addresses
from `lo` up to `hi`. -/
def Agree (H H' : List Token) (lo hi : Nat) : Prop :=
  ∀ i, (i < 4 ∨ (lo ≤ i ∧ i < hi)) → H'[i]? = H[i]?

/-- The nodes at the addresses `cs` are finished subtrees whose leaves, left to
right, are `L`: they read as trees with these leaves in every heap that agrees
with `H` on the global leaves and on the addresses from `lo` up to `hi`. -/
def ClosedList (H : List Token) (lo hi : Nat) (cs : List Nat) (L : List (String × String)) :
    Prop :=
  ∃ fuel ts, leavesList ts = L ∧
    ∀ H', Agree H H' lo hi → collect (cs.map (treeOf H' fuel)) = some ts

/-- The node on top of the context stack: a structural node above the global
leaves all of whose children are finished subtrees, with leaves `L`. -/
def Top (H : List Token) (hi e : Nat) (L : List (String × String)) : Prop :=
  ∃ tok, H[e]? = some tok ∧ isTerminalKind tok.tokenType = false ∧ 4 ≤ e ∧ e < hi ∧
    ClosedList H (e + 1) hi tok.children L

/-- The context stack below its top entry `e`, top first: every entry is a
structural node whose last child is the entry above it and whose other
children are finished subtrees allocated before that entry; the bottom entry
is the root of `NewTokeniser`.  `L` are the leaves of those finished subtrees,
left to right. -/
def Chain (H : List Token) : Nat → List Nat → List (String × String) → Prop
  | e, [], L => L = [] ∧ e = 4
  | e, d :: below, L => ∃ tok cs L1 L2, H[d]? = some tok ∧
      isTerminalKind tok.tokenType = false ∧ 4 ≤ d ∧ d < e ∧ tok.children = cs ++ [e] ∧
      ClosedList H (d + 1) e cs L2 ∧ Chain H d below L1 ∧ L = L1 ++ L2

/-- The tree under construction: the global leaves are in place, and either
the context stack is empty and the root is a finished tree with leaves `L`,
or the stack is a chain of open nodes from the root to the top, whose
finished subtrees have the leaves `L`. -/
def Spine (t : Tokeniser) (L : List (String × String)) : Prop :=
  t.heap.take 4 = globalHeap ∧
    ((t.currentTokenStack.items = [] ∧ ClosedList t.heap 4 t.heap.length [4] L) ∨
      ∃ e below Lpre Ltop, t.currentTokenStack.items.reverse = e :: below ∧
        L = Lpre ++ Ltop ∧ Chain t.heap e below Lpre ∧ Top t.heap t.heap.length e Ltop)

/-! ## Basic facts about the embedding -/

theorem run_cons (t : Tokeniser) (x : String) (xs : List String) :
    t.run (x :: xs) = (t.ProcessToken x).bind (fun t1 => t1.run xs) := by
  simp [Tokeniser.run, List.foldlM_cons]

theorem run_nil (t : Tokeniser) : t.run [] = some t := rfl

theorem Tokenise_append (t : Tokeniser) (a b : List Char) :
    t.Tokenise (a ++ b) = (t.Tokenise a).bind (fun t1 => t1.Tokenise b) := by
  simp [Tokeniser.Tokenise, List.foldlM_append]

theorem Tokenise_cons (t : Tokeniser) (c : Char) (cs : List Char) :
    t.Tokenise (c :: cs) = (t.scanStep c).bind (fun t1 => t1.Tokenise cs) := by
  simp [Tokeniser.Tokenise, List.foldlM_cons]

theorem Tokenise_nil (t : Tokeniser) : t.Tokenise [] = some t := rfl

theorem shouldEnd_symbol (token : String) (h : shouldEndCurrentTokenGroup token = true) :
    GetTokenType token = "symbol" := by
  simp only [shouldEndCurrentTokenGroup, List.any_cons, List.any_nil, Bool.or_false,
    Bool.or_eq_true, beq_iff_eq] at h
  rcases h with h | h | h | h <;> subst h <;> decide

theorem shouldOpen_symbol (token : String) (h : shouldOpenNewTokenGroup token = true) :
    GetTokenType token = "symbol" := by
  simp only [shouldOpenNewTokenGroup, List.any_cons, List.any_nil, Bool.or_false,
    Bool.or_eq_true, beq_iff_eq] at h
  rcases h with h | h | h <;> subst h <;> decide

/-- A dereferenced address lies inside the heap. -/
theorem deref_lt (t : Tokeniser) (e : Nat) (E : Token) (hE : t.deref e = some E) :
    e < t.heap.length := by
  unfold Tokeniser.deref at hE
  by_contra hc
  rw [List.getElem?_eq_none (by omega)] at hE
  exact absurd hE (by simp)

/-- An identifier or integer constant is neither a closing nor an opening
symbol. -/
theorem atom_flags (x k : String) (hk : GetTokenType x = k)
    (hk2 : k = "integerConstant" ∨ k = "identifier") :
    shouldEndCurrentTokenGroup x = false ∧ shouldOpenNewTokenGroup x = false := by
  constructor
  · by_contra hc
    have := shouldEnd_symbol x (by simpa using hc)
    rw [hk] at this
    rcases hk2 with h | h <;> subst h <;> exact absurd this (by decide)
  · by_contra hc
    have := shouldOpen_symbol x (by simpa using hc)
    rw [hk] at this
    rcases hk2 with h | h <;> subst h <;> exact absurd this (by decide)

/-! ### Heap look-ups after allocation -/

@[simp] theorem get_new_zero (A L : List Token) (n : Nat) (h : A.length = n) :
    (A ++ L)[n]? = L[0]? := by
  subst h
  rw [List.getElem?_append_right (Nat.le_refl _)]
  simp

@[simp] theorem get_new_add (A L : List Token) (n i : Nat) (h : A.length = n) :
    (A ++ L)[n + i]? = L[i]? := by
  subst h
  rw [List.getElem?_append_right (Nat.le_add_right _ _)]
  simp

@[simp] theorem get_old (A L : List Token) (e : Nat) (h : e < A.length) :
    (A ++ L)[e]? = A[e]? := List.getElem?_append_left h

/-! ### Single dispatch steps in an expression context -/

/-- An identifier or integer constant with an `expression` on top: a fresh
`term` holding the leaf is appended, the stack is unchanged. -/
theorem step_atom_expression (t : Tokeniser) (e : Nat) (E : Token) (x k : String)
    (hs : t.currentTokenStack.Peek = some e) (hE : t.deref e = some E)
    (hkind : E.tokenType = "expression")
    (hk : GetTokenType x = k) (hk2 : k = "integerConstant" ∨ k = "identifier") :
    t.ProcessToken x = some { t with heap := (t.heap.set e (E.addChild t.heap.length) ++
      [Token.mk "term" "" [t.heap.length + 1], Token.mk k x []]) } := by
  have hlt := deref_lt t e E hE
  obtain ⟨h1, h2⟩ := atom_flags x k hk hk2
  obtain ⟨buf, ⟨items⟩, toks, heap⟩ := t
  simp only [Tokeniser.deref] at hE hlt
  simp only [TokenContextStack.Peek] at hs
  obtain ⟨S, rfl⟩ := List.getLast?_eq_some_iff.mp hs
  rcases hk2 with rfl | rfl <;>
  simp [Tokeniser.ProcessToken, h1, h2, hk, Tokeniser.CheckCurrentContext, Tokeniser.checkLoop,
      TokenContextStack.Peek, Tokeniser.deref, hE, hkind, Tokeniser.alloc, Tokeniser.AddToken,
      Tokeniser.UpdateCurrentContext, TokenContextStack.Push,
      Tokeniser.PopContextStack, TokenContextStack.Pop, Token.addChild, hlt,
      -List.getElem?_eq_getElem, List.getElem?_cons_zero, List.getElem?_cons_succ,
      List.take_append, List.set_append_right, List.set_append_left, List.set_set]

/-- One of the operators that `handleSymbol` singles out, with an `expression`
on top: the symbol leaf is appended, the stack is unchanged. -/
theorem step_operator_expression (t : Tokeniser) (e : Nat) (E : Token) (op : String)
    (hs : t.currentTokenStack.Peek = some e) (hE : t.deref e = some E)
    (hkind : E.tokenType = "expression") (hop : op ∈ ["+", "*", "/"]) :
    t.ProcessToken op = some { t with heap := (t.heap.set e (E.addChild t.heap.length) ++
      [Token.mk "symbol" op []]) } := by
  have hlt := deref_lt t e E hE
  obtain ⟨buf, ⟨items⟩, toks, heap⟩ := t
  simp only [Tokeniser.deref] at hE hlt
  simp only [TokenContextStack.Peek] at hs
  obtain ⟨S, rfl⟩ := List.getLast?_eq_some_iff.mp hs
  simp only [List.mem_cons, List.mem_singleton, List.not_mem_nil, or_false] at hop
  rcases hop with rfl | rfl | rfl <;>
  simp [Tokeniser.ProcessToken, shouldEndCurrentTokenGroup, shouldOpenNewTokenGroup,
      show GetTokenType "+" = "symbol" by decide, show GetTokenType "*" = "symbol" by decide,
      show GetTokenType "/" = "symbol" by decide, Tokeniser.handleSymbol,
      TokenContextStack.Peek, Tokeniser.deref, hE, hkind, Tokeniser.alloc, Tokeniser.AddToken,
      Token.addChild, hlt,
      -List.getElem?_eq_getElem, List.getElem?_cons_zero, List.getElem?_cons_succ,
      List.take_append, List.set_append_right, List.set_append_left, List.set_set]

/-- An opening parenthesis with an `expression` on top: a `term` holding the
symbol and a fresh inner `expression` are appended and both are pushed. -/
theorem step_open_paren_expression (t : Tokeniser) (e : Nat) (E : Token)
    (hs : t.currentTokenStack.Peek = some e) (hE : t.deref e = some E)
    (hkind : E.tokenType = "expression") :
    t.ProcessToken "(" = some { t with
      currentTokenStack := ⟨t.currentTokenStack.items ++ [t.heap.length, t.heap.length + 2]⟩
      heap := (t.heap.set e (E.addChild t.heap.length) ++
        [Token.mk "term" "" [t.heap.length + 1, t.heap.length + 2], Token.mk "symbol" "(" [],
          Token.mk "expression" "" []]) } := by
  have hlt := deref_lt t e E hE
  obtain ⟨buf, ⟨items⟩, toks, heap⟩ := t
  simp only [Tokeniser.deref] at hE hlt
  simp only [TokenContextStack.Peek] at hs
  obtain ⟨S, rfl⟩ := List.getLast?_eq_some_iff.mp hs
  simp [Tokeniser.ProcessToken, shouldEndCurrentTokenGroup, shouldOpenNewTokenGroup,
      Tokeniser.openNewTokenGroup, Tokeniser.CheckCurrentContext, Tokeniser.checkLoop,
      TokenContextStack.Peek, Tokeniser.deref, hE, hkind, Tokeniser.alloc, Tokeniser.AddToken,
      Tokeniser.UpdateCurrentContext, TokenContextStack.Push,
      Token.addChild, hlt,
      -List.getElem?_eq_getElem, List.getElem?_cons_zero, List.getElem?_cons_succ,
      List.take_append, List.set_append_right, List.set_append_left, List.set_set]

/-- A closing parenthesis with an `expression` on top of a `term`: both are
popped and the symbol leaf is appended to the `term`. -/
theorem step_close_paren_term (t : Tokeniser) (S : List Nat) (tm x : Nat) (T X : Token)
    (hs : t.currentTokenStack.items = S ++ [tm, x])
    (hX : t.deref x = some X) (hkX : X.tokenType = "expression")
    (hT : t.deref tm = some T) (hkT : T.tokenType = "term") :
    t.ProcessToken ")" = some { t with
      currentTokenStack := ⟨S⟩
      heap := (t.heap.set tm (T.addChild t.heap.length) ++ [Token.mk "symbol" ")" []]) } := by
  have hlt := deref_lt t x X hX
  have hlt2 := deref_lt t tm T hT
  obtain ⟨buf, ⟨items⟩, toks, heap⟩ := t
  simp only [Tokeniser.deref] at hX hT hlt hlt2
  simp only at hs
  subst hs
  simp [Tokeniser.ProcessToken, shouldEndCurrentTokenGroup, shouldOpenNewTokenGroup,
      Tokeniser.endCurrentTokenGroup, Tokeniser.CheckCurrentContext, Tokeniser.checkLoop,
      Tokeniser.handleSymbol,
      TokenContextStack.Peek, Tokeniser.deref, hX, hT, hkX, hkT, Tokeniser.alloc,
      Tokeniser.AddToken, Tokeniser.PopContextStack, TokenContextStack.Pop,
      Token.addChild, hlt, hlt2,
      -List.getElem?_eq_getElem, List.getElem?_cons_zero, List.getElem?_cons_succ,
      List.take_append, List.set_append_right, List.set_append_left, List.set_set]

/-! ### Character classes of the classifier -/

theorem char_of_toNat (c : Char) (n : Nat) (h : c.toNat = n) : c = Char.ofNat n := by
  rw [← h, Char.ofNat_toNat]

theorem isDigit_iff (c : Char) : isDigit c = true ↔ c ∈ asciiDigits := by
  constructor
  · intro h
    simp only [isDigit, Bool.and_eq_true, decide_eq_true_eq] at h
    obtain ⟨h1, h2⟩ := h
    generalize hn : c.toNat = n at h1 h2
    have hc := char_of_toNat c n hn
    subst hc
    interval_cases n <;> decide
  · intro h
    simp only [asciiDigits, List.mem_cons, List.mem_singleton, List.not_mem_nil, or_false] at h
    rcases h with h | h | h | h | h | h | h | h | h | h <;> subst h <;> decide

theorem isIdentStart_iff (c : Char) : isIdentStart c = true ↔ (c ∈ asciiLetters ∨ c = '_') := by
  constructor
  · intro h
    simp only [isIdentStart, Bool.or_eq_true, Bool.and_eq_true, decide_eq_true_eq,
      beq_iff_eq] at h
    generalize hn : c.toNat = n at h
    have hc := char_of_toNat c n hn
    subst hc
    rcases h with (⟨h1, h2⟩ | ⟨h1, h2⟩) | h
    · left; interval_cases n <;> decide
    · left; interval_cases n <;> decide
    · right; subst h; rfl
  · intro h
    rcases h with h | h
    · revert c
      decide
    · subst h; decide

theorem isWordChar_iff (c : Char) :
    isWordChar c = true ↔ (c ∈ asciiLetters ∨ c ∈ asciiDigits ∨ c = '_') := by
  simp only [isWordChar, Bool.or_eq_true, isDigit_iff, isIdentStart_iff]
  tauto

theorem matchIdentifier_iff (s : String) : matchIdentifier s = true ↔ IsIdentifierShape s := by
  unfold matchIdentifier IsIdentifierShape
  cases hd : s.data with
  | nil => simp
  | cons c cs =>
    simp only [Bool.and_eq_true, List.all_eq_true, isIdentStart_iff, isWordChar_iff,
      List.cons.injEq]
    constructor
    · rintro ⟨h1, h2⟩
      exact ⟨c, cs, ⟨rfl, rfl⟩, h1, h2⟩
    · rintro ⟨c', cs', ⟨rfl, rfl⟩, h1, h2⟩
      exact ⟨h1, h2⟩

theorem matchDigits_iff (s : String) (hs : s ≠ "") : matchDigits s = true ↔ IsDigitRun s := by
  unfold matchDigits IsDigitRun
  have hne : s.data ≠ [] := by
    intro h
    apply hs
    cases s
    simp_all
  simp only [List.all_eq_true, isDigit_iff, ne_eq, hne, not_false_eq_true, true_and]

theorem keyword_any_iff (s : String) :
    keywords.any (fun keyword => s == keyword) = true ↔
      s ∈ ["class", "function", "void", "return", "do"] := by
  simp [keywords]

theorem isSymbol_iff (s : String) :
    isSymbol s = true ↔
      s ∈ ["\x7b", "\x7d", "(", ")", "[", "]", ".", ",", ";", "+", "-", "*", "/", "&", "|", "<",
        ">", "=", "~"] := by
  unfold isSymbol symbols
  by_cases h : s = ""
  · subst h; decide
  · simp [h]

/-! ### The scanning loop and whitespace -/

theorem scanStep_whitespace_empty (t : Tokeniser) (w : Char)
    (hb : t.tokenBeingParsed = "") (hw : isWhitespace (String.singleton w) = true) :
    t.scanStep w = some t := by
  simp [Tokeniser.scanStep, hb, hw]

/-- After a symbol or whitespace character the buffer is empty. -/
theorem scanStep_separator_buffer (t t' : Tokeniser) (c : Char)
    (hc : isSeparator c = true) (h : t.scanStep c = some t') : t'.tokenBeingParsed = "" := by
  unfold isSeparator at hc
  unfold Tokeniser.scanStep at h
  by_cases hb : t.tokenBeingParsed = ""
  · by_cases hw : isWhitespace (String.singleton c) = true
    · simp [hb, hw] at h
      rw [← h]; exact hb
    · have hsym : isSymbol (String.singleton c) = true := by simpa [hw] using hc
      simp only [hb, hw, hsym] at h
      cases hp : t.ProcessToken (String.singleton c) with
      | none => simp [hp] at h
      | some t2 => simp [hp] at h; rw [← h]
  · cases hp : t.ProcessToken t.tokenBeingParsed with
    | none => simp [hc, hb, hp] at h
    | some t0 =>
      by_cases hw : isWhitespace (String.singleton c) = true
      · simp [hc, hb, hp, hw] at h
        rw [← h]
      · have hsym : isSymbol (String.singleton c) = true := by simpa [hw] using hc
        simp only [hw, hsym] at h
        simp [hb, hp] at h
        cases hp2 : Tokeniser.ProcessToken { t0 with tokenBeingParsed := "" }
            (String.singleton c) with
        | none => simp [hp2] at h
        | some t2 => simp [hp2] at h; rw [← h]

/-- A whitespace character in front of a symbol or whitespace character only
brings the flush of the buffer forward. -/
theorem scanStep_whitespace_then_separator (t : Tokeniser) (w c : Char)
    (hw : isWhitespace (String.singleton w) = true) (hc : isSeparator c = true) :
    (t.scanStep w).bind (fun t1 => t1.scanStep c) = t.scanStep c := by
  by_cases hb : t.tokenBeingParsed = ""
  · rw [scanStep_whitespace_empty t w hb hw]; rfl
  · unfold isSeparator at hc
    cases hp : t.ProcessToken t.tokenBeingParsed with
    | none => simp [Tokeniser.scanStep, hw, hb, hp, hc]
    | some t0 => simp [Tokeniser.scanStep, hw, hb, hp, hc]

/-! ## The builder and the machine on kinds -/

/-! ### Kinds are stable under the heap updates of the builder -/

theorem kindOf_ge (H : List Token) (p : Nat) (hp : H.length ≤ p) : kindOf H p = "" := by
  simp [kindOf, List.getElem?_eq_none hp]

theorem Ext.refl (H : List Token) : Ext H H :=
  ⟨Nat.le_refl _, fun _ _ => rfl, fun p hp => by rw [kindOf_ge H p hp]; decide⟩

theorem Ext.trans {H1 H2 H3 : List Token} (h12 : Ext H1 H2) (h23 : Ext H2 H3) : Ext H1 H3 :=
  ⟨Nat.le_trans h12.1 h23.1, fun p hp => by
    rw [h23.2.1 p (Nat.lt_of_lt_of_le hp h12.1), h12.2.1 p hp], fun p hp => by
    by_cases h2 : p < H2.length
    · rw [h23.2.1 p h2]
      exact h12.2.2 p hp
    · exact h23.2.2 p (by omega)⟩

theorem Ext.alloc (H : List Token) (N : Token) (hN : N.tokenType ≠ "root") :
    Ext H (H ++ [N]) :=
  ⟨by simp, fun p hp => by simp [kindOf, List.getElem?_append_left hp], fun p hp => by
    by_cases h2 : p = H.length
    · subst h2
      simpa [kindOf] using hN
    · rw [kindOf_ge (H ++ [N]) p (by simp; omega)]
      decide⟩

theorem kindOf_set (H : List Token) (e : Nat) (E E' : Token) (hE : H[e]? = some E)
    (hk : E'.tokenType = E.tokenType) (p : Nat) : kindOf (H.set e E') p = kindOf H p := by
  unfold kindOf
  by_cases hp : e = p
  · subst hp
    have hlt : e < H.length := by
      by_contra hc
      rw [List.getElem?_eq_none (by omega)] at hE
      exact absurd hE (by simp)
    rw [List.getElem?_set_self hlt, hE]
    exact hk
  · rw [List.getElem?_set_ne hp]

theorem Ext.set (H : List Token) (e : Nat) (E E' : Token) (hE : H[e]? = some E)
    (hk : E'.tokenType = E.tokenType) : Ext H (H.set e E') :=
  ⟨by simp, fun p _ => kindOf_set H e E E' hE hk p, fun p hp => by
    rw [kindOf_set H e E E' hE hk p, kindOf_ge H p hp]
    decide⟩

theorem kindOf_new (H : List Token) (N : Token) : kindOf (H ++ [N]) H.length = N.tokenType := by
  simp [kindOf]

/-! ### The relation between a state and its stack of kinds -/

theorem OSim_some (b : String) (H : List Token) (t : Tokeniser) (ks : List String) :
    OSim b H (some t) (some ks) ↔ Rel b H t ks := Iff.rfl

theorem OSim_none (b : String) (H : List Token) : OSim b H none none := trivial

theorem Rel.mono {b : String} {H0 H : List Token} {t : Tokeniser} {ks : List String}
    (hE : Ext H0 H) (h : Rel b H t ks) : Rel b H0 t ks :=
  ⟨h.1, h.2.1, h.2.2.1, hE.trans h.2.2.2⟩

theorem OSim.weaken {b : String} {H0 H : List Token} {r : Option Tokeniser}
    {a : Option (List String)} (hE : Ext H0 H) (h : OSim b H r a) : OSim b H0 r a := by
  cases r <;> cases a <;> simp only [OSim] at h ⊢
  exact h.mono hE

theorem OSim.bind {b : String} {H : List Token} {r : Option Tokeniser}
    {a : Option (List String)} {f : Tokeniser → Option Tokeniser}
    {g : List String → Option (List String)} (h1 : OSim b H r a)
    (h2 : ∀ t ks, Rel b H t ks → OSim b H (f t) (g ks)) : OSim b H (r >>= f) (a >>= g) := by
  cases r <;> cases a <;> simp only [OSim] at h1
  · exact trivial
  · exact h2 _ _ h1

theorem OSim.bind_same {b : String} {H : List Token} {α : Type} (o : Option α)
    {f : α → Option Tokeniser} {g : α → Option (List String)}
    (h : ∀ x, OSim b H (f x) (g x)) : OSim b H (o >>= f) (o >>= g) := by
  cases o
  · exact trivial
  · exact h _

/-- The top of the stack, seen from both sides. -/
theorem Rel.top {b : String} {H : List Token} {t : Tokeniser} {ks : List String}
    (h : Rel b H t ks) :
    (ks = [] ∧ t.currentTokenStack.items = []) ∨
    (∃ S e E, t.currentTokenStack.items = S ++ [e] ∧ t.heap[e]? = some E ∧
      ks = S.map (kindOf t.heap) ++ [E.tokenType]) := by
  obtain ⟨hv, hk, -, -⟩ := h
  rcases List.eq_nil_or_concat t.currentTokenStack.items with hnil | ⟨S, e, hS⟩
  · left
    refine ⟨?_, hnil⟩
    rw [← hk, Tokeniser.kinds, hnil]; rfl
  · right
    rw [List.concat_eq_append] at hS
    have hlt : e < t.heap.length := hv e (by rw [hS]; simp)
    refine ⟨S, e, t.heap[e], hS, List.getElem?_eq_getElem hlt, ?_⟩
    rw [← hk, Tokeniser.kinds, hS]
    simp [kindOf, List.getElem?_eq_getElem hlt]

theorem Rel.peek {b : String} {H : List Token} {t : Tokeniser} {ks : List String}
    (h : Rel b H t ks) :
    (ks.getLast? = none ∧ t.currentTokenStack.Peek = none) ∨
    (∃ e E, t.currentTokenStack.Peek = some e ∧ t.deref e = some E ∧
      ks.getLast? = some E.tokenType) := by
  rcases h.top with ⟨h1, h2⟩ | ⟨S, e, E, h1, h2, h3⟩
  · left; simp [h1, h2, TokenContextStack.Peek]
  · right
    exact ⟨e, E, by simp [TokenContextStack.Peek, h1], h2, by simp [h3]⟩

theorem checkLoop_eq (t : Tokeniser) (e : Nat) (E : Token)
    (hs : t.currentTokenStack.Peek = some e) (hE : t.deref e = some E) (l : List String)
    (m : Bool) : t.checkLoop l m = some (m || l.any (fun c => E.tokenType == c)) := by
  induction l generalizing m with
  | nil => simp [Tokeniser.checkLoop]
  | cons c cs ih =>
    simp only [Tokeniser.checkLoop, hs, hE, Option.bind_eq_bind, Option.some_bind, ih,
      List.any_cons]
    by_cases hc : E.tokenType == c <;> simp [hc]

theorem check_eq {b : String} {H : List Token} {t : Tokeniser} {ks : List String}
    (h : Rel b H t ks) (l : List String) : t.CheckCurrentContext l = absCheck ks l := by
  cases l with
  | nil => rfl
  | cons c cs =>
    rcases h.peek with ⟨h1, h2⟩ | ⟨e, E, h1, h2, h3⟩
    · simp [Tokeniser.CheckCurrentContext, Tokeniser.checkLoop, absCheck, h1, h2]
    · rw [Tokeniser.CheckCurrentContext, checkLoop_eq t e E h1 h2]
      simp [absCheck, h3]

theorem sim_pop {b : String} {H : List Token} {t : Tokeniser} {ks : List String}
    (h : Rel b H t ks) (count : List Nat) :
    OSim b H (t.PopContextStack count)
      (absPop ks (match count with
        | [] => 1
        | c0 :: _ => c0)) := by
  obtain ⟨hv, hk, hb, hE⟩ := h
  have hlen : ks.length = t.currentTokenStack.items.length := by
    rw [← hk, Tokeniser.kinds, List.length_map]
  cases count with
  | nil =>
    simp only [Tokeniser.PopContextStack, TokenContextStack.Pop, absPop, hlen]
    by_cases hc : 1 ≤ t.currentTokenStack.items.length
    · simp only [hc, if_true, Option.bind_eq_bind, Option.some_bind, Option.pure_def, OSim_some]
      refine ⟨?_, ?_, hb, hE⟩
      · intro p hp
        exact hv p (List.mem_of_mem_take hp)
      · rw [← hk]
        simp [Tokeniser.kinds, List.map_take]
    · simp only [hc, if_false, Option.bind_eq_bind, Option.none_bind]
      exact trivial
  | cons c0 cs =>
    simp only [Tokeniser.PopContextStack, TokenContextStack.Pop, absPop, hlen]
    by_cases hc : c0 ≤ t.currentTokenStack.items.length
    · simp only [hc, if_true, Option.bind_eq_bind, Option.some_bind, Option.pure_def, OSim_some]
      refine ⟨?_, ?_, hb, hE⟩
      · intro p hp
        exact hv p (List.mem_of_mem_take hp)
      · rw [← hk]
        simp [Tokeniser.kinds, List.map_take]
    · simp only [hc, if_false, Option.bind_eq_bind, Option.none_bind]
      exact trivial

/-- `AddToken` of a freshly allocated node: the kinds of the stack are kept,
and the heap now extends the heap with the new node. -/
theorem sim_add {b : String} {H : List Token} {t : Tokeniser} {ks : List String}
    (h : Rel b H t ks) (N : Token) (hN : N.tokenType ≠ "root") :
    OSim b (t.heap ++ [N])
      (Tokeniser.AddToken { t with heap := t.heap ++ [N] } t.heap.length) (absAdd ks) := by
  rcases h.top with ⟨h1, h2⟩ | ⟨S, e, E, h1, h2, h3⟩
  · simp [Tokeniser.AddToken, TokenContextStack.Peek, h2, absAdd, h1, OSim]
  · obtain ⟨hv, hk, hb, hE⟩ := h
    have hlt : e < t.heap.length := hv e (by rw [h1]; simp)
    have hne : ks ≠ [] := by rw [h3]; simp
    have hget : (t.heap ++ [N])[e]? = some E := by
      rw [List.getElem?_append_left hlt, h2]
    simp only [Tokeniser.AddToken, TokenContextStack.Peek, h1, List.getLast?_concat,
      Tokeniser.deref, hget, Option.bind_eq_bind, Option.some_bind, Option.pure_def, absAdd,
      hne, if_false, OSim_some]
    have hext : Ext (t.heap ++ [N])
        ((t.heap ++ [N]).set e ⟨E.tokenType, E.token, E.children ++ [t.heap.length]⟩) :=
      Ext.set _ e E _ hget rfl
    refine ⟨?_, ?_, hb, hext⟩
    · intro p hp
      have := hv p hp
      simp only [List.length_set, List.length_append, List.length_singleton]
      omega
    · rw [← hk]
      simp only [Tokeniser.kinds]
      apply List.map_congr_left
      intro p hp
      rw [hext.2.1 p (by have := hv p hp; simp; omega)]
      exact (Ext.alloc t.heap N hN).2.1 p (hv p hp)

/-- Pushing the node allocated last. -/
theorem Rel.push {b : String} {H0 : List Token} {N : Token} {t : Tokeniser}
    {ks : List String} (h : Rel b (H0 ++ [N]) t ks) :
    Rel b (H0 ++ [N]) (t.UpdateCurrentContext H0.length) (ks ++ [N.tokenType]) := by
  obtain ⟨hv, hk, hb, hE⟩ := h
  have hlt : H0.length < t.heap.length :=
    Nat.lt_of_lt_of_le (by simp) hE.1
  refine ⟨?_, ?_, hb, hE⟩
  · intro p hp
    simp only [Tokeniser.UpdateCurrentContext, TokenContextStack.Push, List.mem_append,
      List.mem_singleton] at hp
    rcases hp with hp | rfl
    · exact hv p hp
    · exact hlt
  · simp only [Tokeniser.kinds, Tokeniser.UpdateCurrentContext, TokenContextStack.Push,
      List.map_append, List.map_cons, List.map_nil]
    rw [← hk, hE.2.1 H0.length (by simp), kindOf_new]
    rfl

theorem Rel.ext {b : String} {H : List Token} {t : Tokeniser} {ks : List String}
    (h : Rel b H t ks) : Ext H t.heap := h.2.2.2

theorem sim_add_last {b : String} {H : List Token} {t : Tokeniser} {ks : List String}
    (h : Rel b H t ks) (N : Token) (hN : N.tokenType ≠ "root") :
    OSim b H (Tokeniser.AddToken { t with heap := t.heap ++ [N] } t.heap.length) (absAdd ks) :=
  OSim.weaken (h.ext.trans (Ext.alloc t.heap N hN)) (sim_add h N hN)

theorem absAdd_some {ks ks2 : List String} (h : absAdd ks = some ks2) : ks2 = ks := by
  unfold absAdd at h
  split at h
  · exact absurd h (by simp)
  · exact (Option.some.inj h).symm

/-- `AddToken` of a fresh node followed by the rest of the function. -/
theorem sim_add_bind {b : String} {H : List Token} {t : Tokeniser} {ks : List String}
    (h : Rel b H t ks) (N : Token) {f : Tokeniser → Option Tokeniser}
    {g : List String → Option (List String)} (hN : N.tokenType ≠ "root")
    (hc : ∀ t2, Rel b (t.heap ++ [N]) t2 ks → OSim b (t.heap ++ [N]) (f t2) (g ks)) :
    OSim b H (Tokeniser.AddToken { t with heap := t.heap ++ [N] } t.heap.length >>= f)
      (absAdd ks >>= g) := by
  have hs := sim_add h N hN
  apply OSim.weaken (h.ext.trans (Ext.alloc t.heap N hN))
  cases hr : Tokeniser.AddToken { t with heap := t.heap ++ [N] } t.heap.length with
  | none =>
    cases ha : absAdd ks with
    | none => exact trivial
    | some ks2 => rw [hr, ha] at hs; exact hs.elim
  | some t2 =>
    cases ha : absAdd ks with
    | none => rw [hr, ha] at hs; exact hs.elim
    | some ks2 =>
      rw [hr, ha] at hs
      have := absAdd_some ha
      subst this
      exact hc t2 hs

theorem sim_handleSymbol {b : String} {H : List Token} {t : Tokeniser} {ks : List String}
    (h : Rel b H t ks) (token : String) :
    OSim b H (t.handleSymbol token) (absHandleSymbol ks token) := by
  simp only [Tokeniser.handleSymbol, absHandleSymbol, Tokeniser.alloc]
  apply OSim.bind
  · by_cases hc : (token == "+" || token == "*" || token == "/") = true
    · simp only [hc, if_true]
      rcases h.peek with ⟨h1, h2⟩ | ⟨e, E, h1, h2, h3⟩
      · simp only [h1, h2, Option.bind_eq_bind, Option.none_bind]
        exact trivial
      · simp only [h1, h2, h3, Option.bind_eq_bind, Option.some_bind]
        by_cases hk : (E.tokenType == "term") = true
        · simp only [hk, if_true]
          exact sim_pop h []
        · simp only [hk]
          exact h
    · simp only [hc]
      exact h
  · intro t1 ks1 h1
    exact sim_add_last h1 _ (by simp)

theorem sim_openNew {b : String} {H : List Token} {t : Tokeniser} {ks : List String}
    (h : Rel b H t ks) (N : Token) (hN : N.tokenType ≠ "root") :
    OSim b H
      (Tokeniser.AddToken { t with heap := t.heap ++ [N] } t.heap.length >>=
        fun t2 => pure (t2.UpdateCurrentContext t.heap.length))
      (absOpenNew ks N.tokenType) := by
  unfold absOpenNew
  apply sim_add_bind h N hN
  intro t2 h2
  exact h2.push

theorem sim_endCurrentTokenGroup {b : String} {H : List Token} {t : Tokeniser}
    {ks : List String} (h : Rel b H t ks) (token : String) :
    OSim b H (t.endCurrentTokenGroup token) (absEndCurrentTokenGroup ks token) := by
  simp only [Tokeniser.endCurrentTokenGroup, absEndCurrentTokenGroup]
  by_cases h1 : (token == "\x7d") = true
  · simp only [h1, if_true, check_eq h]
    apply OSim.bind_same
    intro x
    cases x
    · simp only [Bool.false_eq_true, if_false]
      apply OSim.bind (sim_handleSymbol h token)
      intro t1 ks1 hr1
      exact sim_pop hr1 []
    · simp only [if_true]
      apply OSim.bind (sim_pop h [])
      intro t1 ks1 hr1
      apply OSim.bind (sim_handleSymbol hr1 token)
      intro t2 ks2 hr2
      exact sim_pop hr2 [2]
  · simp only [h1]
    by_cases h2 : (token == ";") = true
    · simp only [h2, if_true]
      apply OSim.bind (sim_handleSymbol h token)
      intro t1 ks1 hr1
      exact sim_pop hr1 []
    · simp only [h2]
      by_cases h3 : (token == ")") = true
      · simp only [h3, if_true, check_eq h]
        apply OSim.bind_same
        intro x
        cases x
        · simp only [Bool.false_eq_true, if_false]
          apply OSim.bind (sim_pop h [])
          intro t1 ks1 hr1
          exact sim_handleSymbol hr1 token
        · simp only [if_true]
          apply OSim.bind (sim_pop h [])
          intro t1 ks1 hr1
          apply OSim.bind (sim_handleSymbol hr1 token)
          intro t2 ks2 hr2
          rw [check_eq hr2]
          apply OSim.bind_same
          intro y
          cases y
          · simp only [Bool.false_eq_true, if_false]
            exact hr2
          · simp only [if_true]
            exact sim_pop hr2 []
      · simp only [h3]
        by_cases h4 : (token == "]") = true
        · simp only [h4, if_true]
          exact h
        · simp only [h4]
          exact h

theorem initialTokens_subroutineBody :
    initialTokens "subroutineBody" = ⟨"subroutineBody", "", []⟩ := by decide
theorem initialTokens_statements :
    initialTokens "statements" = ⟨"statements", "", []⟩ := by decide
theorem initialTokens_parameterList :
    initialTokens "parameterList" = ⟨"parameterList", "", []⟩ := by decide
theorem initialTokens_expressionList :
    initialTokens "expressionList" = ⟨"expressionList", "", []⟩ := by decide
theorem initialTokens_class : initialTokens "class" = ⟨"class", "", [0]⟩ := by decide
theorem initialTokens_function :
    initialTokens "function" = ⟨"subroutineDec", "", [1]⟩ := by decide
theorem initialTokens_return :
    initialTokens "return" = ⟨"returnStatement", "", [2]⟩ := by decide
theorem initialTokens_do : initialTokens "do" = ⟨"doStatement", "", [3]⟩ := by decide

theorem sim_openNewTokenGroup {b : String} {H : List Token} {t : Tokeniser}
    {ks : List String} (h : Rel b H t ks) (token : String) :
    OSim b H (t.openNewTokenGroup token) (absOpenNewTokenGroup ks token) := by
  simp only [Tokeniser.openNewTokenGroup, absOpenNewTokenGroup, Tokeniser.alloc,
    Tokeniser.GetInitialToken, initialTokens_subroutineBody, initialTokens_statements,
    initialTokens_parameterList, initialTokens_expressionList]
  rcases h.peek with ⟨h1, h2⟩ | ⟨e, E, h1, h2, h3⟩
  · simp only [h1, h2, Option.bind_eq_bind, Option.none_bind]
    exact trivial
  · simp only [h1, h2, h3, Option.bind_eq_bind, Option.some_bind]
    by_cases c1 : (token == "\x7b" && E.tokenType == "subroutineDec") = true
    · simp only [c1, if_true]
      apply sim_add_bind h
      · simp
      intro t2 h2
      apply sim_add_bind h2.push
      · simp
      intro t5 h5
      apply sim_add_bind h5
      · simp
      intro t7 h7
      exact h7.push
    · simp only [c1]
      by_cases c2 : (token == "(" && E.tokenType == "subroutineDec") = true
      · simp only [c2, if_true]
        apply sim_add_bind h
        · simp
        intro t2 h2
        apply sim_add_bind h2
        · simp
        intro t4 h4
        exact h4.push
      · simp only [c2]
        by_cases c3 : (token == "(" && E.tokenType == "doStatement") = true
        · simp only [c3, if_true]
          apply sim_add_bind h
          · simp
          intro t2 h2
          apply sim_add_bind h2
          · simp
          intro t4 h4
          exact h4.push
        · simp only [c3]
          by_cases c4 : (token == "(") = true
          · simp only [c4, if_true, check_eq h]
            apply OSim.bind_same
            intro x
            cases x
            · simp only [Bool.false_eq_true, if_false]
              exact sim_add_last h _ (by simp)
            · simp only [if_true]
              apply OSim.bind_same
              intro y
              apply OSim.bind
              · cases y
                · simp only [Bool.not_false, if_true]
                  apply sim_add_bind h
                  · simp
                  intro t2 h2
                  exact h2.push
                · simp only [Bool.not_true, Bool.false_eq_true, if_false]
                  exact h
              · intro t3 ks3 h3'
                apply sim_add_bind h3'
                · simp
                intro t5 h5
                apply sim_add_bind h5.push
                · simp
                intro t8 h8
                apply sim_add_bind h8
                · simp
                intro t10 h10
                exact h10.push
          · simp only [c4]
            exact sim_add_last h _ (by simp)

/-- The builder and the machine on kinds move in step. -/
theorem sim_ProcessToken {b : String} {H : List Token} {t : Tokeniser} {ks : List String}
    (h : Rel b H t ks) (token : String) :
    OSim b H (t.ProcessToken token) (absProcessToken ks token) := by
  simp only [Tokeniser.ProcessToken, absProcessToken]
  by_cases c1 : shouldEndCurrentTokenGroup token = true
  · simp only [c1, if_true]
    exact sim_endCurrentTokenGroup h token
  simp only [c1]
  by_cases c2 : shouldOpenNewTokenGroup token = true
  · simp only [c2, if_true]
    exact sim_openNewTokenGroup h token
  simp only [c2]
  by_cases c3 : (GetTokenType token == "symbol") = true
  · simp only [c3, if_true]
    exact sim_handleSymbol h token
  simp only [c3]
  by_cases c4 : (GetTokenType token == "keyword") = true
  · simp only [c4, if_true]
    by_cases k1 : (token == "class") = true
    · simp only [k1, if_true, Tokeniser.handleClass, Tokeniser.GetInitialToken,
        Tokeniser.alloc, initialTokens_class]
      exact sim_openNew h _ (by simp)
    simp only [k1]
    by_cases k2 : (token == "function") = true
    · simp only [k2, if_true, Tokeniser.handleFunction, Tokeniser.GetInitialToken,
        Tokeniser.alloc, initialTokens_function]
      exact sim_openNew h _ (by simp)
    simp only [k2]
    by_cases k3 : (token == "return") = true
    · simp only [k3, if_true, Tokeniser.handleReturnStatement, Tokeniser.GetInitialToken,
        Tokeniser.alloc, initialTokens_return]
      exact sim_openNew h _ (by simp)
    simp only [k3]
    by_cases k4 : (token == "do") = true
    · simp only [k4, if_true, Tokeniser.handleDoStatement, Tokeniser.GetInitialToken,
        Tokeniser.alloc, initialTokens_do]
      exact sim_openNew h _ (by simp)
    simp only [k4, Tokeniser.handleKeyword, Tokeniser.alloc]
    exact sim_add_last h _ (by simp)
  simp only [c4]
  by_cases c5 : (GetTokenType token == "integerConstant" ||
      GetTokenType token == "identifier") = true
  · simp only [c5, if_true, Tokeniser.alloc, check_eq h]
    apply OSim.bind_same
    intro x1
    apply OSim.bind
    · cases x1
      · simp only [Bool.false_eq_true, if_false]
        exact h
      · simp only [if_true]
        apply sim_add_bind h
        · simp
        intro t1 h1
        exact h1.push
    intro t2 ks2 h2
    rw [check_eq h2]
    apply OSim.bind_same
    intro x2
    apply OSim.bind
    · cases x2
      · simp only [Bool.false_eq_true, if_false]
        exact h2
      · simp only [if_true]
        apply sim_add_bind h2
        · simp
        intro t4 h4
        exact h4.push
    intro t5 ks5 h5
    apply OSim.bind
    · by_cases d1 : (GetTokenType token == "integerConstant") = true
      · simp only [d1, if_true]
        exact sim_add_last h5 _ (by simp)
      · simp only [d1]
        exact h5
    intro t7 ks7 h7
    apply OSim.bind
    · by_cases d2 : (GetTokenType token == "identifier") = true
      · simp only [d2, if_true]
        exact sim_add_last h7 _ (by simp)
      · simp only [d2]
        exact h7
    intro t9 ks9 h9
    rw [check_eq h9]
    apply OSim.bind_same
    intro x3
    cases x3
    · simp only [Bool.false_eq_true, if_false]
      exact h9
    · simp only [if_true]
      exact sim_pop h9 []
  simp only [c5]
  exact h

/-! ### Runs of the machine on kinds -/

theorem absRun_nil (ks : List String) : absRun ks [] = some ks := rfl

theorem absRun_cons (ks : List String) (x : String) (xs : List String) :
    absRun ks (x :: xs) = (absProcessToken ks x).bind (fun ks1 => absRun ks1 xs) := by
  simp [absRun, List.foldlM_cons]

theorem absRun_append (ks : List String) (a b : List String) :
    absRun ks (a ++ b) = (absRun ks a).bind (fun ks1 => absRun ks1 b) := by
  simp [absRun, List.foldlM_append]

theorem absRun_single (ks : List String) (x : String) :
    absRun ks [x] = absProcessToken ks x := by
  rw [absRun_cons]
  cases absProcessToken ks x <;> rfl

theorem Rel.setBuffer {b : String} {H : List Token} {t : Tokeniser} {ks : List String}
    (h : Rel b H t ks) (b' : String) :
    Rel b' H { t with tokenBeingParsed := b' } ks :=
  ⟨h.1, h.2.1, rfl, h.2.2.2⟩

/-- A run of `ProcessToken` and the run on kinds move in step. -/
theorem sim_run {b : String} {H : List Token} (lexemes : List String) :
    ∀ {t : Tokeniser} {ks : List String}, Rel b H t ks →
      OSim b H (t.run lexemes) (absRun ks lexemes) := by
  induction lexemes with
  | nil => intro t ks h; exact h
  | cons x xs ih =>
    intro t ks h
    rw [run_cons, absRun_cons]
    exact OSim.bind (sim_ProcessToken h x) (fun t1 ks1 h1 => ih h1)

/-- Sequencing when the second part changes the buffer. -/
theorem OSim.bind_buffer {b b' : String} {H : List Token} {r : Option Tokeniser}
    {a : Option (List String)} {f : Tokeniser → Option Tokeniser}
    {g : List String → Option (List String)} (h1 : OSim b H r a)
    (h2 : ∀ t ks, Rel b H t ks → OSim b' H (f t) (g ks)) : OSim b' H (r >>= f) (a >>= g) := by
  cases r <;> cases a <;> simp only [OSim] at h1
  · exact trivial
  · exact h2 _ _ h1

/-- Resetting the buffer after a step. -/
theorem OSim.reset {b b' : String} {H : List Token} {r : Option Tokeniser}
    {a : Option (List String)} (h1 : OSim b H r a) :
    OSim b' H (r >>= fun t0 => pure { t0 with tokenBeingParsed := b' }) a := by
  cases r <;> cases a <;> simp only [OSim] at h1
  · exact trivial
  · exact Rel.setBuffer h1 b'

/-- One round of the scanning loop and the run on kinds over the lexemes of
that round move in step. -/
theorem sim_scanStep {b : String} {H : List Token} {t : Tokeniser} {ks : List String}
    (h : Rel b H t ks) (c : Char) :
    OSim (lexStep b c).2 H (t.scanStep c) (absRun ks (lexStep b c).1) := by
  have hb : t.tokenBeingParsed = b := h.2.2.1
  subst hb
  simp only [Tokeniser.scanStep, lexStep]
  by_cases hT : ((isSymbol (String.singleton c) || isWhitespace (String.singleton c)) &&
      t.tokenBeingParsed != "") = true
  · simp only [hT, if_true]
    by_cases hw : isWhitespace (String.singleton c) = true
    · simp only [hw, if_true, absRun_single, bind_pure]
      exact OSim.reset (sim_ProcessToken h _)
    · by_cases hs : isSymbol (String.singleton c) = true
      · simp only [hw, hs, if_true, Bool.false_eq_true, if_false, List.singleton_append]
        rw [absRun_cons]
        refine OSim.bind_buffer (OSim.reset (sim_ProcessToken h _)) (fun t1 ks1 h1 => ?_)
        rw [absRun_single]
        exact OSim.reset (sim_ProcessToken h1 _)
      · simp [hw, hs] at hT
  · simp only [hT]
    by_cases hw : isWhitespace (String.singleton c) = true
    · simp only [hw, if_true, Bool.false_eq_true, if_false, absRun_nil]
      exact h
    · by_cases hs : isSymbol (String.singleton c) = true
      · simp only [hw, hs, if_true, List.nil_append, Bool.false_eq_true, if_false,
          absRun_single]
        exact OSim.reset (sim_ProcessToken h _)
      · simp only [hw, hs, Bool.false_eq_true, if_false, absRun_nil]
        exact Rel.setBuffer h _

theorem lexScan_nil (b : String) : lexScan b [] = ([], b) := rfl

theorem lexScan_cons (b : String) (c : Char) (cs : List Char) :
    lexScan b (c :: cs) = ((lexStep b c).1 ++ (lexScan (lexStep b c).2 cs).1,
      (lexScan (lexStep b c).2 cs).2) := rfl

/-- A scan and the run on kinds over the lexemes of the scan move in step. -/
theorem sim_Tokenise {H : List Token} (input : List Char) :
    ∀ {b : String} {t : Tokeniser} {ks : List String}, Rel b H t ks →
      OSim (lexScan b input).2 H (t.Tokenise input) (absRun ks (lexScan b input).1) := by
  induction input with
  | nil => intro b t ks h; exact h
  | cons c cs ih =>
    intro b t ks h
    rw [Tokenise_cons, lexScan_cons, absRun_append]
    exact OSim.bind_buffer (sim_scanStep h c) (fun t1 ks1 h1 => ih h1)

theorem lexScan_append (a c : List Char) :
    ∀ b : String, lexScan b (a ++ c) =
      ((lexScan b a).1 ++ (lexScan (lexScan b a).2 c).1, (lexScan (lexScan b a).2 c).2) := by
  induction a with
  | nil => intro b; simp [lexScan_nil]
  | cons x xs ih =>
    intro b
    simp only [List.cons_append, lexScan_cons, ih, List.append_assoc]

/-- The lexemes of a beginning of the input are a beginning of the lexemes of
the input. -/
theorem lexScan_take (input : List Char) (k : Nat) (b : String) :
    ∃ n, (lexScan b (input.take k)).1 = (lexScan b input).1.take n := by
  refine ⟨(lexScan b (input.take k)).1.length, ?_⟩
  conv_rhs => rw [← List.take_append_drop k input, lexScan_append]
  simp

theorem rel_NewTokeniser : Rel "" NewTokeniser.heap NewTokeniser ["root"] := by
  refine ⟨?_, rfl, rfl, Ext.refl _⟩
  intro p hp
  simp only [NewTokeniser, List.mem_singleton] at hp
  subst hp
  decide

/-! ### Safe runs on kinds -/

theorem SafeRun.nil {ks : List String} (h : ks ≠ []) : SafeRun ks [] ks :=
  ⟨rfl, fun n => ⟨ks, by simp [absRun_nil], h⟩⟩

theorem SafeRun.start {ks toks ks' : List String} (h : SafeRun ks toks ks') : ks ≠ [] := by
  obtain ⟨ks1, h1, h2⟩ := h.2 0
  simp only [List.take_zero, absRun_nil, Option.some.injEq] at h1
  subst h1
  exact h2

theorem SafeRun.finish {ks toks ks' : List String} (h : SafeRun ks toks ks') : ks' ≠ [] := by
  obtain ⟨ks1, h1, h2⟩ := h.2 toks.length
  rw [List.take_length, h.1] at h1
  cases h1
  exact h2

theorem SafeRun.append {ks a ks1 b ks2 : List String} (h1 : SafeRun ks a ks1)
    (h2 : SafeRun ks1 b ks2) : SafeRun ks (a ++ b) ks2 := by
  refine ⟨by rw [absRun_append, h1.1]; exact h2.1, fun n => ?_⟩
  rw [List.take_append_eq_append_take]
  by_cases hn : n ≤ a.length
  · obtain ⟨k, hk1, hk2⟩ := h1.2 n
    refine ⟨k, ?_, hk2⟩
    have : n - a.length = 0 := by omega
    rw [this, List.take_zero, List.append_nil]
    exact hk1
  · obtain ⟨k, hk1, hk2⟩ := h2.2 (n - a.length)
    refine ⟨k, ?_, hk2⟩
    rw [List.take_of_length_le (by omega), absRun_append, h1.1]
    exact hk1

theorem SafeRun.single {ks ks' : List String} {x : String}
    (h : absProcessToken ks x = some ks') (h0 : ks ≠ []) (h1 : ks' ≠ []) :
    SafeRun ks [x] ks' := by
  refine ⟨by rw [absRun_single]; exact h, fun n => ?_⟩
  cases n with
  | zero => exact ⟨ks, by simp [absRun_nil], h0⟩
  | succ m => exact ⟨ks', by simp [absRun_single, h], h1⟩

theorem SafeRun.cons {ks ks1 ks2 : List String} {x : String} {xs : List String}
    (h : absProcessToken ks x = some ks1) (h0 : ks ≠ []) (h2 : SafeRun ks1 xs ks2) :
    SafeRun ks (x :: xs) ks2 :=
  SafeRun.append (SafeRun.single h h0 h2.start) h2

/-! ### Single lexemes on kinds -/

theorem isAtom_kind {x : String} (h : isAtom x = true) :
    GetTokenType x = "identifier" ∨ GetTokenType x = "integerConstant" := by
  simp only [isAtom, Bool.and_eq_true, Bool.or_eq_true, beq_iff_eq] at h
  exact h.2

theorem isIdent_atom {x : String} (h : isIdent x = true) :
    GetTokenType x = "identifier" ∨ GetTokenType x = "integerConstant" := by
  simp only [isIdent, beq_iff_eq] at h
  exact Or.inl h

/-- An identifier or integer constant under an `expression`. -/
theorem abs_atom_expression (ks : List String) (x : String)
    (hx : GetTokenType x = "identifier" ∨ GetTokenType x = "integerConstant") :
    absProcessToken (ks ++ ["expression"]) x = some (ks ++ ["expression"]) := by
  rcases hx with hx | hx
  · obtain ⟨h1, h2⟩ := atom_flags x _ hx (Or.inr rfl)
    simp [absProcessToken, h1, h2, hx, absCheck, absAdd, absPop, List.take_append]
  · obtain ⟨h1, h2⟩ := atom_flags x _ hx (Or.inl rfl)
    simp [absProcessToken, h1, h2, hx, absCheck, absAdd, absPop, List.take_append]

/-- An identifier or integer constant under an `expressionList`. -/
theorem abs_atom_expressionList (ks : List String) (x : String)
    (hx : GetTokenType x = "identifier" ∨ GetTokenType x = "integerConstant") :
    absProcessToken (ks ++ ["expressionList"]) x =
      some (ks ++ ["expressionList", "expression"]) := by
  rcases hx with hx | hx
  · obtain ⟨h1, h2⟩ := atom_flags x _ hx (Or.inr rfl)
    simp [absProcessToken, h1, h2, hx, absCheck, absAdd, absPop, List.take_append]
  · obtain ⟨h1, h2⟩ := atom_flags x _ hx (Or.inl rfl)
    simp [absProcessToken, h1, h2, hx, absCheck, absAdd, absPop, List.take_append]

/-- An identifier or integer constant under any other kind. -/
theorem abs_atom_plain (ks : List String) (k x : String)
    (hx : GetTokenType x = "identifier" ∨ GetTokenType x = "integerConstant")
    (k1 : k ≠ "expressionList") (k2 : k ≠ "expression") (k3 : k ≠ "term") :
    absProcessToken (ks ++ [k]) x = some (ks ++ [k]) := by
  rcases hx with hx | hx
  · obtain ⟨h1, h2⟩ := atom_flags x _ hx (Or.inr rfl)
    simp [absProcessToken, h1, h2, hx, absCheck, absAdd, absPop, List.take_append, k1, k2, k3]
  · obtain ⟨h1, h2⟩ := atom_flags x _ hx (Or.inl rfl)
    simp [absProcessToken, h1, h2, hx, absCheck, absAdd, absPop, List.take_append, k1, k2, k3]

/-- A symbol that neither closes nor opens a group, under a kind other than
`term`. -/
theorem abs_symbol_plain (ks : List String) (k op : String)
    (hop : op ∈ [".", ",", "+", "-", "*", "/", "&", "|", "<", ">", "=", "~"])
    (k3 : k ≠ "term") :
    absProcessToken (ks ++ [k]) op = some (ks ++ [k]) := by
  simp only [List.mem_cons, List.mem_singleton, List.not_mem_nil, or_false] at hop
  rcases hop with h | h | h | h | h | h | h | h | h | h | h | h <;> subst h <;>
  simp [absProcessToken, shouldEndCurrentTokenGroup, shouldOpenNewTokenGroup,
    show GetTokenType "." = "symbol" by decide, show GetTokenType "," = "symbol" by decide,
    show GetTokenType "+" = "symbol" by decide, show GetTokenType "-" = "symbol" by decide,
    show GetTokenType "*" = "symbol" by decide, show GetTokenType "/" = "symbol" by decide,
    show GetTokenType "&" = "symbol" by decide, show GetTokenType "|" = "symbol" by decide,
    show GetTokenType "<" = "symbol" by decide, show GetTokenType ">" = "symbol" by decide,
    show GetTokenType "=" = "symbol" by decide, show GetTokenType "~" = "symbol" by decide,
    absHandleSymbol, absAdd, absPop, k3]

theorem abs_open_paren_expression (ks : List String) :
    absProcessToken (ks ++ ["expression"]) "(" =
      some (ks ++ ["expression", "term", "expression"]) := by
  simp [absProcessToken, shouldEndCurrentTokenGroup, shouldOpenNewTokenGroup,
    absOpenNewTokenGroup, absCheck, absAdd]

theorem abs_open_paren_expressionList (ks : List String) :
    absProcessToken (ks ++ ["expressionList"]) "(" =
      some (ks ++ ["expressionList", "expression", "term", "expression"]) := by
  simp [absProcessToken, shouldEndCurrentTokenGroup, shouldOpenNewTokenGroup,
    absOpenNewTokenGroup, absCheck, absAdd]

theorem abs_close_paren_term (ks : List String) :
    absProcessToken (ks ++ ["term", "expression"]) ")" = some ks := by
  simp [absProcessToken, shouldEndCurrentTokenGroup,
    absEndCurrentTokenGroup, absHandleSymbol, absCheck, absAdd, absPop, List.take_append]

theorem abs_close_paren_expressionList (ks : List String) :
    absProcessToken (ks ++ ["expressionList", "expression"]) ")" = some ks := by
  simp [absProcessToken, shouldEndCurrentTokenGroup,
    absEndCurrentTokenGroup, absHandleSymbol, absCheck, absAdd, absPop, List.take_append]

/-- A closing parenthesis under a kind other than `expression`, with a node
beneath: the top is popped and the symbol goes to the node beneath. -/
theorem abs_close_paren_plain (ks : List String) (p k : String) (hk : k ≠ "expression") :
    absProcessToken (ks ++ [p, k]) ")" = some (ks ++ [p]) := by
  simp [absProcessToken, shouldEndCurrentTokenGroup,
    absEndCurrentTokenGroup, absHandleSymbol, absCheck, absAdd, absPop, List.take_append, hk]

theorem abs_open_paren_subroutineDec (ks : List String) :
    absProcessToken (ks ++ ["subroutineDec"]) "(" =
      some (ks ++ ["subroutineDec", "parameterList"]) := by
  simp [absProcessToken, shouldEndCurrentTokenGroup, shouldOpenNewTokenGroup,
    absOpenNewTokenGroup, absCheck, absAdd]

theorem abs_open_paren_doStatement (ks : List String) :
    absProcessToken (ks ++ ["doStatement"]) "(" =
      some (ks ++ ["doStatement", "expressionList"]) := by
  simp [absProcessToken, shouldEndCurrentTokenGroup, shouldOpenNewTokenGroup,
    absOpenNewTokenGroup, absCheck, absAdd]

theorem abs_open_brace_subroutineDec (ks : List String) :
    absProcessToken (ks ++ ["subroutineDec"]) "\x7b" =
      some (ks ++ ["subroutineDec", "subroutineBody", "statements"]) := by
  simp [absProcessToken, shouldEndCurrentTokenGroup, shouldOpenNewTokenGroup,
    absOpenNewTokenGroup, absCheck, absAdd]

theorem abs_open_brace_class (ks : List String) :
    absProcessToken (ks ++ ["class"]) "\x7b" = some (ks ++ ["class"]) := by
  simp [absProcessToken, shouldEndCurrentTokenGroup, shouldOpenNewTokenGroup,
    absOpenNewTokenGroup, absCheck, absAdd]

theorem abs_close_brace_statements (ks : List String) :
    absProcessToken (ks ++ ["subroutineDec", "subroutineBody", "statements"]) "\x7d" =
      some ks := by
  simp [absProcessToken, shouldEndCurrentTokenGroup,
    absEndCurrentTokenGroup, absHandleSymbol, absCheck, absAdd, absPop, List.take_append]

theorem abs_close_brace_class (ks : List String) :
    absProcessToken (ks ++ ["class"]) "\x7d" = some ks := by
  simp [absProcessToken, shouldEndCurrentTokenGroup,
    absEndCurrentTokenGroup, absHandleSymbol, absCheck, absAdd, absPop, List.take_append]

theorem abs_semicolon (ks : List String) (k : String) :
    absProcessToken (ks ++ [k]) ";" = some ks := by
  simp [absProcessToken, shouldEndCurrentTokenGroup,
    absEndCurrentTokenGroup, absHandleSymbol, absCheck, absAdd, absPop, List.take_append]

theorem abs_keyword_class (ks : List String) (k : String) :
    absProcessToken (ks ++ [k]) "class" = some (ks ++ [k, "class"]) := by
  simp [absProcessToken, shouldEndCurrentTokenGroup, shouldOpenNewTokenGroup,
    show GetTokenType "class" = "keyword" by decide, absOpenNew, absAdd]

theorem abs_keyword_function (ks : List String) (k : String) :
    absProcessToken (ks ++ [k]) "function" = some (ks ++ [k, "subroutineDec"]) := by
  simp [absProcessToken, shouldEndCurrentTokenGroup, shouldOpenNewTokenGroup,
    show GetTokenType "function" = "keyword" by decide, absOpenNew, absAdd]

theorem abs_keyword_return (ks : List String) (k : String) :
    absProcessToken (ks ++ [k]) "return" = some (ks ++ [k, "returnStatement"]) := by
  simp [absProcessToken, shouldEndCurrentTokenGroup, shouldOpenNewTokenGroup,
    show GetTokenType "return" = "keyword" by decide, absOpenNew, absAdd]

theorem abs_keyword_do (ks : List String) (k : String) :
    absProcessToken (ks ++ [k]) "do" = some (ks ++ [k, "doStatement"]) := by
  simp [absProcessToken, shouldEndCurrentTokenGroup, shouldOpenNewTokenGroup,
    show GetTokenType "do" = "keyword" by decide, absOpenNew, absAdd]

theorem abs_keyword_void (ks : List String) (k : String) :
    absProcessToken (ks ++ [k]) "void" = some (ks ++ [k]) := by
  simp [absProcessToken, shouldEndCurrentTokenGroup, shouldOpenNewTokenGroup,
    show GetTokenType "void" = "keyword" by decide, absAdd]

/-! ### Constructs of the grammar on kinds -/

theorem unaryOps_symbol {op : String} (h : unaryOps.contains op = true) :
    op ∈ [".", ",", "+", "-", "*", "/", "&", "|", "<", ">", "=", "~"] := by
  simp only [unaryOps, List.contains_iff_exists_mem_beq, beq_iff_eq, exists_eq_right'] at h
  simp only [List.mem_cons, List.mem_singleton, List.not_mem_nil, or_false] at h ⊢
  rcases h with h | h <;> simp [h]

theorem binaryOps_symbol {op : String} (h : binaryOps.contains op = true) :
    op ∈ [".", ",", "+", "-", "*", "/", "&", "|", "<", ">", "=", "~"] := by
  simp only [binaryOps, List.contains_iff_exists_mem_beq, beq_iff_eq, exists_eq_right'] at h
  simp only [List.mem_cons, List.mem_singleton, List.not_mem_nil, or_false] at h ⊢
  rcases h with h | h | h | h | h | h | h | h | h <;> simp [h]

/-- An expression under an `expression`: the stack of kinds comes back. -/
theorem safe_expr_expression (e : Expr) :
    ∀ ks : List String, e.ok = true →
      SafeRun (ks ++ ["expression"]) e.lexemes (ks ++ ["expression"]) := by
  induction e with
  | atom x =>
    intro ks h
    exact SafeRun.single (abs_atom_expression ks x (isAtom_kind h)) (by simp) (by simp)
  | paren e ih =>
    intro ks h
    have h1 := ih (ks ++ ["expression", "term"]) h
    have h2 := abs_close_paren_term (ks ++ ["expression"])
    simp only [List.append_assoc, List.cons_append, List.nil_append] at h1 h2
    exact SafeRun.cons (abs_open_paren_expression ks) (by simp)
      (SafeRun.append h1 (SafeRun.single h2 (by simp) (by simp)))
  | unary op e ih =>
    intro ks h
    simp only [Expr.ok, Bool.and_eq_true] at h
    exact SafeRun.cons (abs_symbol_plain ks "expression" op (unaryOps_symbol h.1) (by decide))
      (by simp) (ih ks h.2)
  | binary l op r ihl ihr =>
    intro ks h
    simp only [Expr.ok, Bool.and_eq_true] at h
    exact SafeRun.append (ihl ks h.1.1)
      (SafeRun.cons (abs_symbol_plain ks "expression" op (binaryOps_symbol h.1.2) (by decide))
        (by simp) (ihr ks h.2))

/-- An expression as the first argument of a call: an `expression` is opened
under the `expressionList` and stays open. -/
theorem safe_expr_expressionList (e : Expr) :
    ∀ ks : List String, e.ok = true →
      SafeRun (ks ++ ["expressionList"]) e.lexemes (ks ++ ["expressionList", "expression"]) := by
  induction e with
  | atom x =>
    intro ks h
    exact SafeRun.single (abs_atom_expressionList ks x (isAtom_kind h)) (by simp) (by simp)
  | paren e _ =>
    intro ks h
    have h1 := safe_expr_expression e (ks ++ ["expressionList", "expression", "term"]) h
    have h2 := abs_close_paren_term (ks ++ ["expressionList", "expression"])
    simp only [List.append_assoc, List.cons_append, List.nil_append] at h1 h2
    exact SafeRun.cons (abs_open_paren_expressionList ks) (by simp)
      (SafeRun.append h1 (SafeRun.single h2 (by simp) (by simp)))
  | unary op e ih =>
    intro ks h
    simp only [Expr.ok, Bool.and_eq_true] at h
    exact SafeRun.cons
      (abs_symbol_plain ks "expressionList" op (unaryOps_symbol h.1) (by decide))
      (by simp) (ih ks h.2)
  | binary l op r ihl _ =>
    intro ks h
    simp only [Expr.ok, Bool.and_eq_true] at h
    have h1 := safe_expr_expression r (ks ++ ["expressionList"]) h.2
    have h2 := abs_symbol_plain (ks ++ ["expressionList"]) "expression" op
      (binaryOps_symbol h.1.2) (by decide)
    simp only [List.append_assoc, List.cons_append, List.nil_append] at h1 h2
    exact SafeRun.append (ihl ks h.1.1) (SafeRun.cons h2 (by simp) h1)

/-- An expression without parentheses under a kind that opens no implicit
wrapper (such as `returnStatement`): only leaves are appended. -/
theorem safe_expr_plain (e : Expr) (k : String)
    (k1 : k ≠ "expressionList") (k2 : k ≠ "expression") (k3 : k ≠ "term") :
    ∀ ks : List String, e.ok = true → e.parenFree = true →
      SafeRun (ks ++ [k]) e.lexemes (ks ++ [k]) := by
  induction e with
  | atom x =>
    intro ks h _
    exact SafeRun.single (abs_atom_plain ks k x (isAtom_kind h) k1 k2 k3) (by simp) (by simp)
  | paren e _ =>
    intro ks _ hp
    simp [Expr.parenFree] at hp
  | unary op e ih =>
    intro ks h hp
    simp only [Expr.ok, Bool.and_eq_true] at h
    exact SafeRun.cons (abs_symbol_plain ks k op (unaryOps_symbol h.1) k3) (by simp)
      (ih ks h.2 hp)
  | binary l op r ihl ihr =>
    intro ks h hp
    simp only [Expr.ok, Bool.and_eq_true] at h
    simp only [Expr.parenFree, Bool.and_eq_true] at hp
    exact SafeRun.append (ihl ks h.1.1 hp.1)
      (SafeRun.cons (abs_symbol_plain ks k op (binaryOps_symbol h.1.2) k3) (by simp)
        (ihr ks h.2 hp.2))

/-- Further arguments of a call, each after its comma. -/
theorem safe_more_args (rest : List Expr) (ks : List String)
    (h : rest.all Expr.ok = true) :
    SafeRun (ks ++ ["expression"]) (rest.map (fun a => "," :: a.lexemes)).flatten
      (ks ++ ["expression"]) := by
  induction rest with
  | nil => exact SafeRun.nil (by simp)
  | cons a rest ih =>
    simp only [List.all_cons, Bool.and_eq_true] at h
    simp only [List.map_cons, List.flatten_cons, List.cons_append]
    exact SafeRun.cons (abs_symbol_plain ks "expression" "," (by decide) (by decide)) (by simp)
      (SafeRun.append (safe_expr_expression a ks h.1) (ih h.2))

/-- The arguments of a call and its closing parenthesis. -/
theorem safe_args (args : List Expr) (ks : List String) (h : args.all Expr.ok = true) :
    SafeRun (ks ++ ["doStatement", "expressionList"]) (argLexemes args ++ [")"])
      (ks ++ ["doStatement"]) := by
  cases args with
  | nil =>
    exact SafeRun.single (abs_close_paren_plain ks "doStatement" "expressionList" (by decide))
      (by simp) (by simp)
  | cons e rest =>
    simp only [List.all_cons, Bool.and_eq_true] at h
    have h1 := safe_expr_expressionList e (ks ++ ["doStatement"]) h.1
    have h2 := safe_more_args rest (ks ++ ["doStatement", "expressionList"]) h.2
    have h3 := abs_close_paren_expressionList (ks ++ ["doStatement"])
    simp only [List.append_assoc, List.cons_append, List.nil_append] at h1 h2 h3
    simp only [argLexemes, List.append_assoc]
    exact SafeRun.append h1 (SafeRun.append h2 (SafeRun.single h3 (by simp) (by simp)))

/-- A statement under `statements`: the stack of kinds comes back. -/
theorem safe_statement (st : Statement) (ks : List String) (h : st.ok = true)
    (hp : st.returnParenFree = true) :
    SafeRun (ks ++ ["statements"]) st.lexemes (ks ++ ["statements"]) := by
  have hsemi := abs_semicolon (ks ++ ["statements"])
  have hargs := fun args h => safe_args args (ks ++ ["statements"]) h
  simp only [List.append_assoc, List.cons_append, List.nil_append] at hsemi hargs
  cases st with
  | ret value =>
    cases value with
    | none =>
      exact SafeRun.cons (abs_keyword_return ks "statements") (by simp)
        (SafeRun.single (hsemi "returnStatement") (by simp) (by simp))
    | some e =>
      have h1 := safe_expr_plain e "returnStatement" (by decide) (by decide) (by decide)
        (ks ++ ["statements"]) h hp
      simp only [List.append_assoc, List.cons_append, List.nil_append] at h1
      exact SafeRun.cons (abs_keyword_return ks "statements") (by simp)
        (SafeRun.append h1 (SafeRun.single (hsemi "returnStatement") (by simp) (by simp)))
  | call receiver name args =>
    have hatom := fun x hx => abs_atom_plain (ks ++ ["statements"]) "doStatement" x hx
      (by decide) (by decide) (by decide)
    have hdot := abs_symbol_plain (ks ++ ["statements"]) "doStatement" "." (by decide)
      (by decide)
    have hopen := abs_open_paren_doStatement (ks ++ ["statements"])
    simp only [List.append_assoc, List.cons_append, List.nil_append] at hatom hdot hopen
    have htail : ∀ hargs' : args.all Expr.ok = true,
        SafeRun (ks ++ ["statements", "doStatement"]) ("(" :: (argLexemes args ++ [")", ";"]))
          (ks ++ ["statements"]) := by
      intro hargs'
      have : argLexemes args ++ [")", ";"] = (argLexemes args ++ [")"]) ++ [";"] := by simp
      rw [this]
      exact SafeRun.cons hopen (by simp)
        (SafeRun.append (hargs args hargs')
          (SafeRun.single (hsemi "doStatement") (by simp) (by simp)))
    cases receiver with
    | none =>
      simp only [Statement.ok, Bool.and_eq_true] at h
      simp only [Statement.lexemes, List.cons_append, List.nil_append]
      exact SafeRun.cons (abs_keyword_do ks "statements") (by simp)
        (SafeRun.cons (hatom name (isIdent_atom h.1)) (by simp) (htail h.2))
    | some r =>
      simp only [Statement.ok, Bool.and_eq_true] at h
      simp only [Statement.lexemes, List.cons_append, List.nil_append]
      exact SafeRun.cons (abs_keyword_do ks "statements") (by simp)
        (SafeRun.cons (hatom r (isIdent_atom h.1.1)) (by simp)
          (SafeRun.cons hdot (by simp)
            (SafeRun.cons (hatom name (isIdent_atom h.1.2)) (by simp) (htail h.2))))

/-- The statements of a body, one after the other. -/
theorem safe_statements (body : List Statement) (ks : List String)
    (h : body.all Statement.ok = true) (hp : body.all Statement.returnParenFree = true) :
    SafeRun (ks ++ ["statements"]) (body.map Statement.lexemes).flatten
      (ks ++ ["statements"]) := by
  induction body with
  | nil => exact SafeRun.nil (by simp)
  | cons st rest ih =>
    simp only [List.all_cons, Bool.and_eq_true] at h hp
    simp only [List.map_cons, List.flatten_cons]
    exact SafeRun.append (safe_statement st ks h.1 hp.1) (ih h.2 hp.2)

/-- Further parameters, each after its comma. -/
theorem safe_more_params (rest : List (String × String)) (ks : List String)
    (h : rest.all (fun p => isIdent p.1 && isIdent p.2) = true) :
    SafeRun (ks ++ ["parameterList"]) (rest.map (fun q => [",", q.1, q.2])).flatten
      (ks ++ ["parameterList"]) := by
  induction rest with
  | nil => exact SafeRun.nil (by simp)
  | cons q rest ih =>
    simp only [List.all_cons, Bool.and_eq_true] at h
    simp only [List.map_cons, List.flatten_cons, List.cons_append, List.nil_append]
    exact SafeRun.cons (abs_symbol_plain ks "parameterList" "," (by decide) (by decide))
      (by simp)
      (SafeRun.cons (abs_atom_plain ks "parameterList" q.1 (isIdent_atom h.1.1) (by decide)
          (by decide) (by decide)) (by simp)
        (SafeRun.cons (abs_atom_plain ks "parameterList" q.2 (isIdent_atom h.1.2) (by decide)
          (by decide) (by decide)) (by simp) (ih h.2)))

/-- The parameters of a function declaration. -/
theorem safe_params (params : List (String × String)) (ks : List String)
    (h : params.all (fun p => isIdent p.1 && isIdent p.2) = true) :
    SafeRun (ks ++ ["parameterList"]) (paramLexemes params) (ks ++ ["parameterList"]) := by
  cases params with
  | nil => exact SafeRun.nil (by simp)
  | cons p rest =>
    simp only [List.all_cons, Bool.and_eq_true] at h
    simp only [paramLexemes, List.cons_append, List.nil_append]
    exact SafeRun.cons (abs_atom_plain ks "parameterList" p.1 (isIdent_atom h.1.1) (by decide)
        (by decide) (by decide)) (by simp)
      (SafeRun.cons (abs_atom_plain ks "parameterList" p.2 (isIdent_atom h.1.2) (by decide)
        (by decide) (by decide)) (by simp) (safe_more_params rest ks h.2))

/-- A function declaration under `class`: the stack of kinds comes back. -/
theorem safe_subroutine (s : Subroutine) (ks : List String) (h : s.ok = true)
    (hp : s.body.all Statement.returnParenFree = true) :
    SafeRun (ks ++ ["class"]) s.lexemes (ks ++ ["class"]) := by
  simp only [Subroutine.ok, Bool.and_eq_true, Bool.or_eq_true, beq_iff_eq] at h
  obtain ⟨⟨⟨hty, hname⟩, hparams⟩, hbody⟩ := h
  have hatom := fun x hx => abs_atom_plain (ks ++ ["class"]) "subroutineDec" x hx
    (by decide) (by decide) (by decide)
  have hvoid := abs_keyword_void (ks ++ ["class"]) "subroutineDec"
  have hopen := abs_open_paren_subroutineDec (ks ++ ["class"])
  have hpar := safe_params s.params (ks ++ ["class", "subroutineDec"]) hparams
  have hclose := abs_close_paren_plain (ks ++ ["class"]) "subroutineDec" "parameterList"
    (by decide)
  have hbrace := abs_open_brace_subroutineDec (ks ++ ["class"])
  have hstmts := safe_statements s.body (ks ++ ["class", "subroutineDec", "subroutineBody"])
    hbody hp
  have hend := abs_close_brace_statements (ks ++ ["class"])
  simp only [List.append_assoc, List.cons_append, List.nil_append] at hatom hvoid hopen hpar
  simp only [List.append_assoc, List.cons_append, List.nil_append] at hclose hbrace hstmts hend
  have htype : absProcessToken (ks ++ ["class", "subroutineDec"]) s.returnType =
      some (ks ++ ["class", "subroutineDec"]) := by
    rcases hty with hty | hty
    · rw [hty]; exact hvoid
    · exact hatom _ (isIdent_atom hty)
  simp only [Subroutine.lexemes, List.cons_append, List.nil_append, List.append_assoc]
  refine SafeRun.cons (abs_keyword_function ks "class") (by simp)
    (SafeRun.cons htype (by simp)
      (SafeRun.cons (hatom _ (isIdent_atom hname)) (by simp)
        (SafeRun.cons hopen (by simp)
          (SafeRun.append hpar
            (SafeRun.cons hclose (by simp)
              (SafeRun.cons hbrace (by simp)
                (SafeRun.append hstmts
                  (SafeRun.single hend (by simp) (by simp)))))))))

/-- The function declarations of a class, one after the other. -/
theorem safe_subroutines (subs : List Subroutine) (ks : List String)
    (h : subs.all Subroutine.ok = true)
    (hp : subs.all (fun s => s.body.all Statement.returnParenFree) = true) :
    SafeRun (ks ++ ["class"]) (subs.map Subroutine.lexemes).flatten (ks ++ ["class"]) := by
  induction subs with
  | nil => exact SafeRun.nil (by simp)
  | cons s rest ih =>
    simp only [List.all_cons, Bool.and_eq_true] at h hp
    simp only [List.map_cons, List.flatten_cons]
    exact SafeRun.append (safe_subroutine s ks h.1 hp.1) (ih h.2 hp.2)

/-- A whole class from the initial stack of kinds: the depth never drops below
one and the run ends with the root alone. -/
theorem safe_class (c : ClassDecl) (h : c.ok = true) (hp : c.returnsParenFree = true) :
    SafeRun ["root"] c.lexemes ["root"] := by
  simp only [ClassDecl.ok, Bool.and_eq_true] at h
  have hkw := abs_keyword_class [] "root"
  have hname := fun x hx => abs_atom_plain ["root"] "class" x hx
    (by decide) (by decide) (by decide)
  have hbrace := abs_open_brace_class ["root"]
  have hsubs := safe_subroutines c.subroutines ["root"] h.2 hp
  have hend := abs_close_brace_class ["root"]
  simp only [List.append_assoc, List.cons_append, List.nil_append] at hkw hname hbrace hsubs
  simp only [List.append_assoc, List.cons_append, List.nil_append] at hend
  have hrest : SafeRun ["root", "class"]
      ("\x7b" :: ((c.subroutines.map Subroutine.lexemes).flatten ++ ["\x7d"])) ["root"] :=
    SafeRun.cons hbrace (by simp)
      (SafeRun.append hsubs (SafeRun.single hend (by simp) (by simp)))
  cases hn : c.name with
  | none =>
    simp only [ClassDecl.lexemes, hn, List.nil_append, List.cons_append, List.append_assoc]
    exact SafeRun.cons hkw (by simp) hrest
  | some n =>
    rw [hn] at h
    simp only [ClassDecl.lexemes, hn, List.nil_append, List.cons_append, List.append_assoc]
    exact SafeRun.cons hkw (by simp)
      (SafeRun.cons (hname n (isIdent_atom h.1)) (by simp) hrest)

/-- Over a heap that extends the initial one, the only node of kind root is the
one `NewTokeniser` allocated. -/
theorem root_unique {H : List Token} (h : Ext NewTokeniser.heap H) (p : Nat)
    (hp : kindOf H p = "root") : p = 4 := by
  have hlen : NewTokeniser.heap.length = 5 := rfl
  by_cases h5 : p < 5
  · have h1 := h.2.1 p (by rw [hlen]; exact h5)
    rw [hp] at h1
    interval_cases p
    · exact absurd h1 (by decide)
    · exact absurd h1 (by decide)
    · exact absurd h1 (by decide)
    · exact absurd h1 (by decide)
    · rfl
  · exact absurd hp (h.2.2 p (by rw [hlen]; omega))

/-- When the run on kinds succeeds, so does the scan, in a state with those
kinds over a heap that extends the initial one. -/
theorem Tokenise_of_absRun (input : List Char) (ks : List String)
    (h : absRun ["root"] (lexScan "" input).1 = some ks) :
    ∃ t, NewTokeniser.Tokenise input = some t ∧ t.kinds = ks ∧ t.depth = ks.length ∧
      Ext NewTokeniser.heap t.heap := by
  have hsim := sim_Tokenise input rel_NewTokeniser
  rw [h] at hsim
  cases ht : NewTokeniser.Tokenise input with
  | none => rw [ht] at hsim; exact hsim.elim
  | some t =>
    rw [ht] at hsim
    refine ⟨t, rfl, hsim.2.1, ?_, hsim.2.2.2⟩
    rw [← hsim.2.1, Tokeniser.kinds, List.length_map]
    rfl

/-- One of the four construct keywords: the skeleton of the table is appended
to the top node and pushed. -/
theorem step_skeleton (t : Tokeniser) (e : Nat) (E : Token) (kw : String)
    (hs : t.currentTokenStack.Peek = some e) (hE : t.deref e = some E)
    (hkw : kw ∈ ["class", "function", "return", "do"]) :
    t.ProcessToken kw = some { t with
      currentTokenStack := ⟨t.currentTokenStack.items ++ [t.heap.length]⟩
      heap := (t.heap.set e (E.addChild t.heap.length) ++ [initialTokens kw]) } := by
  have hlt := deref_lt t e E hE
  obtain ⟨buf, ⟨items⟩, toks, heap⟩ := t
  simp only [Tokeniser.deref] at hE hlt
  simp only [TokenContextStack.Peek] at hs
  obtain ⟨S, rfl⟩ := List.getLast?_eq_some_iff.mp hs
  simp only [List.mem_cons, List.mem_singleton, List.not_mem_nil, or_false] at hkw
  rcases hkw with rfl | rfl | rfl | rfl <;>
  simp [Tokeniser.ProcessToken, shouldEndCurrentTokenGroup, shouldOpenNewTokenGroup,
      show GetTokenType "class" = "keyword" by decide,
      show GetTokenType "function" = "keyword" by decide,
      show GetTokenType "return" = "keyword" by decide,
      show GetTokenType "do" = "keyword" by decide,
      Tokeniser.handleClass, Tokeniser.handleFunction, Tokeniser.handleReturnStatement,
      Tokeniser.handleDoStatement, Tokeniser.GetInitialToken,
      TokenContextStack.Peek, Tokeniser.deref, hE, Tokeniser.alloc, Tokeniser.AddToken,
      Tokeniser.UpdateCurrentContext, TokenContextStack.Push,
      Token.addChild, hlt,
      -List.getElem?_eq_getElem, List.getElem?_cons_zero, List.getElem?_cons_succ,
      List.take_append, List.set_append_right, List.set_append_left, List.set_set]

/-- A keyword that opens no construct: a keyword leaf is appended to the top
node. -/
theorem step_keyword_leaf (t : Tokeniser) (e : Nat) (E : Token) (kw : String)
    (hs : t.currentTokenStack.Peek = some e) (hE : t.deref e = some E)
    (hk : GetTokenType kw = "keyword")
    (hkw : kw ∉ ["class", "function", "return", "do"]) :
    t.ProcessToken kw = some { t with
      heap := (t.heap.set e (E.addChild t.heap.length) ++ [Token.mk "keyword" kw []]) } := by
  have hlt := deref_lt t e E hE
  have h1 : shouldEndCurrentTokenGroup kw = false := by
    by_contra hc
    have := shouldEnd_symbol kw (by simpa using hc)
    rw [hk] at this
    exact absurd this (by decide)
  have h2 : shouldOpenNewTokenGroup kw = false := by
    by_contra hc
    have := shouldOpen_symbol kw (by simpa using hc)
    rw [hk] at this
    exact absurd this (by decide)
  obtain ⟨buf, ⟨items⟩, toks, heap⟩ := t
  simp only [Tokeniser.deref] at hE hlt
  simp only [TokenContextStack.Peek] at hs
  obtain ⟨S, rfl⟩ := List.getLast?_eq_some_iff.mp hs
  simp only [List.mem_cons, List.mem_singleton, List.not_mem_nil, or_false, not_or] at hkw
  obtain ⟨k1, k2, k3, k4⟩ := hkw
  simp [Tokeniser.ProcessToken, h1, h2, hk, k1, k2, k3, k4, Tokeniser.handleKeyword,
      TokenContextStack.Peek, Tokeniser.deref, hE, Tokeniser.alloc, Tokeniser.AddToken,
      Token.addChild, hlt,
      -List.getElem?_eq_getElem, List.getElem?_cons_zero, List.getElem?_cons_succ,
      List.take_append, List.set_append_right, List.set_append_left, List.set_set]

/-- An identifier or integer constant under a kind that opens no implicit
wrapper: the leaf is appended to the top node. -/
theorem step_atom_plain (t : Tokeniser) (e : Nat) (E : Token) (x k : String)
    (hs : t.currentTokenStack.Peek = some e) (hE : t.deref e = some E)
    (k1 : E.tokenType ≠ "expressionList") (k2 : E.tokenType ≠ "expression")
    (k3 : E.tokenType ≠ "term")
    (hk : GetTokenType x = k) (hk2 : k = "integerConstant" ∨ k = "identifier") :
    t.ProcessToken x = some { t with
      heap := (t.heap.set e (E.addChild t.heap.length) ++ [Token.mk k x []]) } := by
  have hlt := deref_lt t e E hE
  obtain ⟨h1, h2⟩ := atom_flags x k hk hk2
  obtain ⟨buf, ⟨items⟩, toks, heap⟩ := t
  simp only [Tokeniser.deref] at hE hlt
  simp only [TokenContextStack.Peek] at hs
  obtain ⟨S, rfl⟩ := List.getLast?_eq_some_iff.mp hs
  rcases hk2 with rfl | rfl <;>
  simp [Tokeniser.ProcessToken, h1, h2, hk, Tokeniser.CheckCurrentContext, Tokeniser.checkLoop,
      TokenContextStack.Peek, Tokeniser.deref, hE, k1, k2, k3, Tokeniser.alloc,
      Tokeniser.AddToken, Token.addChild, hlt,
      -List.getElem?_eq_getElem, List.getElem?_cons_zero, List.getElem?_cons_succ,
      List.take_append, List.set_append_right, List.set_append_left, List.set_set]

/-- An identifier or integer constant under an `expressionList`: an
`expression` holding a `term` holding the leaf is appended, and the
`expression` stays on the stack. -/
theorem step_atom_expressionList (t : Tokeniser) (e : Nat) (E : Token) (x k : String)
    (hs : t.currentTokenStack.Peek = some e) (hE : t.deref e = some E)
    (hkind : E.tokenType = "expressionList")
    (hk : GetTokenType x = k) (hk2 : k = "integerConstant" ∨ k = "identifier") :
    t.ProcessToken x = some { t with
      currentTokenStack := ⟨t.currentTokenStack.items ++ [t.heap.length]⟩
      heap := (t.heap.set e (E.addChild t.heap.length) ++
        [Token.mk "expression" "" [t.heap.length + 1],
          Token.mk "term" "" [t.heap.length + 2], Token.mk k x []]) } := by
  have hlt := deref_lt t e E hE
  obtain ⟨h1, h2⟩ := atom_flags x k hk hk2
  obtain ⟨buf, ⟨items⟩, toks, heap⟩ := t
  simp only [Tokeniser.deref] at hE hlt
  simp only [TokenContextStack.Peek] at hs
  obtain ⟨S, rfl⟩ := List.getLast?_eq_some_iff.mp hs
  rcases hk2 with rfl | rfl <;>
  simp [Tokeniser.ProcessToken, h1, h2, hk, Tokeniser.CheckCurrentContext, Tokeniser.checkLoop,
      TokenContextStack.Peek, Tokeniser.deref, hE, hkind, Tokeniser.alloc, Tokeniser.AddToken,
      Tokeniser.UpdateCurrentContext, TokenContextStack.Push,
      Tokeniser.PopContextStack, TokenContextStack.Pop, Token.addChild, hlt,
      -List.getElem?_eq_getElem, List.getElem?_cons_zero, List.getElem?_cons_succ,
      List.take_append, List.set_append_right, List.set_append_left, List.set_set]

/-- An opening brace under a `subroutineDec`: a `subroutineBody` holding the
brace and an empty `statements` is appended, and both are pushed. -/
theorem step_open_brace_subroutineDec (t : Tokeniser) (e : Nat) (E : Token)
    (hs : t.currentTokenStack.Peek = some e) (hE : t.deref e = some E)
    (hkind : E.tokenType = "subroutineDec") :
    t.ProcessToken "\x7b" = some { t with
      currentTokenStack := ⟨t.currentTokenStack.items ++ [t.heap.length, t.heap.length + 2]⟩
      heap := (t.heap.set e (E.addChild t.heap.length) ++
        [Token.mk "subroutineBody" "" [t.heap.length + 1, t.heap.length + 2],
          Token.mk "symbol" "\x7b" [], Token.mk "statements" "" []]) } := by
  have hlt := deref_lt t e E hE
  obtain ⟨buf, ⟨items⟩, toks, heap⟩ := t
  simp only [Tokeniser.deref] at hE hlt
  simp only [TokenContextStack.Peek] at hs
  obtain ⟨S, rfl⟩ := List.getLast?_eq_some_iff.mp hs
  simp [Tokeniser.ProcessToken, shouldEndCurrentTokenGroup, shouldOpenNewTokenGroup,
      Tokeniser.openNewTokenGroup, Tokeniser.GetInitialToken, initialTokens_subroutineBody,
      initialTokens_statements,
      TokenContextStack.Peek, Tokeniser.deref, hE, hkind, Tokeniser.alloc, Tokeniser.AddToken,
      Tokeniser.UpdateCurrentContext, TokenContextStack.Push,
      Token.addChild, hlt,
      -List.getElem?_eq_getElem, List.getElem?_cons_zero, List.getElem?_cons_succ,
      List.take_append, List.set_append_right, List.set_append_left, List.set_set]

/-- A closing brace with `statements` on top of two further entries: the
`statements` is popped, the brace goes to the node beneath, and two more
entries are popped. -/
theorem step_close_brace_statements (t : Tokeniser) (S : List Nat) (d b s : Nat)
    (B St : Token) (hs : t.currentTokenStack.items = S ++ [d, b, s])
    (hSt : t.deref s = some St) (hkS : St.tokenType = "statements")
    (hB : t.deref b = some B) :
    t.ProcessToken "\x7d" = some { t with
      currentTokenStack := ⟨S⟩
      heap := (t.heap.set b (B.addChild t.heap.length) ++ [Token.mk "symbol" "\x7d" []]) } := by
  have hlt := deref_lt t s St hSt
  have hlt2 := deref_lt t b B hB
  obtain ⟨buf, ⟨items⟩, toks, heap⟩ := t
  simp only [Tokeniser.deref] at hSt hB hlt hlt2
  simp only at hs
  subst hs
  simp [Tokeniser.ProcessToken, shouldEndCurrentTokenGroup, shouldOpenNewTokenGroup,
      Tokeniser.endCurrentTokenGroup, Tokeniser.CheckCurrentContext, Tokeniser.checkLoop,
      Tokeniser.handleSymbol,
      TokenContextStack.Peek, Tokeniser.deref, hSt, hB, hkS, Tokeniser.alloc,
      Tokeniser.AddToken, Tokeniser.PopContextStack, TokenContextStack.Pop,
      Token.addChild, hlt, hlt2,
      -List.getElem?_eq_getElem, List.getElem?_cons_zero, List.getElem?_cons_succ,
      List.take_append, List.set_append_right, List.set_append_left, List.set_set]

/-- An opening parenthesis under a `doStatement`: the symbol leaf and an empty
`expressionList` are appended, and the `expressionList` is pushed. -/
theorem step_open_paren_doStatement (t : Tokeniser) (e : Nat) (E : Token)
    (hs : t.currentTokenStack.Peek = some e) (hE : t.deref e = some E)
    (hkind : E.tokenType = "doStatement") :
    t.ProcessToken "(" = some { t with
      currentTokenStack := ⟨t.currentTokenStack.items ++ [t.heap.length + 1]⟩
      heap := (t.heap.set e ((E.addChild t.heap.length).addChild (t.heap.length + 1)) ++
        [Token.mk "symbol" "(" [], Token.mk "expressionList" "" []]) } := by
  have hlt := deref_lt t e E hE
  obtain ⟨buf, ⟨items⟩, toks, heap⟩ := t
  simp only [Tokeniser.deref] at hE hlt
  simp only [TokenContextStack.Peek] at hs
  obtain ⟨S, rfl⟩ := List.getLast?_eq_some_iff.mp hs
  simp [Tokeniser.ProcessToken, shouldEndCurrentTokenGroup, shouldOpenNewTokenGroup,
      Tokeniser.openNewTokenGroup, Tokeniser.GetInitialToken, initialTokens_expressionList,
      TokenContextStack.Peek, Tokeniser.deref, hE, hkind, Tokeniser.alloc, Tokeniser.AddToken,
      Tokeniser.UpdateCurrentContext, TokenContextStack.Push,
      Token.addChild, hlt,
      -List.getElem?_eq_getElem, List.getElem?_cons_zero, List.getElem?_cons_succ,
      List.take_append, List.set_append_right, List.set_append_left, List.set_set]

/-- A closing parenthesis under a kind other than `expression`, with a node
beneath: the top is popped and the symbol leaf goes to the node beneath. -/
theorem step_close_paren_plain (t : Tokeniser) (S : List Nat) (p x : Nat) (P X : Token)
    (hs : t.currentTokenStack.items = S ++ [p, x])
    (hX : t.deref x = some X) (hkX : X.tokenType ≠ "expression")
    (hP : t.deref p = some P) :
    t.ProcessToken ")" = some { t with
      currentTokenStack := ⟨S ++ [p]⟩
      heap := (t.heap.set p (P.addChild t.heap.length) ++ [Token.mk "symbol" ")" []]) } := by
  have hlt := deref_lt t x X hX
  have hlt2 := deref_lt t p P hP
  obtain ⟨buf, ⟨items⟩, toks, heap⟩ := t
  simp only [Tokeniser.deref] at hX hP hlt hlt2
  simp only at hs
  subst hs
  simp [Tokeniser.ProcessToken, shouldEndCurrentTokenGroup, shouldOpenNewTokenGroup,
      Tokeniser.endCurrentTokenGroup, Tokeniser.CheckCurrentContext, Tokeniser.checkLoop,
      Tokeniser.handleSymbol,
      TokenContextStack.Peek, Tokeniser.deref, hX, hP, hkX, Tokeniser.alloc,
      Tokeniser.AddToken, Tokeniser.PopContextStack, TokenContextStack.Pop,
      Token.addChild, hlt, hlt2,
      -List.getElem?_eq_getElem, List.getElem?_cons_zero, List.getElem?_cons_succ,
      List.take_append, List.set_append_right, List.set_append_left, List.set_set]

/-- A semicolon: the symbol leaf is appended to the top node, which is then
popped. -/
theorem step_semicolon (t : Tokeniser) (S : List Nat) (e : Nat) (E : Token)
    (hs : t.currentTokenStack.items = S ++ [e]) (hE : t.deref e = some E) :
    t.ProcessToken ";" = some { t with
      currentTokenStack := ⟨S⟩
      heap := (t.heap.set e (E.addChild t.heap.length) ++ [Token.mk "symbol" ";" []]) } := by
  have hlt := deref_lt t e E hE
  obtain ⟨buf, ⟨items⟩, toks, heap⟩ := t
  simp only [Tokeniser.deref] at hE hlt
  simp only at hs
  subst hs
  simp [Tokeniser.ProcessToken, shouldEndCurrentTokenGroup, shouldOpenNewTokenGroup,
      Tokeniser.endCurrentTokenGroup, Tokeniser.handleSymbol,
      TokenContextStack.Peek, Tokeniser.deref, hE, Tokeniser.alloc,
      Tokeniser.AddToken, Tokeniser.PopContextStack, TokenContextStack.Pop,
      Token.addChild, hlt,
      -List.getElem?_eq_getElem, List.getElem?_cons_zero, List.getElem?_cons_succ,
      List.take_append, List.set_append_right, List.set_append_left, List.set_set]

/-- The global keyword leaves are still readable after a node at or above
address 4 was rewritten and further nodes were allocated. -/
theorem get_global (heap extra : List Token) (e i : Nat) (X : Token)
    (hg : heap.take 4 = globalHeap) (he : 4 ≤ e) (hi : i < 4) :
    (heap.set e X ++ extra)[i]? = globalHeap[i]? := by
  have hlen : 4 ≤ heap.length := by
    have h := congrArg List.length hg
    simp [globalHeap] at h
    exact h
  rw [List.getElem?_append_left (by simp; omega), List.getElem?_set_ne (by omega), ← hg,
    List.getElem?_take_of_lt hi]

/-- A run over a concatenation is the run over the parts. -/
theorem run_append (t : Tokeniser) (a b : List String) :
    t.run (a ++ b) = (t.run a).bind (fun t1 => t1.run b) := by
  simp [Tokeniser.run, List.foldlM_append]

/-- Reading a node whose cell is known. -/
theorem treeOf_succ (heap : List Token) (fuel p : Nat) (tok : Token)
    (h : heap[p]? = some tok) :
    treeOf heap (fuel + 1) p = (collect (tok.children.map (treeOf heap fuel))).map
      (fun cs => Tree.node tok.tokenType tok.token cs) := by
  simp only [treeOf, h]

/-- Reading a leaf. -/
theorem treeOf_leaf (heap : List Token) (fuel p : Nat) (k x : String)
    (h : heap[p]? = some (Token.mk k x [])) :
    treeOf heap (fuel + 1) p = some (Tree.node k x []) := by
  rw [treeOf_succ heap fuel p _ h]
  rfl

/-! ## The lexemes handed to `ProcessToken` -/

/-- The instrumented loop body computes the state of the loop body. -/
theorem scanStepTrace_snd (t : Tokeniser) (c : Char) :
    (t.scanStepTrace c).2 = t.scanStep c := by
  unfold Tokeniser.scanStepTrace Tokeniser.scanStep
  by_cases h1 : ((isSymbol (String.singleton c) || isWhitespace (String.singleton c)) &&
      t.tokenBeingParsed != "") = true
  · simp only [h1, if_true]
    cases hp : t.ProcessToken t.tokenBeingParsed with
    | none => rfl
    | some t0 =>
      simp only [Option.map_some', Option.bind_eq_bind, Option.some_bind, Option.pure_def]
      by_cases hw : isWhitespace (String.singleton c) = true
      · simp [hw]
      · by_cases hsy : isSymbol (String.singleton c) = true
        · simp only [hw, hsy, if_true, if_false, Bool.false_eq_true]
          generalize Tokeniser.ProcessToken _ (String.singleton c) = r
          cases r <;> rfl
        · simp [hw, hsy]
  · simp only [h1, if_false, Bool.false_eq_true]
    by_cases hw : isWhitespace (String.singleton c) = true
    · simp [hw]
    · by_cases hsy : isSymbol (String.singleton c) = true
      · simp only [hw, hsy, if_true, if_false, Bool.false_eq_true, Option.pure_def,
          Option.bind_eq_bind, Option.some_bind, List.nil_append]
        generalize Tokeniser.ProcessToken _ (String.singleton c) = r
        cases r <;> rfl
      · simp [hw, hsy]

/-- The instrumented scan computes the state of the scan. -/
theorem TokeniseTrace_snd (cs : List Char) :
    ∀ t : Tokeniser, (t.TokeniseTrace cs).2 = t.Tokenise cs := by
  induction cs with
  | nil => intro t; rfl
  | cons c cs ih =>
    intro t
    rw [Tokenise_cons, ← scanStepTrace_snd, Tokeniser.TokeniseTrace]
    rcases h : t.scanStepTrace c with ⟨calls, _ | t1⟩
    · rfl
    · simp only [Option.some_bind, ih]

/-- The calls of one loop body are a beginning of the lexemes of the round,
and all of them, with the buffer of the round, when the body succeeds. -/
theorem scanStepTrace_fst (t : Tokeniser) (c : Char) :
    (t.scanStepTrace c).1 <+: (lexStep t.tokenBeingParsed c).1 ∧
      ∀ t1, (t.scanStepTrace c).2 = some t1 →
        (t.scanStepTrace c).1 = (lexStep t.tokenBeingParsed c).1 ∧
          t1.tokenBeingParsed = (lexStep t.tokenBeingParsed c).2 := by
  unfold Tokeniser.scanStepTrace lexStep
  by_cases h1 : ((isSymbol (String.singleton c) || isWhitespace (String.singleton c)) &&
      t.tokenBeingParsed != "") = true
  · simp only [h1, if_true]
    cases hp : t.ProcessToken t.tokenBeingParsed with
    | none =>
      simp only [Option.map_none']
      refine ⟨?_, fun t1 h => by simp at h⟩
      by_cases hw : isWhitespace (String.singleton c) = true
      · simp [hw]
      · by_cases hsy : isSymbol (String.singleton c) = true
        · simp [hw, hsy]
        · simp [hw, hsy] at h1
    | some t0 =>
      simp only [Option.map_some']
      by_cases hw : isWhitespace (String.singleton c) = true
      · simp only [hw, if_true]
        exact ⟨List.prefix_refl _, fun t1 h => by simp at h; subst h; simp⟩
      · by_cases hsy : isSymbol (String.singleton c) = true
        · simp only [hw, hsy, if_true, if_false, Bool.false_eq_true]
          refine ⟨List.prefix_refl _, fun t1 h => ?_⟩
          revert h
          generalize Tokeniser.ProcessToken _ (String.singleton c) = r
          intro h
          cases r with
          | none => simp at h
          | some t2 => simp at h; subst h; simp
        · simp [hw, hsy] at h1
  · simp only [h1, if_false, Bool.false_eq_true]
    by_cases hw : isWhitespace (String.singleton c) = true
    · simp only [hw, if_true]
      exact ⟨List.prefix_refl _, fun t1 h => by simp at h; subst h; simp⟩
    · by_cases hsy : isSymbol (String.singleton c) = true
      · simp only [hw, hsy, if_true, if_false, Bool.false_eq_true]
        refine ⟨List.prefix_refl _, fun t1 h => ?_⟩
        revert h
        generalize Tokeniser.ProcessToken _ (String.singleton c) = r
        intro h
        cases r with
        | none => simp at h
        | some t2 => simp at h; subst h; simp
      · simp only [hw, hsy, if_false, Bool.false_eq_true]
        exact ⟨List.prefix_refl _, fun t1 h => by simp at h; subst h; simp⟩

/-- The calls of a scan are a beginning of the lexemes of the input, and all
of them, with the pending buffer, when the scan succeeds. -/
theorem TokeniseTrace_fst (cs : List Char) :
    ∀ t : Tokeniser, (t.TokeniseTrace cs).1 <+: (lexScan t.tokenBeingParsed cs).1 ∧
      ∀ t', (t.TokeniseTrace cs).2 = some t' →
        (t.TokeniseTrace cs).1 = (lexScan t.tokenBeingParsed cs).1 ∧
          t'.tokenBeingParsed = (lexScan t.tokenBeingParsed cs).2 := by
  induction cs with
  | nil =>
    intro t
    refine ⟨List.prefix_refl _, fun t' h => ?_⟩
    simp only [Tokeniser.TokeniseTrace, Option.some.injEq] at h
    subst h
    exact ⟨rfl, rfl⟩
  | cons c cs ih =>
    intro t
    obtain ⟨hp, hs⟩ := scanStepTrace_fst t c
    rw [Tokeniser.TokeniseTrace, lexScan_cons]
    rcases h : t.scanStepTrace c with ⟨calls, _ | t1⟩
    · rw [h] at hp
      refine ⟨hp.trans (List.prefix_append _ _), fun t' h' => by simp at h'⟩
    · rw [h] at hp hs
      obtain ⟨e1, e2⟩ := hs t1 rfl
      simp only at e1 e2 ⊢
      rw [← e1, ← e2]
      obtain ⟨ip, is⟩ := ih t1
      refine ⟨(List.prefix_append_right_inj calls).mpr ip, fun t' h' => ?_⟩
      obtain ⟨i1, i2⟩ := is t' h'
      exact ⟨by rw [i1], i2⟩


/-- A round on a character that is neither a symbol nor whitespace: nothing is
dispatched and the character joins the buffer. -/
theorem lexStep_plain (b : String) (c : Char) (h : isSeparator c = false) :
    lexStep b c = ([], b ++ String.singleton c) := by
  simp only [isSeparator, Bool.or_eq_false_iff] at h
  simp [lexStep, h.1, h.2]

/-- A round on a whitespace character: the buffer, if any, is dispatched. -/
theorem lexStep_whitespace (b : String) (c : Char)
    (h : isWhitespace (String.singleton c) = true) :
    lexStep b c = (if b = "" then [] else [b], "") := by
  by_cases hb : b = ""
  · subst hb; simp [lexStep, h]
  · simp [lexStep, h, hb]

/-- A round on a symbol character: the buffer, if any, is dispatched, then the
symbol. -/
theorem lexStep_symbol (b : String) (c : Char)
    (hw : isWhitespace (String.singleton c) = false)
    (h : isSymbol (String.singleton c) = true) :
    lexStep b c = ((if b = "" then [] else [b]) ++ [String.singleton c], "") := by
  by_cases hb : b = ""
  · subst hb; simp [lexStep, h, hw]
  · simp [lexStep, h, hw, hb]

/-- The three kinds of round. -/
theorem lexStep_cases (b : String) (c : Char) :
    (isSeparator c = false ∧ lexStep b c = ([], b ++ String.singleton c)) ∨
    (isSeparator c = true ∧ isWhitespace (String.singleton c) = true ∧
      isSymbol (String.singleton c) = false ∧
      lexStep b c = (if b = "" then [] else [b], "")) ∨
    (isSeparator c = true ∧ isWhitespace (String.singleton c) = false ∧
      isSymbol (String.singleton c) = true ∧
      lexStep b c = ((if b = "" then [] else [b]) ++ [String.singleton c], "")) := by
  by_cases hw : isWhitespace (String.singleton c) = true
  · right; left
    refine ⟨by simp [isSeparator, hw], hw, ?_, lexStep_whitespace b c hw⟩
    simp only [isWhitespace, whitespace, List.any_cons, List.any_nil, Bool.or_false,
      Bool.or_eq_true, beq_iff_eq] at hw
    rcases hw with h | h | h <;> rw [h] <;> decide
  · simp only [Bool.not_eq_true] at hw
    by_cases hs : isSymbol (String.singleton c) = true
    · right; right
      exact ⟨by simp [isSeparator, hs], hw, hs, lexStep_symbol b c hw hs⟩
    · simp only [Bool.not_eq_true] at hs
      left
      have : isSeparator c = false := by simp [isSeparator, hs, hw]
      exact ⟨this, lexStep_plain b c this⟩

/-- A symbol is the one-rune string of a separator character. -/
theorem isSymbol_singleton (x : String) (h : isSymbol x = true) :
    ∃ c, x = String.singleton c ∧ isSeparator c = true := by
  rw [isSymbol_iff] at h
  simp only [List.mem_cons, List.mem_singleton, List.not_mem_nil, or_false] at h
  rcases h with h | h | h | h | h | h | h | h | h | h | h | h | h | h | h | h | h | h | h <;>
    subst h
  · exact ⟨'\x7b', rfl, by decide⟩
  · exact ⟨'\x7d', rfl, by decide⟩
  · exact ⟨'(', rfl, by decide⟩
  · exact ⟨')', rfl, by decide⟩
  · exact ⟨'[', rfl, by decide⟩
  · exact ⟨']', rfl, by decide⟩
  · exact ⟨'.', rfl, by decide⟩
  · exact ⟨',', rfl, by decide⟩
  · exact ⟨';', rfl, by decide⟩
  · exact ⟨'+', rfl, by decide⟩
  · exact ⟨'-', rfl, by decide⟩
  · exact ⟨'*', rfl, by decide⟩
  · exact ⟨'/', rfl, by decide⟩
  · exact ⟨'&', rfl, by decide⟩
  · exact ⟨'|', rfl, by decide⟩
  · exact ⟨'<', rfl, by decide⟩
  · exact ⟨'>', rfl, by decide⟩
  · exact ⟨'=', rfl, by decide⟩
  · exact ⟨'~', rfl, by decide⟩

/-- A non-empty run without separator characters is not a symbol. -/
theorem isSymbol_run (x : String) (h : ∀ c ∈ x.data, isSeparator c = false) :
    isSymbol x = false := by
  by_contra hc
  obtain ⟨c, rfl, hsep⟩ := isSymbol_singleton x (by simpa using hc)
  have := h c (by simp [String.singleton])
  rw [this] at hsep
  exact absurd hsep (by decide)

/-- Every lexeme of a scan is non-empty and is the one-rune string of a symbol
or a run without separator characters; so is the pending buffer, apart from
being possibly empty. -/
theorem lexScan_lexemes (cs : List Char) :
    ∀ b : String, (∀ c ∈ b.data, isSeparator c = false) →
      (∀ x ∈ (lexScan b cs).1, x ≠ "" ∧
        ((∃ c, x = String.singleton c ∧ isSymbol x = true) ∨
          (∀ c ∈ x.data, isSeparator c = false))) ∧
      (∀ c ∈ (lexScan b cs).2.data, isSeparator c = false) := by
  induction cs with
  | nil => intro b hb; exact ⟨fun x hx => by simp [lexScan_nil] at hx, hb⟩
  | cons c cs ih =>
    intro b hb
    rw [lexScan_cons]
    have hflush : ∀ x ∈ (if b = "" then [] else [b]), x ≠ "" ∧
        ((∃ c, x = String.singleton c ∧ isSymbol x = true) ∨
          (∀ c ∈ x.data, isSeparator c = false)) := by
      intro x hx
      by_cases hbe : b = ""
      · simp [hbe] at hx
      · simp only [hbe, if_false, List.mem_singleton] at hx
        subst hx
        exact ⟨hbe, Or.inr hb⟩
    rcases lexStep_cases b c with ⟨hsep, h⟩ | ⟨hsep, hw, hs, h⟩ | ⟨hsep, hw, hs, h⟩
    · rw [h]
      have hb' : ∀ d ∈ (b ++ String.singleton c).data, isSeparator d = false := by
        intro d hd
        simp only [String.data_append, String.singleton, List.mem_append] at hd
        rcases hd with hd | hd
        · exact hb d hd
        · simp [String.push] at hd
          subst hd; exact hsep
      obtain ⟨i1, i2⟩ := ih _ hb'
      exact ⟨fun x hx => i1 x (by simpa using hx), i2⟩
    · rw [h]
      obtain ⟨i1, i2⟩ := ih "" (by simp)
      refine ⟨fun x hx => ?_, i2⟩
      simp only [List.mem_append] at hx
      rcases hx with hx | hx
      · exact hflush x hx
      · exact i1 x hx
    · rw [h]
      obtain ⟨i1, i2⟩ := ih "" (by simp)
      refine ⟨fun x hx => ?_, i2⟩
      simp only [List.mem_append, List.mem_singleton] at hx
      rcases hx with (hx | hx) | hx
      · exact hflush x hx
      · subst hx
        exact ⟨by simp [String.singleton, String.ext_iff, String.push], Or.inl ⟨c, rfl, hs⟩⟩
      · exact i1 x hx

/-- The characters of the lexemes of a scan, followed by the pending buffer,
are the buffer it started with followed by the input without its whitespace
characters: nothing is lost, repeated or reordered. -/
theorem lexScan_flatten (cs : List Char) :
    ∀ b : String, ((lexScan b cs).1.map String.data).flatten ++ (lexScan b cs).2.data =
      b.data ++ cs.filter (fun c => !isWhitespace (String.singleton c)) := by
  induction cs with
  | nil => intro b; simp [lexScan_nil]
  | cons c cs ih =>
    intro b
    rw [lexScan_cons]
    have hflush : ((if b = "" then [] else [b]).map String.data).flatten = b.data := by
      by_cases hbe : b = ""
      · subst hbe; simp
      · simp [hbe]
    rcases lexStep_cases b c with ⟨hsep, h⟩ | ⟨hsep, hw, hs, h⟩ | ⟨hsep, hw, hs, h⟩
    · have hw : isWhitespace (String.singleton c) = false := by
        simp only [isSeparator, Bool.or_eq_false_iff] at hsep
        exact hsep.2
      rw [h]
      simp only [List.nil_append, ih, List.filter_cons, hw, Bool.not_false, if_true]
      simp [String.singleton, String.push]
    · rw [h]
      simp only [List.map_append, List.flatten_append, hflush, List.append_assoc, ih,
        List.filter_cons, hw, Bool.not_true, Bool.false_eq_true, if_false]
      simp
    · rw [h]
      simp only [List.map_append, List.flatten_append, hflush, List.append_assoc, ih,
        List.filter_cons, hw, Bool.not_false, if_true]
      simp [String.singleton, String.push]

/-- The symbol lexemes of a scan are the symbol characters of the input, each
one once and in order. -/
theorem lexScan_symbols (cs : List Char) :
    ∀ b : String, (∀ c ∈ b.data, isSeparator c = false) →
      (lexScan b cs).1.filter isSymbol =
        (cs.filter (fun c => isSymbol (String.singleton c))).map String.singleton := by
  induction cs with
  | nil => intro b _; simp [lexScan_nil]
  | cons c cs ih =>
    intro b hb
    rw [lexScan_cons]
    have hflush : (if b = "" then [] else [b]).filter isSymbol = [] := by
      by_cases hbe : b = ""
      · simp [hbe]
      · simp [hbe, isSymbol_run b hb]
    rcases lexStep_cases b c with ⟨hsep, h⟩ | ⟨hsep, hw, hs, h⟩ | ⟨hsep, hw, hs, h⟩
    · have hs : isSymbol (String.singleton c) = false := by
        simp only [isSeparator, Bool.or_eq_false_iff] at hsep
        exact hsep.1
      have hb' : ∀ d ∈ (b ++ String.singleton c).data, isSeparator d = false := by
        intro d hd
        simp only [String.data_append, String.singleton, List.mem_append] at hd
        rcases hd with hd | hd
        · exact hb d hd
        · simp [String.push] at hd
          subst hd; exact hsep
      rw [h]
      simp only [List.nil_append, ih _ hb', List.filter_cons, hs, Bool.false_eq_true, if_false]
    · rw [h]
      simp only [List.filter_append, hflush, List.nil_append, ih "" (by simp),
        List.filter_cons, hs, Bool.false_eq_true, if_false]
    · rw [h]
      simp only [List.filter_append, hflush, List.nil_append, ih "" (by simp),
        List.filter_cons, hs, if_true, List.filter_nil, List.map_cons, List.singleton_append]


/-- The lexemes and the buffer after one more character. -/
theorem lexScan_concat (cs : List Char) (q : Char) (b : String) :
    lexScan b (cs ++ [q]) = ((lexScan b cs).1 ++ (lexStep (lexScan b cs).2 q).1,
      (lexStep (lexScan b cs).2 q).2) := by
  rw [lexScan_append, lexScan_cons, lexScan_nil]
  simp

/-- The pending buffer is the run at the end of the input: what precedes it is
empty or ends with a separator, and has the same lexemes. -/
theorem lexScan_buffer (cs : List Char) :
    ∃ pre, cs = pre ++ (lexScan "" cs).2.data ∧
      (pre = [] ∨ ∃ p q, pre = p ++ [q] ∧ isSeparator q = true) ∧
      lexScan "" pre = ((lexScan "" cs).1, "") := by
  induction cs using List.reverseRecOn with
  | nil => exact ⟨[], by simp [lexScan_nil], Or.inl rfl, by simp [lexScan_nil]⟩
  | append_singleton cs q ih =>
    obtain ⟨pre, h1, h2, h3⟩ := ih
    rw [lexScan_concat]
    rcases lexStep_cases (lexScan "" cs).2 q with ⟨hsep, h⟩ | ⟨hsep, hw, hs, h⟩ |
      ⟨hsep, hw, hs, h⟩
    · rw [h]
      refine ⟨pre, ?_, h2, by simpa using h3⟩
      simp only [String.data_append, String.singleton, ← List.append_assoc, ← h1]
      simp [String.push]
    · refine ⟨cs ++ [q], ?_, Or.inr ⟨cs, q, rfl, hsep⟩, ?_⟩
      · rw [h]; simp
      · rw [lexScan_concat, h]
    · refine ⟨cs ++ [q], ?_, Or.inr ⟨cs, q, rfl, hsep⟩, ?_⟩
      · rw [h]; simp
      · rw [lexScan_concat, h]

/-- A lexeme that is flushed or was dispatched earlier, located in the input
extended by a separator. -/
theorem lexScan_locate (cs : List Char) (q : Char) (hq : isSeparator q = true)
    (ih : ∀ l1 x l2, (lexScan "" cs).1 = l1 ++ x :: l2 → isSymbol x = false →
      ∃ pre post d, cs = pre ++ x.data ++ d :: post ∧ isSeparator d = true ∧
        (pre = [] ∨ ∃ p q, pre = p ++ [q] ∧ isSeparator q = true) ∧
        lexScan "" pre = (l1, ""))
    (l1 : List String) (x : String) (l2 : List String)
    (h : (lexScan "" cs).1 ++ (if (lexScan "" cs).2 = "" then [] else [(lexScan "" cs).2]) =
      l1 ++ x :: l2) (hx : isSymbol x = false) :
    ∃ pre post d, cs ++ [q] = pre ++ x.data ++ d :: post ∧ isSeparator d = true ∧
      (pre = [] ∨ ∃ p q, pre = p ++ [q] ∧ isSeparator q = true) ∧
      lexScan "" pre = (l1, "") := by
  have old : ∀ l2', (lexScan "" cs).1 = l1 ++ x :: l2' →
      ∃ pre post d, cs ++ [q] = pre ++ x.data ++ d :: post ∧ isSeparator d = true ∧
        (pre = [] ∨ ∃ p q, pre = p ++ [q] ∧ isSeparator q = true) ∧
        lexScan "" pre = (l1, "") := by
    intro l2' h'
    obtain ⟨pre, post, d, e1, e2, e3, e4⟩ := ih l1 x l2' h' hx
    exact ⟨pre, post ++ [q], d, by rw [e1]; simp, e2, e3, e4⟩
  by_cases hb : (lexScan "" cs).2 = ""
  · simp only [hb, if_true, List.append_nil] at h
    exact old l2 h
  · simp only [hb, if_false] at h
    rcases List.eq_nil_or_concat l2 with rfl | ⟨l2', z, rfl⟩
    · have h' : (lexScan "" cs).1 ++ [(lexScan "" cs).2] = l1 ++ [x] := h
      obtain ⟨e1, e2⟩ := List.append_inj' h' rfl
      obtain ⟨pre, p1, p2, p3⟩ := lexScan_buffer cs
      simp only [List.cons.injEq, and_true] at e2
      refine ⟨pre, [], q, ?_, hq, p2, by rw [p3, e1]⟩
      rw [← e2, List.append_assoc]
      conv_lhs => rw [p1]
      simp
    · rw [List.concat_eq_append] at h
      have h' : (lexScan "" cs).1 ++ [(lexScan "" cs).2] = (l1 ++ x :: l2') ++ [z] := by
        rw [h]; simp
      obtain ⟨e1, _⟩ := List.append_inj' h' rfl
      exact old l2' e1

/-- Every run lexeme is maximal: it stands in the input between the start or
a separator character and a separator character, after exactly the input that
gives the lexemes dispatched before it. -/
theorem lexScan_maximal (cs : List Char) :
    ∀ l1 x l2, (lexScan "" cs).1 = l1 ++ x :: l2 → isSymbol x = false →
      ∃ pre post d, cs = pre ++ x.data ++ d :: post ∧ isSeparator d = true ∧
        (pre = [] ∨ ∃ p q, pre = p ++ [q] ∧ isSeparator q = true) ∧
        lexScan "" pre = (l1, "") := by
  induction cs using List.reverseRecOn with
  | nil => intro l1 x l2 h; simp [lexScan_nil] at h
  | append_singleton cs q ih =>
    intro l1 x l2 h hx
    rw [lexScan_concat] at h
    rcases lexStep_cases (lexScan "" cs).2 q with ⟨hsep, hl⟩ | ⟨hsep, hw, hs, hl⟩ |
      ⟨hsep, hw, hs, hl⟩
    · rw [hl] at h
      simp only [List.append_nil] at h
      obtain ⟨pre, post, d, e1, e2, e3, e4⟩ := ih l1 x l2 h hx
      exact ⟨pre, post ++ [q], d, by rw [e1]; simp, e2, e3, e4⟩
    · rw [hl] at h
      exact lexScan_locate cs q hsep ih l1 x l2 h hx
    · rw [hl] at h
      simp only at h
      rcases List.eq_nil_or_concat l2 with rfl | ⟨l2', z, rfl⟩
      · rw [← List.append_assoc] at h
        obtain ⟨_, e2⟩ := List.append_inj' h rfl
        simp only [List.cons.injEq, and_true] at e2
        rw [← e2, hs] at hx
        exact absurd hx (by decide)
      · rw [List.concat_eq_append, ← List.append_assoc] at h
        have h' : ((lexScan "" cs).1 ++
            (if (lexScan "" cs).2 = "" then [] else [(lexScan "" cs).2])) ++
              [String.singleton q] = (l1 ++ x :: l2') ++ [z] := by
          rw [h]; simp
        obtain ⟨e1, _⟩ := List.append_inj' h' rfl
        exact lexScan_locate cs q hsep ih l1 x l2' e1 hx

/-! ## The handlers as sequences of elementary moves -/

theorem Evolves.cast {t t1 t2 : Tokeniser} {L L' : List (String × String)}
    (h : Evolves t L t1) (hL : L = L') (ht : t1 = t2) : Evolves t L' t2 := by
  subst hL; subst ht; exact h

theorem Evolves.step {t t1 t2 : Tokeniser} {L1 L2 L : List (String × String)}
    (h : Evolves t L1 t1) (hs : Step t1 L2 t2) (hL : L1 ++ L2 = L) : Evolves t L t2 := by
  subst hL; exact Evolves.tail t t1 t2 L1 L2 h hs

theorem Evolves.append_moves {t t1 t2 : Tokeniser} {L1 L2 : List (String × String)}
    (h1 : Evolves t L1 t1) (h2 : Evolves t1 L2 t2) : Evolves t (L1 ++ L2) t2 := by
  induction h2 with
  | refl => simpa using h1
  | tail t3 t4 L3 L4 _ hs ih => exact ih.step hs (by simp)

/-- The moves keep the stack inside the heap. -/
theorem Step.valid_step {t t' : Tokeniser} {L : List (String × String)} (h : Step t L t')
    (hv : t.Valid) : t'.Valid := by
  cases h with
  | leaf e E k x hs hE hk =>
    intro p hp
    have := hv p hp
    simp only [List.length_append, List.length_set, List.length_singleton]
    omega
  | openEmpty e E k hs hE hk =>
    intro p hp
    simp only [List.mem_append, List.mem_singleton] at hp
    simp only [List.length_append, List.length_set, List.length_singleton]
    rcases hp with hp | rfl
    · have := hv p hp; omega
    · omega
  | openSkeleton e E key hs hE hk =>
    intro p hp
    simp only [List.mem_append, List.mem_singleton] at hp
    simp only [List.length_append, List.length_set, List.length_singleton]
    rcases hp with hp | rfl
    · have := hv p hp; omega
    · omega
  | openStatements S d b D B hs hD hkD hB hkB =>
    intro p hp
    simp only [List.mem_append, List.mem_singleton] at hp
    simp only [List.length_append, List.length_set, List.length_singleton]
    rcases hp with hp | rfl
    · have := hv p hp; omega
    · omega
  | pop S e hs =>
    intro p hp
    exact hv p (by rw [hs]; simp [hp])
  | setBuffer b => exact hv

theorem Evolves.valid_moves {t t' : Tokeniser} {L : List (String × String)} (h : Evolves t L t')
    (hv : t.Valid) : t'.Valid := by
  induction h with
  | refl => exact hv
  | tail t1 t2 L1 L2 _ hs ih => exact hs.valid_step ih

/-- What `AddToken` of a freshly allocated node does in a valid state. -/
theorem add_spec {t t2 : Tokeniser} (N : Token) (hv : t.Valid)
    (h : Tokeniser.AddToken { t with heap := t.heap ++ [N] } t.heap.length = some t2) :
    ∃ e E, t.currentTokenStack.Peek = some e ∧ t.deref e = some E ∧
      t2 = { t with heap := (t.heap.set e (E.addChild t.heap.length) ++ [N]) } := by
  simp only [Tokeniser.AddToken, Option.bind_eq_bind, Option.bind_eq_some, Option.pure_def,
    Option.some.injEq] at h
  obtain ⟨e, he, E, hE, rfl⟩ := h
  have hlt : e < t.heap.length := by
    apply hv
    simp only [TokenContextStack.Peek] at he
    obtain ⟨S, hS⟩ := List.getLast?_eq_some_iff.mp he
    rw [hS]
    simp
  simp only [Tokeniser.deref, get_old, hlt] at hE
  refine ⟨e, E, he, hE, ?_⟩
  simp [Token.addChild, List.set_append_left, hlt]


theorem reach_leaf {t0 t t2 : Tokeniser} {L : List (String × String)} (k x : String)
    (h : Reach t0 L t)
    (ha : Tokeniser.AddToken { t with heap := t.heap ++ [Token.mk k x []] } t.heap.length =
      some t2) (hk : isTerminalKind k = true) : Reach t0 (L ++ [(k, x)]) t2 := by
  obtain ⟨e, E, hs, hE, rfl⟩ := add_spec _ h.2 ha
  have hstep := Step.leaf t e E k x hs hE hk
  exact ⟨h.1.step hstep rfl, hstep.valid_step h.2⟩

theorem reach_open {t0 t t2 : Tokeniser} {L : List (String × String)} (k : String)
    (h : Reach t0 L t)
    (ha : Tokeniser.AddToken { t with heap := t.heap ++ [Token.mk k "" []] } t.heap.length =
      some t2)
    (hk : k ∈ ["expression", "term", "parameterList", "expressionList", "subroutineBody"]) :
    Reach t0 L (t2.UpdateCurrentContext t.heap.length) := by
  obtain ⟨e, E, hs, hE, rfl⟩ := add_spec _ h.2 ha
  have hstep := Step.openEmpty t e E k hs hE hk
  exact ⟨h.1.step hstep (by simp), hstep.valid_step h.2⟩

theorem reach_skeleton {t0 t t2 : Tokeniser} {L : List (String × String)} (key : String)
    (h : Reach t0 L t)
    (ha : Tokeniser.AddToken { t with heap := t.heap ++ [initialTokens key] } t.heap.length =
      some t2)
    (hk : key ∈ ["class", "function", "return", "do"]) :
    Reach t0 (L ++ [("keyword", key)]) (t2.UpdateCurrentContext t.heap.length) := by
  obtain ⟨e, E, hs, hE, rfl⟩ := add_spec _ h.2 ha
  have hstep := Step.openSkeleton t e E key hs hE hk
  exact ⟨h.1.step hstep rfl, hstep.valid_step h.2⟩

theorem reach_pop {t0 t t' : Tokeniser} {L : List (String × String)} (h : Reach t0 L t)
    (hp : t.PopContextStack [] = some t') : Reach t0 L t' := by
  simp only [Tokeniser.PopContextStack, TokenContextStack.Pop, Option.bind_eq_bind,
    Option.bind_eq_some, Option.pure_def, Option.some.injEq] at hp
  obtain ⟨s, hs, rfl⟩ := hp
  split_ifs at hs with hc
  simp only [Option.some.injEq] at hs
  subst hs
  rcases List.eq_nil_or_concat t.currentTokenStack.items with h0 | ⟨S, e, h1⟩
  · rw [h0] at hc; simp at hc
  · rw [List.concat_eq_append] at h1
    have hstep := Step.pop t S e h1
    refine ⟨(h.1.step hstep (by simp)).cast rfl ?_, ?_⟩
    · simp [h1]
    · have := hstep.valid_step h.2
      simpa [h1] using this

theorem reach_pop_two {t0 t t' : Tokeniser} {L : List (String × String)} (h : Reach t0 L t)
    (hp : t.PopContextStack [2] = some t') : Reach t0 L t' := by
  simp only [Tokeniser.PopContextStack, TokenContextStack.Pop, Option.bind_eq_bind,
    Option.bind_eq_some, Option.pure_def, Option.some.injEq] at hp
  obtain ⟨s, hs, rfl⟩ := hp
  split_ifs at hs with hc
  simp only [Option.some.injEq] at hs
  subst hs
  rcases List.eq_nil_or_concat t.currentTokenStack.items with h0 | ⟨S1, b, h1⟩
  · rw [h0] at hc; simp at hc
  · rw [List.concat_eq_append] at h1
    rcases List.eq_nil_or_concat S1 with h0 | ⟨S, a, h2⟩
    · rw [h1, h0] at hc; simp at hc
    · rw [List.concat_eq_append] at h2
      subst h2
      have hstep1 := Step.pop t (S ++ [a]) b h1
      have hstep2 := Step.pop { t with currentTokenStack := ⟨S ++ [a]⟩ } S a rfl
      refine ⟨((h.1.step hstep1 (List.append_nil L)).step hstep2 (List.append_nil L)).cast rfl ?_, ?_⟩
      · simp [h1]
      · have := hstep2.valid_step (hstep1.valid_step h.2)
        simpa [h1] using this

theorem handleSymbol_reach {t0 t t' : Tokeniser} {L : List (String × String)}
    (h : Reach t0 L t) (x : String) (hx : t.handleSymbol x = some t') :
    Reach t0 (L ++ [("symbol", x)]) t' := by
  simp only [Tokeniser.handleSymbol, Tokeniser.alloc, Option.bind_eq_bind,
    Option.bind_eq_some] at hx
  obtain ⟨t1, h1, h2⟩ := hx
  have r1 : Reach t0 L t1 := by
    split_ifs at h1 with hc
    · simp only [Option.bind_eq_bind, Option.bind_eq_some] at h1
      obtain ⟨top, _, tok, _, h3⟩ := h1
      split_ifs at h3
      · exact reach_pop h h3
      · simp only [Option.pure_def, Option.some.injEq] at h3
        subst h3; exact h
    · simp only [Option.pure_def, Option.some.injEq] at h1
      subst h1; exact h
  exact reach_leaf "symbol" x r1 h2 (by decide)

theorem endCurrentTokenGroup_reach {t0 t t' : Tokeniser} {L : List (String × String)}
    (h : Reach t0 L t) (x : String) (hx : t.endCurrentTokenGroup x = some t') :
    Reach t0 (L ++ (if x = "\x7d" ∨ x = ";" ∨ x = ")" then [("symbol", x)] else [])) t' := by
  simp only [Tokeniser.endCurrentTokenGroup] at hx
  by_cases h1 : x = "\x7d"
  · simp only [h1, beq_self_eq_true, if_true, Option.bind_eq_bind, Option.bind_eq_some] at hx
    simp only [h1, true_or, if_true]
    obtain ⟨c, _, hx⟩ := hx
    cases c
    · simp only [Bool.false_eq_true, if_false, Option.bind_eq_some] at hx
      obtain ⟨t1, a1, a2⟩ := hx
      exact reach_pop (handleSymbol_reach h _ a1) a2
    · simp only [if_true, Option.bind_eq_some] at hx
      obtain ⟨t1, a1, t2, a2, a3⟩ := hx
      exact reach_pop_two (handleSymbol_reach (reach_pop h a1) _ a2) a3
  · by_cases h2 : x = ";"
    · simp only [h2, beq_self_eq_true, if_true, Option.bind_eq_bind, Option.bind_eq_some,
        show (";" == "\x7d") = false by decide, Bool.false_eq_true, if_false] at hx
      simp only [h2, true_or, or_true, if_true]
      obtain ⟨t1, a1, a2⟩ := hx
      exact reach_pop (handleSymbol_reach h _ a1) a2
    · by_cases h3 : x = ")"
      · simp only [h3, beq_self_eq_true, if_true, Option.bind_eq_bind, Option.bind_eq_some,
          show (")" == "\x7d") = false by decide, show (")" == ";") = false by decide,
          Bool.false_eq_true, if_false] at hx
        simp only [h3, or_true, if_true]
        obtain ⟨c, _, hx⟩ := hx
        cases c
        · simp only [Bool.false_eq_true, if_false, Option.bind_eq_some] at hx
          obtain ⟨t1, a1, a2⟩ := hx
          exact handleSymbol_reach (reach_pop h a1) _ a2
        · simp only [if_true, Option.bind_eq_some] at hx
          obtain ⟨t1, a1, t2, a2, c2, _, a3⟩ := hx
          have r2 := handleSymbol_reach (reach_pop h a1) _ a2
          cases c2
          · simp only [Bool.false_eq_true, if_false, Option.pure_def, Option.some.injEq] at a3
            subst a3; exact r2
          · simp only [if_true] at a3
            exact reach_pop r2 a3
      · have e1 : (x == "\x7d") = false := by simpa using h1
        have e2 : (x == ";") = false := by simpa using h2
        have e3 : (x == ")") = false := by simpa using h3
        simp only [e1, e2, e3, Bool.false_eq_true, if_false, ite_self, Option.some.injEq] at hx
        subst hx
        simpa [h1, h2, h3] using h

/-- The opening brace of a subroutine body as three elementary moves. -/
theorem evolves_open_brace (t : Tokeniser) (e : Nat) (E : Token)
    (hs : t.currentTokenStack.Peek = some e) (hE : t.deref e = some E)
    (hkind : E.tokenType = "subroutineDec") :
    Evolves t [("symbol", "\x7b")] { t with
      currentTokenStack := ⟨t.currentTokenStack.items ++ [t.heap.length, t.heap.length + 2]⟩
      heap := (t.heap.set e (E.addChild t.heap.length) ++
        [Token.mk "subroutineBody" "" [t.heap.length + 1, t.heap.length + 2],
          Token.mk "symbol" "\x7b" [], Token.mk "statements" "" []]) } := by
  have hlt := deref_lt t e E hE
  simp only [Tokeniser.deref] at hlt
  obtain ⟨S, hS⟩ := List.getLast?_eq_some_iff.mp hs
  have s1 := Step.openEmpty t e E "subroutineBody" hs hE (by simp)
  have s2 := Step.leaf { t with
      currentTokenStack := ⟨t.currentTokenStack.items ++ [t.heap.length]⟩
      heap := (t.heap.set e (E.addChild t.heap.length) ++ [Token.mk "subroutineBody" "" []]) }
    t.heap.length (Token.mk "subroutineBody" "" []) "symbol" "\x7b"
    (by simp [TokenContextStack.Peek])
    (by simp [Tokeniser.deref, -List.getElem?_eq_getElem, List.getElem?_cons_zero])
    (by decide)
  have s3 := Step.openStatements { t with
      currentTokenStack := ⟨t.currentTokenStack.items ++ [t.heap.length]⟩
      heap := ((t.heap.set e (E.addChild t.heap.length) ++
          [Token.mk "subroutineBody" "" []]).set t.heap.length
            ((Token.mk "subroutineBody" "" []).addChild (t.heap.length + 1)) ++
        [Token.mk "symbol" "\x7b" []]) }
    S e t.heap.length (E.addChild t.heap.length)
    ((Token.mk "subroutineBody" "" []).addChild (t.heap.length + 1))
    (by simp [hS])
    (by simp [Tokeniser.deref, hlt, List.set_append_right, List.set_append_left,
      -List.getElem?_eq_getElem, List.getElem?_cons_zero])
    (by simpa [Token.addChild] using hkind)
    (by simp [Tokeniser.deref, hlt, List.set_append_right, List.set_append_left,
      -List.getElem?_eq_getElem, List.getElem?_cons_zero])
    rfl
  have ev2 : Evolves t [("symbol", "\x7b")] { t with
      currentTokenStack := ⟨t.currentTokenStack.items ++ [t.heap.length]⟩
      heap := ((t.heap.set e (E.addChild t.heap.length) ++
          [Token.mk "subroutineBody" "" []]).set t.heap.length
            ((Token.mk "subroutineBody" "" []).addChild (t.heap.length + 1)) ++
        [Token.mk "symbol" "\x7b" []]) } := by
    refine (((Evolves.refl t).step s1 rfl).step s2 rfl).cast rfl ?_
    simp
  refine (ev2.step s3 rfl).cast rfl ?_
  simp [Token.addChild, hlt, List.set_append_right, List.set_append_left, List.set_set,
    Nat.add_assoc]

theorem ProcessToken_open_brace (t : Tokeniser) :
    t.ProcessToken "\x7b" = t.openNewTokenGroup "\x7b" := by
  simp [Tokeniser.ProcessToken, shouldEndCurrentTokenGroup, shouldOpenNewTokenGroup]

theorem openNewTokenGroup_reach {t0 t t' : Tokeniser} {L : List (String × String)}
    (h : Reach t0 L t) (x : String) (hx : t.openNewTokenGroup x = some t') :
    Reach t0 (L ++ [("symbol", x)]) t' := by
  have hx0 := hx
  simp only [Tokeniser.openNewTokenGroup, Tokeniser.alloc,
    Tokeniser.GetInitialToken, initialTokens_subroutineBody, initialTokens_statements,
    initialTokens_parameterList, initialTokens_expressionList, Option.bind_eq_bind,
    Option.bind_eq_some] at hx
  obtain ⟨e, hs, E, hE, hx⟩ := hx
  by_cases c1 : (x == "\x7b" && E.tokenType == "subroutineDec") = true
  · simp only [Bool.and_eq_true, beq_iff_eq] at c1
    obtain ⟨rfl, hkind⟩ := c1
    rw [← ProcessToken_open_brace, step_open_brace_subroutineDec t e E hs hE hkind,
      Option.some.injEq] at hx0
    subst hx0
    have hev := evolves_open_brace t e E hs hE hkind
    exact ⟨h.1.append_moves hev, hev.valid_moves h.2⟩
  simp only [c1, Bool.false_eq_true, if_false] at hx
  by_cases c2 : (x == "(" && E.tokenType == "subroutineDec") = true
  · simp only [c2, if_true, Option.bind_eq_some, Option.pure_def, Option.some.injEq] at hx
    obtain ⟨t2, a1, t4, a2, rfl⟩ := hx
    exact reach_open "parameterList" (reach_leaf "symbol" x h a1 (by decide)) a2 (by simp)
  simp only [c2, Bool.false_eq_true, if_false] at hx
  by_cases c3 : (x == "(" && E.tokenType == "doStatement") = true
  · simp only [c3, if_true, Option.bind_eq_some, Option.pure_def, Option.some.injEq] at hx
    obtain ⟨t2, a1, t4, a2, rfl⟩ := hx
    exact reach_open "expressionList" (reach_leaf "symbol" x h a1 (by decide)) a2 (by simp)
  simp only [c3, Bool.false_eq_true, if_false] at hx
  by_cases c4 : (x == "(") = true
  · simp only [c4, if_true, Option.bind_eq_some] at hx
    obtain ⟨b1, _, hx⟩ := hx
    cases b1
    · simp only [Bool.false_eq_true, if_false] at hx
      exact reach_leaf "symbol" x h hx (by decide)
    · simp only [if_true, Option.bind_eq_some, Option.pure_def, Option.some.injEq] at hx
      obtain ⟨b2, _, t3, a3, t5, a5, t8, a8, t10, a10, rfl⟩ := hx
      have r3 : Reach t0 L t3 := by
        cases b2
        · simp only [Bool.not_false, if_true, Option.bind_eq_some, Option.some.injEq] at a3
          obtain ⟨t2, a2, rfl⟩ := a3
          exact reach_open "expression" h a2 (by simp)
        · simp only [Bool.not_true, Bool.false_eq_true, if_false, Option.some.injEq] at a3
          subst a3; exact h
      have r5 := reach_open "term" r3 a5 (by simp)
      have r8 := reach_leaf "symbol" x r5 a8 (by decide)
      exact reach_open "expression" r8 a10 (by simp)
  · simp only [c4, Bool.false_eq_true, if_false] at hx
    exact reach_leaf "symbol" x h hx (by decide)

theorem expectedLeaf_of_type (x k : String) (hk : GetTokenType x = k) (hk' : k ≠ "")
    (hx : x ≠ "]") : expectedLeaf x = some (k, x) := by
  subst hk
  simp [expectedLeaf, hx, hk']

theorem GetTokenType_range (x : String) :
    GetTokenType x = "keyword" ∨ GetTokenType x = "symbol" ∨ GetTokenType x = "identifier" ∨
      GetTokenType x = "integerConstant" ∨ GetTokenType x = "" := by
  unfold GetTokenType
  split_ifs <;> simp

/-- A successful `ProcessToken` is a sequence of elementary moves that adds
exactly the expected leaf of the lexeme. -/
theorem ProcessToken_reach {t0 t t' : Tokeniser} {L : List (String × String)}
    (h : Reach t0 L t) (x : String) (hx : t.ProcessToken x = some t') :
    Reach t0 (L ++ (expectedLeaf x).toList) t' := by
  simp only [Tokeniser.ProcessToken] at hx
  by_cases c1 : shouldEndCurrentTokenGroup x = true
  · simp only [c1, if_true] at hx
    have hr := endCurrentTokenGroup_reach h x hx
    have hmem : x ∈ ["\x7d", ";", ")", "]"] := by
      simpa [shouldEndCurrentTokenGroup] using c1
    simp only [List.mem_cons, List.mem_singleton, List.not_mem_nil, or_false] at hmem
    rcases hmem with rfl | rfl | rfl | rfl
    · exact hr
    · exact hr
    · exact hr
    · exact hr
  simp only [c1, Bool.false_eq_true, if_false] at hx
  have hne : x ≠ "]" := by
    rintro rfl
    exact c1 (by decide)
  by_cases c2 : shouldOpenNewTokenGroup x = true
  · simp only [c2, if_true] at hx
    have hr := openNewTokenGroup_reach h x hx
    rw [expectedLeaf_of_type x "symbol" (shouldOpen_symbol x c2) (by decide) hne]
    exact hr
  simp only [c2, Bool.false_eq_true, if_false] at hx
  by_cases c3 : (GetTokenType x == "symbol") = true
  · simp only [c3, if_true] at hx
    rw [expectedLeaf_of_type x "symbol" (by simpa using c3) (by decide) hne]
    exact handleSymbol_reach h x hx
  simp only [c3, Bool.false_eq_true, if_false] at hx
  by_cases c4 : (GetTokenType x == "keyword") = true
  · simp only [c4, if_true] at hx
    rw [expectedLeaf_of_type x "keyword" (by simpa using c4) (by decide) hne]
    by_cases k1 : (x == "class") = true
    · simp only [k1, if_true, Tokeniser.handleClass, Tokeniser.GetInitialToken,
        Tokeniser.alloc, Option.bind_eq_bind, Option.bind_eq_some, Option.pure_def,
        Option.some.injEq] at hx
      obtain ⟨t2, a2, rfl⟩ := hx
      have : x = "class" := by simpa using k1
      subst this
      exact reach_skeleton "class" h a2 (by simp)
    simp only [k1, Bool.false_eq_true, if_false] at hx
    by_cases k2 : (x == "function") = true
    · simp only [k2, if_true, Tokeniser.handleFunction, Tokeniser.GetInitialToken,
        Tokeniser.alloc, Option.bind_eq_bind, Option.bind_eq_some, Option.pure_def,
        Option.some.injEq] at hx
      obtain ⟨t2, a2, rfl⟩ := hx
      have : x = "function" := by simpa using k2
      subst this
      exact reach_skeleton "function" h a2 (by simp)
    simp only [k2, Bool.false_eq_true, if_false] at hx
    by_cases k3 : (x == "return") = true
    · simp only [k3, if_true, Tokeniser.handleReturnStatement, Tokeniser.GetInitialToken,
        Tokeniser.alloc, Option.bind_eq_bind, Option.bind_eq_some, Option.pure_def,
        Option.some.injEq] at hx
      obtain ⟨t2, a2, rfl⟩ := hx
      have : x = "return" := by simpa using k3
      subst this
      exact reach_skeleton "return" h a2 (by simp)
    simp only [k3, Bool.false_eq_true, if_false] at hx
    by_cases k4 : (x == "do") = true
    · simp only [k4, if_true, Tokeniser.handleDoStatement, Tokeniser.GetInitialToken,
        Tokeniser.alloc, Option.bind_eq_bind, Option.bind_eq_some, Option.pure_def,
        Option.some.injEq] at hx
      obtain ⟨t2, a2, rfl⟩ := hx
      have : x = "do" := by simpa using k4
      subst this
      exact reach_skeleton "do" h a2 (by simp)
    simp only [k4, Bool.false_eq_true, if_false, Tokeniser.handleKeyword,
      Tokeniser.alloc] at hx
    exact reach_leaf "keyword" x h hx (by decide)
  simp only [c4, Bool.false_eq_true, if_false] at hx
  by_cases c5 : (GetTokenType x == "integerConstant" || GetTokenType x == "identifier") = true
  · simp only [c5, if_true, Tokeniser.alloc, Option.bind_eq_bind, Option.bind_eq_some] at hx
    obtain ⟨b1, _, t2, a2, b2, _, t5, a5, t7, a7, t9, a9, b3, _, hx⟩ := hx
    have r2 : Reach t0 L t2 := by
      cases b1
      · simp only [Bool.false_eq_true, if_false, Option.pure_def, Option.some.injEq] at a2
        subst a2; exact h
      · simp only [if_true, Option.bind_eq_some, Option.pure_def, Option.some.injEq] at a2
        obtain ⟨t1, a1, rfl⟩ := a2
        exact reach_open "expression" h a1 (by simp)
    have r5 : Reach t0 L t5 := by
      cases b2
      · simp only [Bool.false_eq_true, if_false, Option.pure_def, Option.some.injEq] at a5
        subst a5; exact r2
      · simp only [if_true, Option.bind_eq_some, Option.pure_def, Option.some.injEq] at a5
        obtain ⟨t4, a4, rfl⟩ := a5
        exact reach_open "term" r2 a4 (by simp)
    have r9 : Reach t0 (L ++ (expectedLeaf x).toList) t9 := by
      simp only [Bool.or_eq_true, beq_iff_eq] at c5
      rcases c5 with d | d
      · have d2 : (GetTokenType x == "identifier") = false := by rw [d]; decide
        simp only [d, beq_self_eq_true, if_true] at a7
        simp only [d2, Bool.false_eq_true, if_false, Option.pure_def, Option.some.injEq] at a9
        subst a9
        rw [expectedLeaf_of_type x "integerConstant" d (by decide) hne]
        exact reach_leaf "integerConstant" x r5 a7 (by decide)
      · have d2 : (GetTokenType x == "integerConstant") = false := by rw [d]; decide
        simp only [d2, Bool.false_eq_true, if_false, Option.pure_def, Option.some.injEq] at a7
        simp only [d, beq_self_eq_true, if_true] at a9
        subst a7
        rw [expectedLeaf_of_type x "identifier" d (by decide) hne]
        exact reach_leaf "identifier" x r5 a9 (by decide)
    cases b3
    · simp only [Bool.false_eq_true, if_false, Option.pure_def, Option.some.injEq] at hx
      subst hx; exact r9
    · simp only [if_true] at hx
      exact reach_pop r9 hx
  simp only [c5, Bool.false_eq_true, if_false, Option.some.injEq] at hx
  subst hx
  have hnone : expectedLeaf x = none := by
    simp only [beq_iff_eq, Bool.or_eq_true, not_or] at c3 c4 c5
    rcases GetTokenType_range x with g | g | g | g | g
    · exact absurd g c4
    · exact absurd g c3
    · exact absurd g c5.2
    · exact absurd g c5.1
    · simp [expectedLeaf, g]
  rw [hnone]
  simpa using h

theorem Reach.buffer_set {t0 t : Tokeniser} {L : List (String × String)} (h : Reach t0 L t)
    (b : String) : Reach t0 L { t with tokenBeingParsed := b } := by
  have hstep := Step.setBuffer t b
  exact ⟨h.1.step hstep (by simp), hstep.valid_step h.2⟩

/-- A successful run over lexemes adds exactly their expected leaves. -/
theorem run_reach (xs : List String) :
    ∀ {t0 t t' : Tokeniser} {L : List (String × String)}, Reach t0 L t →
      t.run xs = some t' → Reach t0 (L ++ xs.filterMap expectedLeaf) t' := by
  induction xs with
  | nil =>
    intro t0 t t' L h hx
    rw [run_nil, Option.some.injEq] at hx
    subst hx
    simpa using h
  | cons x xs ih =>
    intro t0 t t' L h hx
    rw [run_cons] at hx
    cases h1 : t.ProcessToken x with
    | none => rw [h1] at hx; simp at hx
    | some t1 =>
      rw [h1, Option.some_bind] at hx
      have r := ih (ProcessToken_reach h x h1) hx
      have e : L ++ (x :: xs).filterMap expectedLeaf =
          L ++ (expectedLeaf x).toList ++ xs.filterMap expectedLeaf := by
        cases hx' : expectedLeaf x <;> simp [List.filterMap_cons, hx']
      rw [e]
      exact r

/-- A successful round of the scanning loop adds the expected leaves of the
lexemes of the round and leaves the buffer of the round. -/
theorem scanStep_reach {t0 t t' : Tokeniser} {L : List (String × String)}
    (h : Reach t0 L t) (c : Char) (hx : t.scanStep c = some t') :
    Reach t0 (L ++ (lexStep t.tokenBeingParsed c).1.filterMap expectedLeaf) t' ∧
      t'.tokenBeingParsed = (lexStep t.tokenBeingParsed c).2 := by
  have hb := scanStepTrace_fst t c
  rw [scanStepTrace_snd] at hb
  obtain ⟨e1, e2⟩ := hb.2 t' hx
  refine ⟨?_, e2⟩
  simp only [Tokeniser.scanStep, Option.bind_eq_bind, Option.bind_eq_some] at hx
  obtain ⟨t1, a1, hx⟩ := hx
  have r1 : ∃ F, Reach t0 (L ++ F.filterMap expectedLeaf) t1 ∧
      ((isWhitespace (String.singleton c) = true ∧ (lexStep t.tokenBeingParsed c).1 = F) ∨
       (isWhitespace (String.singleton c) = false ∧ isSymbol (String.singleton c) = true ∧
         (lexStep t.tokenBeingParsed c).1 = F ++ [String.singleton c]) ∨
       (isWhitespace (String.singleton c) = false ∧ isSymbol (String.singleton c) = false ∧
         (lexStep t.tokenBeingParsed c).1 = F)) := by
    by_cases hterm : ((isSymbol (String.singleton c) || isWhitespace (String.singleton c)) &&
        t.tokenBeingParsed != "") = true
    · simp only [hterm, if_true, Option.bind_eq_some, Option.pure_def, Option.some.injEq] at a1
      obtain ⟨t00, a0, rfl⟩ := a1
      refine ⟨[t.tokenBeingParsed], ?_, ?_⟩
      · have := (ProcessToken_reach h _ a0).buffer_set ""
        simpa [List.filterMap_cons] using this
      · simp only [lexStep, hterm, if_true]
        by_cases hw : isWhitespace (String.singleton c) = true
        · left; simp [hw]
        · by_cases hsy : isSymbol (String.singleton c) = true
          · right; left; simp [hw, hsy]
          · simp [hw, hsy] at hterm
    · simp only [hterm, Bool.false_eq_true, if_false, Option.pure_def, Option.some.injEq] at a1
      subst a1
      refine ⟨[], by simpa using h, ?_⟩
      simp only [lexStep, hterm, Bool.false_eq_true, if_false]
      by_cases hw : isWhitespace (String.singleton c) = true
      · left; simp [hw]
      · by_cases hsy : isSymbol (String.singleton c) = true
        · right; left; simp [hw, hsy]
        · right; right; simp [hw, hsy]
  obtain ⟨F, r, hcase⟩ := r1
  rcases hcase with ⟨hw, hF⟩ | ⟨hw, hsy, hF⟩ | ⟨hw, hsy, hF⟩
  · simp only [hw, if_true, Option.pure_def, Option.some.injEq] at hx
    subst hx
    rw [hF]; exact r
  · simp only [hw, hsy, if_true, Bool.false_eq_true, if_false, Option.bind_eq_some,
      Option.pure_def, Option.some.injEq] at hx
    obtain ⟨t2, a2, rfl⟩ := hx
    have := (ProcessToken_reach r _ a2).buffer_set ""
    rw [hF, List.filterMap_append]
    simpa [List.filterMap_cons, List.append_assoc] using this
  · simp only [hw, hsy, Bool.false_eq_true, if_false, Option.pure_def,
      Option.some.injEq] at hx
    subst hx
    rw [hF]
    exact r.buffer_set _

/-- A successful scan adds exactly the expected leaves of the lexemes of the
input. -/
theorem Tokenise_reach (cs : List Char) :
    ∀ {t0 t t' : Tokeniser} {L : List (String × String)}, Reach t0 L t →
      t.Tokenise cs = some t' →
      Reach t0 (L ++ (lexScan t.tokenBeingParsed cs).1.filterMap expectedLeaf) t' := by
  induction cs with
  | nil =>
    intro t0 t t' L h hx
    rw [Tokenise_nil, Option.some.injEq] at hx
    subst hx
    simpa [lexScan_nil] using h
  | cons c cs ih =>
    intro t0 t t' L h hx
    rw [Tokenise_cons] at hx
    cases h1 : t.scanStep c with
    | none => rw [h1] at hx; simp at hx
    | some t1 =>
      rw [h1, Option.some_bind] at hx
      obtain ⟨r1, hb⟩ := scanStep_reach h c h1
      have r := ih r1 hx
      rw [lexScan_cons, List.filterMap_append, ← List.append_assoc, ← hb]
      exact r

theorem Reach.initial (t : Tokeniser) (hv : t.Valid) : Reach t [] t :=
  ⟨Evolves.refl t, hv⟩

theorem NewTokeniser_valid : NewTokeniser.Valid := by
  intro p hp
  simp [NewTokeniser] at hp
  subst hp
  decide

/-! ## What the elementary moves do to the stack and to the kinds -/

theorem attach_ext (H : List Token) (e : Nat) (E N : Token) (hE : H[e]? = some E)
    (hN : N.tokenType ≠ "root") : Ext H (H.set e (E.addChild H.length) ++ [N]) :=
  (Ext.set H e E (E.addChild H.length) hE rfl).trans (by
    have := Ext.alloc (H.set e (E.addChild H.length)) N hN
    simpa using this)

theorem kinds_attach (t : Tokeniser) (e : Nat) (E N : Token) (hv : t.Valid)
    (hE : t.heap[e]? = some E) (hN : N.tokenType ≠ "root") :
    t.currentTokenStack.items.map (kindOf (t.heap.set e (E.addChild t.heap.length) ++ [N])) =
      t.kinds := by
  apply List.map_congr_left
  intro p hp
  exact (attach_ext t.heap e E N hE hN).2.1 p (hv p hp)

theorem kindOf_attach_new (H : List Token) (e : Nat) (X N : Token) :
    kindOf (H.set e X ++ [N]) H.length = N.tokenType := by
  have := kindOf_new (H.set e X) N
  simpa using this

theorem initialTokens_kind (key : String) (hk : key ∈ ["class", "function", "return", "do"]) :
    (initialTokens key).tokenType ≠ "root" ∧ (initialTokens key).tokenType ≠ "statements" ∧
      isTerminalKind (initialTokens key).tokenType = false := by
  simp only [List.mem_cons, List.mem_singleton, List.not_mem_nil, or_false] at hk
  rcases hk with rfl | rfl | rfl | rfl <;> decide

theorem empty_kind (k : String)
    (hk : k ∈ ["expression", "term", "parameterList", "expressionList", "subroutineBody"]) :
    k ≠ "root" ∧ k ≠ "statements" ∧ isTerminalKind k = false := by
  simp only [List.mem_cons, List.mem_singleton, List.not_mem_nil, or_false] at hk
  rcases hk with rfl | rfl | rfl | rfl | rfl <;> decide

theorem terminal_kind (k : String) (hk : isTerminalKind k = true) : k ≠ "root" := by
  rintro rfl
  exact absurd hk (by decide)

/-- The effect of one elementary move on the stack of addresses and on the
stack of kinds: nothing, a push of a kind other than `statements` and `root`
on a non-empty stack, a push of `statements` on a `subroutineBody` on a
`subroutineDec`, or a pop. -/
theorem Step.kinds {t t' : Tokeniser} {L : List (String × String)} (h : Step t L t')
    (hv : t.Valid) :
    Ext t.heap t'.heap ∧ t'.tokens = t.tokens ∧
    ((t'.currentTokenStack.items = t.currentTokenStack.items ∧ t'.kinds = t.kinds) ∨
      (∃ k, k ≠ "statements" ∧ k ≠ "root" ∧ t.currentTokenStack.items ≠ [] ∧
        t'.currentTokenStack.items = t.currentTokenStack.items ++ [t.heap.length] ∧
        t'.kinds = t.kinds ++ [k]) ∨
      (∃ S, t.kinds = S ++ ["subroutineDec", "subroutineBody"] ∧
        t'.currentTokenStack.items = t.currentTokenStack.items ++ [t.heap.length] ∧
        t'.kinds = t.kinds ++ ["statements"]) ∨
      (∃ e k, t.currentTokenStack.items = t'.currentTokenStack.items ++ [e] ∧
        t.kinds = t'.kinds ++ [k])) := by
  cases h with
  | leaf e E k x hs hE hk =>
    refine ⟨attach_ext _ _ _ _ hE (terminal_kind k hk), rfl, Or.inl ⟨rfl, ?_⟩⟩
    exact kinds_attach t e E _ hv hE (terminal_kind k hk)
  | openEmpty e E k hs hE hk =>
    obtain ⟨k1, k2, _⟩ := empty_kind k hk
    refine ⟨attach_ext _ _ _ _ hE k1, rfl, Or.inr (Or.inl ⟨k, k2, k1, ?_, rfl, ?_⟩)⟩
    · intro h0
      simp [TokenContextStack.Peek, h0] at hs
    · simp only [Tokeniser.kinds, List.map_append, List.map_cons, List.map_nil]
      rw [kinds_attach t e E _ hv hE k1, kindOf_attach_new]
      rfl
  | openSkeleton e E key hs hE hk =>
    obtain ⟨k1, k2, _⟩ := initialTokens_kind key hk
    refine ⟨attach_ext _ _ _ _ hE k1, rfl,
      Or.inr (Or.inl ⟨(initialTokens key).tokenType, k2, k1, ?_, rfl, ?_⟩)⟩
    · intro h0
      simp [TokenContextStack.Peek, h0] at hs
    · simp only [Tokeniser.kinds, List.map_append, List.map_cons, List.map_nil]
      rw [kinds_attach t e E _ hv hE k1, kindOf_attach_new]
      rfl
  | openStatements S d b D B hs hD hkD hB hkB =>
    have k1 : (Token.mk "statements" "" []).tokenType ≠ "root" := by decide
    refine ⟨attach_ext _ _ _ _ hB k1, rfl,
      Or.inr (Or.inr (Or.inl ⟨S.map (kindOf t.heap), ?_, rfl, ?_⟩))⟩
    · simp only [Tokeniser.kinds, hs, List.map_append, List.map_cons, List.map_nil]
      simp only [Tokeniser.deref] at hD hB
      simp [kindOf, hD, hB, hkD, hkB]
    · simp only [Tokeniser.kinds, List.map_append, List.map_cons, List.map_nil]
      rw [kinds_attach t b B _ hv hB k1, kindOf_attach_new]
      rfl
  | pop S e hs =>
    refine ⟨Ext.refl _, rfl, Or.inr (Or.inr (Or.inr ⟨e, kindOf t.heap e, hs, ?_⟩))⟩
    simp [Tokeniser.kinds, hs]
  | setBuffer b => exact ⟨Ext.refl _, rfl, Or.inl ⟨rfl, rfl⟩⟩

theorem RootAtBottom.push_root {items : List Nat} (h : RootAtBottom items) (hne : items ≠ [])
    (n : Nat) (hn : ∀ p ∈ items, p < n) : RootAtBottom (items ++ [n]) := by
  rcases h with h | ⟨rest, h1, h2⟩
  · exact absurd h hne
  · refine Or.inr ⟨rest ++ [n], by rw [h1]; rfl, ?_⟩
    simp only [List.mem_append, List.mem_singleton, not_or]
    refine ⟨h2, ?_⟩
    have := hn 4 (by rw [h1]; simp)
    omega

theorem RootAtBottom.pop_root {items : List Nat} {e : Nat} (h : RootAtBottom (items ++ [e])) :
    RootAtBottom items := by
  rcases h with h | ⟨rest, h1, h2⟩
  · simp at h
  · cases items with
    | nil => exact Or.inl rfl
    | cons p S =>
      simp only [List.cons_append, List.cons.injEq] at h1
      obtain ⟨rfl, rfl⟩ := h1
      exact Or.inr ⟨S, rfl, fun hc => h2 (by simp [hc])⟩

theorem StatementsNested.push_kind {ks : List String} (h : StatementsNested ks) (k : String)
    (hk : k ≠ "statements") : StatementsNested (ks ++ [k]) := by
  intro A B hAB
  rcases List.eq_nil_or_concat B with rfl | ⟨B', z, rfl⟩
  · have := List.append_inj' hAB rfl
    simp only [List.cons.injEq, and_true] at this
    exact absurd this.2 hk
  · rw [List.concat_eq_append] at hAB
    have h' : ks ++ [k] = (A ++ "statements" :: B') ++ [z] := by rw [hAB]; simp
    exact h A B' (List.append_inj' h' rfl).1

theorem StatementsNested.pushStatements {S : List String}
    (h : StatementsNested (S ++ ["subroutineDec", "subroutineBody"])) :
    StatementsNested (S ++ ["subroutineDec", "subroutineBody"] ++ ["statements"]) := by
  intro A B hAB
  rcases List.eq_nil_or_concat B with rfl | ⟨B', z, rfl⟩
  · have := List.append_inj' hAB rfl
    exact ⟨S, this.1.symm⟩
  · rw [List.concat_eq_append] at hAB
    have h' : S ++ ["subroutineDec", "subroutineBody"] ++ ["statements"] =
        (A ++ "statements" :: B') ++ [z] := by rw [hAB]; simp
    exact h A B' (List.append_inj' h' rfl).1

theorem StatementsNested.pop_kind {ks : List String} {k : String}
    (h : StatementsNested (ks ++ [k])) : StatementsNested ks := by
  intro A B hAB
  exact h A (B ++ [k]) (by rw [hAB]; simp)

/-- The stack invariants of a state reached from the initial state. -/
theorem Evolves.stack {t : Tokeniser} {L : List (String × String)}
    (h : Evolves NewTokeniser L t) :
    t.Valid ∧ Ext NewTokeniser.heap t.heap ∧ t.tokens = [4] ∧
      RootAtBottom t.currentTokenStack.items ∧ StatementsNested t.kinds := by
  induction h with
  | refl =>
    refine ⟨NewTokeniser_valid, Ext.refl _, rfl, Or.inr ⟨[], rfl, by simp⟩, ?_⟩
    intro A B hAB
    have hk : NewTokeniser.kinds = ["root"] := by decide
    rw [hk] at hAB
    rcases A with _ | ⟨a, A⟩
    · simp at hAB
    · simp at hAB
  | tail t1 t2 L1 L2 _ hs ih =>
    obtain ⟨hv, hext, htok, hroot, hst⟩ := ih
    obtain ⟨e1, e2, hcase⟩ := hs.kinds hv
    refine ⟨hs.valid_step hv, hext.trans e1, by rw [e2, htok], ?_, ?_⟩
    · rcases hcase with ⟨c1, _⟩ | ⟨k, _, _, hne, c1, _⟩ | ⟨S, c0, c1, _⟩ | ⟨e, k, c1, _⟩
      · rw [c1]; exact hroot
      · rw [c1]; exact hroot.push_root hne _ hv
      · rw [c1]
        refine hroot.push_root ?_ _ hv
        intro h0
        have : t1.kinds = [] := by simp [Tokeniser.kinds, h0]
        rw [this] at c0
        simp at c0
      · rw [c1] at hroot; exact hroot.pop_root
    · rcases hcase with ⟨_, c2⟩ | ⟨k, hk, _, _, _, c2⟩ | ⟨S, c1, _, c2⟩ | ⟨e, k, _, c2⟩
      · rw [c2]; exact hst
      · rw [c2]; exact hst.push_kind k hk
      · rw [c2, c1]
        rw [c1] at hst
        exact hst.pushStatements
      · rw [c2] at hst; exact hst.pop_kind

/-! ## Terminal nodes stay leaves -/

/-- A cell of the heap after a fresh node was attached to the node at `e`. -/
theorem attach_lookup (H : List Token) (e p : Nat) (E N tok : Token)
    (hE : H[e]? = some E)
    (h : (H.set e (E.addChild H.length) ++ [N])[p]? = some tok) :
    (p = e ∧ tok = E.addChild H.length) ∨ (p = H.length ∧ tok = N) ∨
      (p ≠ e ∧ p < H.length ∧ H[p]? = some tok) := by
  have hlt : e < H.length := by
    by_contra hc
    rw [List.getElem?_eq_none (by omega)] at hE
    exact absurd hE (by simp)
  by_cases h1 : p < H.length
  · rw [List.getElem?_append_left (by simpa using h1)] at h
    by_cases h2 : p = e
    · subst h2
      rw [List.getElem?_set_self hlt, Option.some.injEq] at h
      exact Or.inl ⟨rfl, h.symm⟩
    · rw [List.getElem?_set_ne (Ne.symm h2)] at h
      exact Or.inr (Or.inr ⟨h2, h1, h⟩)
  · by_cases h2 : p = H.length
    · subst h2
      rw [get_new_zero _ _ _ (by simp)] at h
      simp only [List.getElem?_cons_zero, Option.some.injEq] at h
      exact Or.inr (Or.inl ⟨rfl, h.symm⟩)
    · rw [List.getElem?_eq_none (by simp; omega)] at h
      exact absurd h (by simp)

/-- Attaching a fresh node to a structural node keeps terminal nodes
childless; the stack, possibly with the new node pushed, stays structural. -/
theorem Tokeniser.TerminalsAreLeaves.attach {t : Tokeniser} (h : t.TerminalsAreLeaves) (e : Nat)
    (E N : Token) (hs : t.currentTokenStack.Peek = some e) (hE : t.deref e = some E)
    (hN : isTerminalKind N.tokenType = true → N.children = []) :
    (∀ (p : Nat) (tok : Token),
      (t.heap.set e (E.addChild t.heap.length) ++ [N])[p]? = some tok →
      isTerminalKind tok.tokenType = true → tok.children = []) ∧
    (∀ p ∈ t.currentTokenStack.items, ∃ tok,
      (t.heap.set e (E.addChild t.heap.length) ++ [N])[p]? = some tok ∧
        isTerminalKind tok.tokenType = false) ∧
    (isTerminalKind N.tokenType = false → ∃ tok,
      (t.heap.set e (E.addChild t.heap.length) ++ [N])[t.heap.length]? = some tok ∧
        isTerminalKind tok.tokenType = false) := by
  have hlt := deref_lt t e E hE
  simp only [Tokeniser.deref] at hE hlt
  have hmem : e ∈ t.currentTokenStack.items := by
    obtain ⟨S, hS⟩ := List.getLast?_eq_some_iff.mp hs
    rw [hS]; simp
  obtain ⟨E', hE', hkE⟩ := h.2 e hmem
  rw [hE, Option.some.injEq] at hE'
  subst hE'
  refine ⟨?_, ?_, ?_⟩
  · intro p tok hp hk
    rcases attach_lookup t.heap e p E N tok hE hp with ⟨_, rfl⟩ | ⟨_, rfl⟩ | ⟨_, _, h3⟩
    · simp only [Token.addChild] at hk
      rw [hkE] at hk
      exact absurd hk (by decide)
    · exact hN hk
    · exact h.1 p tok h3 hk
  · intro p hp
    obtain ⟨tok, h1, h2⟩ := h.2 p hp
    have hpl : p < t.heap.length := by
      by_contra hc
      rw [List.getElem?_eq_none (by omega)] at h1
      exact absurd h1 (by simp)
    by_cases hpe : p = e
    · subst hpe
      refine ⟨E.addChild t.heap.length, ?_, hkE⟩
      rw [List.getElem?_append_left (by simpa using hlt), List.getElem?_set_self hlt]
    · refine ⟨tok, ?_, h2⟩
      rw [List.getElem?_append_left (by simpa using hpl),
        List.getElem?_set_ne (Ne.symm hpe), h1]
  · intro hk
    exact ⟨N, by simp, hk⟩

theorem Step.terminals_step {t t' : Tokeniser} {L : List (String × String)} (h : Step t L t')
    (hp : t.TerminalsAreLeaves) : t'.TerminalsAreLeaves := by
  cases h with
  | leaf e E k x hs hE hk =>
    obtain ⟨a1, a2, _⟩ := hp.attach e E (Token.mk k x []) hs hE (fun _ => rfl)
    exact ⟨a1, a2⟩
  | openEmpty e E k hs hE hk =>
    obtain ⟨a1, a2, a3⟩ := hp.attach e E (Token.mk k "" []) hs hE (fun _ => rfl)
    refine ⟨a1, fun p hp' => ?_⟩
    simp only [List.mem_append, List.mem_singleton] at hp'
    rcases hp' with hp' | rfl
    · exact a2 p hp'
    · exact a3 (empty_kind k hk).2.2
  | openSkeleton e E key hs hE hk =>
    have hkind := (initialTokens_kind key hk).2.2
    obtain ⟨a1, a2, a3⟩ := hp.attach e E (initialTokens key) hs hE
      (fun hc => by rw [hkind] at hc; exact absurd hc (by decide))
    refine ⟨a1, fun p hp' => ?_⟩
    simp only [List.mem_append, List.mem_singleton] at hp'
    rcases hp' with hp' | rfl
    · exact a2 p hp'
    · exact a3 hkind
  | openStatements S d b D B hs hD hkD hB hkB =>
    have hpeek : t.currentTokenStack.Peek = some b := by
      simp [TokenContextStack.Peek, hs]
    obtain ⟨a1, a2, a3⟩ := hp.attach b B (Token.mk "statements" "" []) hpeek hB (fun _ => rfl)
    refine ⟨a1, fun p hp' => ?_⟩
    simp only [List.mem_append, List.mem_singleton] at hp'
    rcases hp' with hp' | rfl
    · exact a2 p hp'
    · exact a3 (by decide)
  | pop S e hs =>
    exact ⟨hp.1, fun p hp' => hp.2 p (by rw [hs]; simp [hp'])⟩
  | setBuffer b => exact hp

theorem Evolves.terminals_moves {t : Tokeniser} {L : List (String × String)}
    (h : Evolves NewTokeniser L t) : t.TerminalsAreLeaves := by
  induction h with
  | refl =>
    constructor
    · intro p tok hp hk
      have hlt : p < 5 := by
        by_contra hc
        rw [List.getElem?_eq_none (by simp [NewTokeniser, globalHeap]; omega)] at hp
        exact absurd hp (by simp)
      interval_cases p <;>
        simp [NewTokeniser, globalHeap] at hp <;> subst hp <;> rfl
    · intro p hp
      simp [NewTokeniser] at hp
      subst hp
      exact ⟨Token.mk "root" "" [], by decide, by decide⟩
  | tail t1 t2 L1 L2 _ hs ih => exact hs.terminals_step ih

/-! ## Reading finished subtrees -/

theorem leavesList_append (a b : List Tree) :
    leavesList (a ++ b) = leavesList a ++ leavesList b := by
  induction a with
  | nil => simp [leavesList]
  | cons x xs ih => simp [leavesList, ih]

theorem collect_append (a b : List (Option Tree)) (ta tb : List Tree)
    (ha : collect a = some ta) (hb : collect b = some tb) :
    collect (a ++ b) = some (ta ++ tb) := by
  induction a generalizing ta with
  | nil =>
    simp only [collect, Option.some.injEq] at ha
    subst ha
    simpa using hb
  | cons x xs ih =>
    cases x with
    | none => simp [collect] at ha
    | some v =>
      simp only [collect, Option.map_eq_some'] at ha
      obtain ⟨ts, hts, rfl⟩ := ha
      simp [collect, ih ts hts]

theorem collect_map_imp (cs : List Nat) (f g : Nat → Option Tree)
    (h : ∀ c T, f c = some T → g c = some T) (ts : List Tree)
    (hf : collect (cs.map f) = some ts) : collect (cs.map g) = some ts := by
  induction cs generalizing ts with
  | nil => simpa using hf
  | cons c cs ih =>
    simp only [List.map_cons] at hf ⊢
    cases hc : f c with
    | none => rw [hc] at hf; simp [collect] at hf
    | some v =>
      rw [hc] at hf
      simp only [collect, Option.map_eq_some'] at hf
      obtain ⟨ts', hts, rfl⟩ := hf
      rw [h c v hc]
      simp [collect, ih ts' hts]

/-- More fuel reads the same tree. -/
theorem treeOf_mono (H : List Token) :
    ∀ (fuel p : Nat) (T : Tree), treeOf H fuel p = some T → treeOf H (fuel + 1) p = some T := by
  intro fuel
  induction fuel with
  | zero => intro p T h; simp [treeOf] at h
  | succ f ih =>
    intro p T h
    cases hp : H[p]? with
    | none => simp [treeOf, hp] at h
    | some tok =>
      rw [treeOf_succ H _ p tok hp] at h ⊢
      simp only [Option.map_eq_some'] at h ⊢
      obtain ⟨ts, hts, rfl⟩ := h
      exact ⟨ts, collect_map_imp _ _ _ (fun c T hc => ih c T hc) ts hts, rfl⟩

theorem treeOf_mono_le (H : List Token) (f f' p : Nat) (T : Tree) (hle : f ≤ f')
    (h : treeOf H f p = some T) : treeOf H f' p = some T := by
  induction hle with
  | refl => exact h
  | step _ ih => exact treeOf_mono H _ p T ih

theorem collect_mono_le (H : List Token) (f f' : Nat) (cs : List Nat) (ts : List Tree)
    (hle : f ≤ f') (h : collect (cs.map (treeOf H f)) = some ts) :
    collect (cs.map (treeOf H f')) = some ts :=
  collect_map_imp cs _ _ (fun c T hc => treeOf_mono_le H f f' c T hle hc) ts h

theorem Agree.trans_agree {H H1 H2 : List Token} {lo hi : Nat} (h1 : Agree H H1 lo hi)
    (h2 : Agree H1 H2 lo hi) : Agree H H2 lo hi :=
  fun i hi' => by rw [h2 i hi', h1 i hi']

theorem Agree.mono_agree {H H' : List Token} {lo hi lo' hi' : Nat} (h : Agree H H' lo' hi')
    (hlo : lo' ≤ lo) (hhi : hi ≤ hi') : Agree H H' lo hi :=
  fun i hi2 => h i (by omega)

theorem ClosedList.nil_closed (H : List Token) (lo hi : Nat) : ClosedList H lo hi [] [] :=
  ⟨0, [], rfl, fun _ _ => rfl⟩

theorem ClosedList.mono_closed {H : List Token} {lo hi lo' hi' : Nat} {cs : List Nat}
    {L : List (String × String)} (h : ClosedList H lo hi cs L) (hlo : lo' ≤ lo)
    (hhi : hi ≤ hi') : ClosedList H lo' hi' cs L := by
  obtain ⟨fuel, ts, h1, h2⟩ := h
  exact ⟨fuel, ts, h1, fun H' hA => h2 H' (hA.mono_agree hlo hhi)⟩

theorem ClosedList.frame_closed {H H2 : List Token} {lo hi : Nat} {cs : List Nat}
    {L : List (String × String)} (h : ClosedList H lo hi cs L) (hA : Agree H H2 lo hi) :
    ClosedList H2 lo hi cs L := by
  obtain ⟨fuel, ts, h1, h2⟩ := h
  exact ⟨fuel, ts, h1, fun H' hA' => h2 H' (hA.trans_agree hA')⟩

theorem ClosedList.snoc {H : List Token} {lo hi : Nat} {cs : List Nat} {c : Nat}
    {L L1 : List (String × String)} (h : ClosedList H lo hi cs L)
    (hc : ClosedList H lo hi [c] L1) : ClosedList H lo hi (cs ++ [c]) (L ++ L1) := by
  obtain ⟨f1, ts1, a1, a2⟩ := h
  obtain ⟨f2, ts2, b1, b2⟩ := hc
  refine ⟨max f1 f2, ts1 ++ ts2, by rw [leavesList_append, a1, b1], fun H' hA => ?_⟩
  rw [List.map_append]
  exact collect_append _ _ _ _
    (collect_mono_le H' f1 _ cs ts1 (Nat.le_max_left _ _) (a2 H' hA))
    (collect_mono_le H' f2 _ [c] ts2 (Nat.le_max_right _ _) (b2 H' hA))

/-- A node whose children are finished subtrees is a finished subtree. -/
theorem ClosedList.node {H : List Token} {lo hi : Nat} {c : Nat} {tok : Token}
    {L : List (String × String)} (hc : H[c]? = some tok) (hr : c < 4 ∨ (lo ≤ c ∧ c < hi))
    (h : ClosedList H lo hi tok.children L) :
    ClosedList H lo hi [c]
      (if isTerminalKind tok.tokenType then [(tok.tokenType, tok.token)] else L) := by
  obtain ⟨fuel, ts, a1, a2⟩ := h
  refine ⟨fuel + 1, [Tree.node tok.tokenType tok.token ts], ?_, fun H' hA => ?_⟩
  · simp only [leavesList, Tree.leaves, List.append_nil]
    split_ifs
    · rfl
    · exact a1
  · have hc' : H'[c]? = some tok := by rw [hA c hr, hc]
    simp only [List.map_cons, List.map_nil]
    rw [treeOf_succ H' fuel c tok hc', a2 H' hA]
    rfl

/-- A node without children is a finished subtree. -/
theorem ClosedList.single_closed {H : List Token} {lo hi : Nat} {c : Nat} {k x : String}
    (hc : H[c]? = some (Token.mk k x [])) (hr : c < 4 ∨ (lo ≤ c ∧ c < hi)) :
    ClosedList H lo hi [c] (if isTerminalKind k then [(k, x)] else []) :=
  ClosedList.node hc hr (ClosedList.nil_closed H lo hi)

/-! ## The spine under the elementary moves -/

theorem take_attach (H : List Token) (e : Nat) (X N : Token) (hg : H.take 4 = globalHeap)
    (he : 4 ≤ e) : (H.set e X ++ [N]).take 4 = globalHeap := by
  apply List.ext_getElem?
  intro i
  by_cases hi : i < 4
  · rw [List.getElem?_take_of_lt hi, get_global H [N] e i X hg he hi]
  · rw [List.getElem?_take_eq_none (by omega), List.getElem?_eq_none]
    simp [globalHeap]; omega

theorem agree_attach (H : List Token) (e : Nat) (X N : Token) (he : 4 ≤ e)
    (hlt : e < H.length) : Agree H (H.set e X ++ [N]) (e + 1) H.length := by
  intro i hi
  have h1 : i < H.length := by omega
  rw [List.getElem?_append_left (by simpa using h1), List.getElem?_set_ne (by omega)]

theorem below_attach (H : List Token) (e : Nat) (X N : Token) (hlt : e < H.length) (i : Nat)
    (hi : i < e) : (H.set e X ++ [N])[i]? = H[i]? := by
  rw [List.getElem?_append_left (by simp; omega), List.getElem?_set_ne (by omega)]

/-- The chain below the top only depends on the heap below the top. -/
theorem Chain.frame_chain {H H' : List Token} (below : List Nat) :
    ∀ {e : Nat} {L : List (String × String)}, (∀ i, i < e → H'[i]? = H[i]?) →
      Chain H e below L → Chain H' e below L := by
  induction below with
  | nil => intro e L _ h; exact h
  | cons d below ih =>
    intro e L hA h
    obtain ⟨tok, cs, L1, L2, h1, h2, h3, h4, h5, h6, h7, h8⟩ := h
    refine ⟨tok, cs, L1, L2, by rw [hA d h4, h1], h2, h3, h4, h5, ?_, ?_, h8⟩
    · exact h6.frame_closed (fun i hi => hA i (by omega))
    · exact ih (fun i hi => hA i (by omega)) h7

/-- Attaching a finished subtree to the top node. -/
theorem spine_attach {H : List Token} {e : Nat} {E N : Token} {below : List Nat}
    {Lpre Ltop LN : List (String × String)} (hE : H[e]? = some E)
    (hc : Chain H e below Lpre) (ht : Top H H.length e Ltop)
    (hN : ClosedList (H.set e (E.addChild H.length) ++ [N]) (e + 1) (H.length + 1)
      [H.length] LN) :
    Chain (H.set e (E.addChild H.length) ++ [N]) e below Lpre ∧
      Top (H.set e (E.addChild H.length) ++ [N]) (H.length + 1) e (Ltop ++ LN) := by
  obtain ⟨tok, t1, t2, t3, t4, t5⟩ := ht
  rw [hE, Option.some.injEq] at t1
  subst t1
  refine ⟨hc.frame_chain below (fun i hi => below_attach H e _ N t4 i hi), ?_⟩
  refine ⟨E.addChild H.length, ?_, t2, t3, by omega, ?_⟩
  · rw [List.getElem?_append_left (by simpa using t4), List.getElem?_set_self t4]
  · exact ((t5.frame_closed (agree_attach H e _ N t3 t4)).mono_closed (Nat.le_refl _)
      (Nat.le_succ _)).snoc hN

/-- Attaching a structural node to the top node and pushing it. -/
theorem spine_open {H : List Token} {e : Nat} {E N : Token} {below : List Nat}
    {Lpre Ltop LN : List (String × String)} (hE : H[e]? = some E)
    (hc : Chain H e below Lpre) (ht : Top H H.length e Ltop)
    (hk : isTerminalKind N.tokenType = false)
    (hN : ClosedList (H.set e (E.addChild H.length) ++ [N]) (H.length + 1) (H.length + 1)
      N.children LN) :
    Chain (H.set e (E.addChild H.length) ++ [N]) H.length (e :: below) (Lpre ++ Ltop) ∧
      Top (H.set e (E.addChild H.length) ++ [N]) (H.length + 1) H.length LN := by
  obtain ⟨tok, t1, t2, t3, t4, t5⟩ := ht
  rw [hE, Option.some.injEq] at t1
  subst t1
  constructor
  · refine ⟨E.addChild H.length, E.children, Lpre, Ltop, ?_, t2, t3, t4, rfl, ?_, ?_, rfl⟩
    · rw [List.getElem?_append_left (by simpa using t4), List.getElem?_set_self t4]
    · exact t5.frame_closed (agree_attach H e _ N t3 t4)
    · exact hc.frame_chain below (fun i hi => below_attach H e _ N t4 i hi)
  · refine ⟨N, ?_, hk, by omega, by omega, ?_⟩
    · simp
    · simpa using hN

/-- Closing the top node: it becomes the last finished subtree of the node
beneath it. -/
theorem spine_pop {H : List Token} {hi e d : Nat} {below : List Nat}
    {Lpre Ltop : List (String × String)} (hc : Chain H e (d :: below) Lpre)
    (ht : Top H hi e Ltop) :
    ∃ L1 L2, Lpre ++ Ltop = L1 ++ L2 ∧ Chain H d below L1 ∧ Top H hi d L2 := by
  obtain ⟨tok, cs, L1, L2, h1, h2, h3, h4, h5, h6, h7, h8⟩ := hc
  obtain ⟨tk, t1, t2, t3, t4, t5⟩ := ht
  refine ⟨L1, L2 ++ Ltop, by rw [h8, List.append_assoc], h7, tok, h1, h2, h3, by omega, ?_⟩
  rw [h5]
  refine (h6.mono_closed (Nat.le_refl _) (by omega)).snoc ?_
  have := @ClosedList.node _ (d + 1) hi _ _ _ t1 (Or.inr ⟨by omega, t4⟩)
    (t5.mono_closed (by omega) (Nat.le_refl _))
  simpa [t2] using this

/-- Closing the bottom node: the root is a finished tree. -/
theorem spine_close_root {H : List Token} {hi e : Nat} {Lpre Ltop : List (String × String)}
    (hc : Chain H e [] Lpre) (ht : Top H hi e Ltop) :
    ClosedList H 4 hi [4] (Lpre ++ Ltop) := by
  obtain ⟨rfl, rfl⟩ := hc
  obtain ⟨tk, t1, t2, t3, t4, t5⟩ := ht
  have := @ClosedList.node _ 4 hi _ _ _ t1 (Or.inr ⟨Nat.le_refl _, t4⟩)
    (t5.mono_closed (by omega) (Nat.le_refl _))
  simpa [t2] using this

/-- Closing every open node, from the top down to the root. -/
theorem spine_close_all {H : List Token} {hi : Nat} (below : List Nat) :
    ∀ {e : Nat} {Lpre Ltop : List (String × String)}, Chain H e below Lpre →
      Top H hi e Ltop → ClosedList H 4 hi [4] (Lpre ++ Ltop) := by
  induction below with
  | nil => intro e Lpre Ltop hc ht; exact spine_close_root hc ht
  | cons d below ih =>
    intro e Lpre Ltop hc ht
    obtain ⟨L1, L2, h1, h2, h3⟩ := spine_pop hc ht
    rw [h1]
    exact ih h2 h3

theorem reverse_top {items : List Nat} {e e' : Nat} {below : List Nat}
    (hs : items.getLast? = some e) (hr : items.reverse = e' :: below) :
    e' = e ∧ items = below.reverse ++ [e] := by
  have h1 : items = below.reverse ++ [e'] := by
    have := congrArg List.reverse hr
    simpa using this
  rw [h1] at hs
  simp only [List.getLast?_append, List.getLast?_singleton, Option.or_some,
    Option.some.injEq] at hs
  subst hs
  exact ⟨rfl, h1⟩

/-- The skeleton of a construct keyword is a structural node whose only child
is the global keyword leaf. -/
theorem skeleton_closed (H : List Token) (e : Nat) (X : Token) (key : String)
    (hg : H.take 4 = globalHeap) (he : 4 ≤ e)
    (hk : key ∈ ["class", "function", "return", "do"]) :
    ClosedList (H.set e X ++ [initialTokens key]) (H.length + 1) (H.length + 1)
      (initialTokens key).children [("keyword", key)] := by
  simp only [List.mem_cons, List.mem_singleton, List.not_mem_nil, or_false] at hk
  rcases hk with rfl | rfl | rfl | rfl
  · exact ClosedList.single_closed (c := 0) (k := "keyword") (x := "class")
      (by rw [get_global H _ e 0 X hg he (by decide)]; rfl) (Or.inl (by decide))
  · exact ClosedList.single_closed (c := 1) (k := "keyword") (x := "function")
      (by rw [get_global H _ e 1 X hg he (by decide)]; rfl) (Or.inl (by decide))
  · exact ClosedList.single_closed (c := 2) (k := "keyword") (x := "return")
      (by rw [get_global H _ e 2 X hg he (by decide)]; rfl) (Or.inl (by decide))
  · exact ClosedList.single_closed (c := 3) (k := "keyword") (x := "do")
      (by rw [get_global H _ e 3 X hg he (by decide)]; rfl) (Or.inl (by decide))

/-- Every elementary move keeps the spine and appends its leaves at the end. -/
theorem Step.spine_step {t t' : Tokeniser} {L L2 : List (String × String)} (h : Step t L2 t')
    (hsp : Spine t L) : Spine t' (L ++ L2) := by
  obtain ⟨hg, hsp⟩ := hsp
  have nonempty : ∀ e, t.currentTokenStack.Peek = some e →
      ∃ below Lpre Ltop, t.currentTokenStack.items = below.reverse ++ [e] ∧
        L = Lpre ++ Ltop ∧ Chain t.heap e below Lpre ∧ Top t.heap t.heap.length e Ltop := by
    intro e hs
    rcases hsp with ⟨h0, _⟩ | ⟨e', below, Lpre, Ltop, hr, hL, hc, ht⟩
    · simp [TokenContextStack.Peek, h0] at hs
    · obtain ⟨rfl, hi⟩ := reverse_top hs hr
      exact ⟨below, Lpre, Ltop, hi, hL, hc, ht⟩
  cases h with
  | leaf e E k x hs hE hk =>
    obtain ⟨below, Lpre, Ltop, hi, hL, hc, ht⟩ := nonempty e hs
    have he : 4 ≤ e := ht.choose_spec.2.2.1
    have hlt : e < t.heap.length := ht.choose_spec.2.2.2.1
    simp only [Tokeniser.deref] at hE
    have hN : ClosedList (t.heap.set e (E.addChild t.heap.length) ++ [Token.mk k x []])
        (e + 1) (t.heap.length + 1) [t.heap.length] [(k, x)] := by
      have := @ClosedList.single_closed (t.heap.set e (E.addChild t.heap.length) ++
          [Token.mk k x []]) (e + 1) (t.heap.length + 1) t.heap.length k x (by simp)
        (Or.inr ⟨by omega, by omega⟩)
      simpa [hk] using this
    obtain ⟨c1, c2⟩ := spine_attach hE hc ht hN
    refine ⟨take_attach _ _ _ _ hg he, Or.inr ⟨e, below, Lpre, Ltop ++ [(k, x)], ?_, ?_, c1, ?_⟩⟩
    · simp [hi]
    · rw [hL, List.append_assoc]
    · simpa using c2
  | openEmpty e E k hs hE hk =>
    obtain ⟨below, Lpre, Ltop, hi, hL, hc, ht⟩ := nonempty e hs
    have he : 4 ≤ e := ht.choose_spec.2.2.1
    simp only [Tokeniser.deref] at hE
    obtain ⟨c1, c2⟩ := spine_open (N := Token.mk k "" []) hE hc ht (empty_kind k hk).2.2
      (ClosedList.nil_closed _ _ _)
    refine ⟨take_attach _ _ _ _ hg he,
      Or.inr ⟨t.heap.length, e :: below, Lpre ++ Ltop, [], ?_, ?_, c1, ?_⟩⟩
    · simp [hi]
    · rw [hL]
    · simpa using c2
  | openSkeleton e E key hs hE hk =>
    obtain ⟨below, Lpre, Ltop, hi, hL, hc, ht⟩ := nonempty e hs
    have he : 4 ≤ e := ht.choose_spec.2.2.1
    simp only [Tokeniser.deref] at hE
    obtain ⟨c1, c2⟩ := spine_open (N := initialTokens key) hE hc ht
      (initialTokens_kind key hk).2.2 (skeleton_closed t.heap e _ key hg he hk)
    refine ⟨take_attach _ _ _ _ hg he,
      Or.inr ⟨t.heap.length, e :: below, Lpre ++ Ltop, [("keyword", key)], ?_, ?_, c1, ?_⟩⟩
    · simp [hi]
    · rw [hL]
    · simpa using c2
  | openStatements S d b D B hs hD hkD hB hkB =>
    have hpeek : t.currentTokenStack.Peek = some b := by
      simp [TokenContextStack.Peek, hs]
    obtain ⟨below, Lpre, Ltop, hi, hL, hc, ht⟩ := nonempty b hpeek
    have he : 4 ≤ b := ht.choose_spec.2.2.1
    simp only [Tokeniser.deref] at hB
    obtain ⟨c1, c2⟩ := spine_open (N := Token.mk "statements" "" []) hB hc ht (by decide)
      (ClosedList.nil_closed _ _ _)
    refine ⟨take_attach _ _ _ _ hg he,
      Or.inr ⟨t.heap.length, b :: below, Lpre ++ Ltop, [], ?_, ?_, c1, ?_⟩⟩
    · simp [hi]
    · rw [hL]
    · simpa using c2
  | pop S e hs =>
    have hpeek : t.currentTokenStack.Peek = some e := by
      simp [TokenContextStack.Peek, hs]
    obtain ⟨below, Lpre, Ltop, hi, hL, hc, ht⟩ := nonempty e hpeek
    have hS : S = below.reverse := by
      rw [hs] at hi
      exact (List.append_inj' hi rfl).1
    refine ⟨hg, ?_⟩
    cases below with
    | nil =>
      left
      refine ⟨by simpa using hS, ?_⟩
      rw [List.append_nil, hL]
      exact spine_close_root hc ht
    | cons d below =>
      right
      obtain ⟨L1, L2', h1, h2, h3⟩ := spine_pop hc ht
      exact ⟨d, below, L1, L2', by simp [hS], by rw [List.append_nil, hL, h1], h2, h3⟩
  | setBuffer b =>
    rw [List.append_nil]
    exact ⟨hg, hsp⟩

/-- The spine of every state reached from the initial state. -/
theorem Evolves.spine_moves {t : Tokeniser} {L : List (String × String)}
    (h : Evolves NewTokeniser L t) : Spine t L := by
  induction h with
  | refl =>
    refine ⟨by decide, Or.inr ⟨4, [], [], [], by decide, rfl, ⟨rfl, rfl⟩, ?_⟩⟩
    exact ⟨Token.mk "root" "" [], by decide, by decide, by decide, by decide,
      ClosedList.nil_closed _ _ _⟩
  | tail t1 t2 L1 L2 _ hs ih => exact hs.spine_step ih

/-- The tree below the root reads with exactly the leaves of the spine. -/
theorem Spine.read {t : Tokeniser} {L : List (String × String)} (h : Spine t L) :
    ∃ fuel T, treeOf t.heap fuel 4 = some T ∧ T.leaves = L := by
  have hc : ClosedList t.heap 4 t.heap.length [4] L := by
    rcases h.2 with ⟨_, h1⟩ | ⟨e, below, Lpre, Ltop, _, hL, hc, ht⟩
    · exact h1
    · rw [hL]
      exact spine_close_all below hc ht
  obtain ⟨fuel, ts, h1, h2⟩ := hc
  have h3 := h2 t.heap (fun _ _ => rfl)
  simp only [List.map_cons, List.map_nil] at h3
  cases hT : treeOf t.heap fuel 4 with
  | none => rw [hT] at h3; simp [collect] at h3
  | some T =>
    rw [hT] at h3
    simp only [collect, Option.map_some', Option.some.injEq] at h3
    subst h3
    refine ⟨fuel, T, hT, ?_⟩
    simpa [leavesList] using h1

/-- In every state reached from the initial state the global keyword leaves
are in place and every entry of the context stack lies above them. -/
theorem Evolves.globals {t : Tokeniser} {L : List (String × String)}
    (h : Evolves NewTokeniser L t) :
    t.heap.take 4 = globalHeap ∧ ∀ p ∈ t.currentTokenStack.items, 4 ≤ p := by
  refine ⟨h.spine_moves.1, ?_⟩
  induction h with
  | refl =>
    intro p hp
    simp [NewTokeniser] at hp
    omega
  | tail t1 t2 L1 L2 h1 hs ih =>
    obtain ⟨hv, hext, _, _, _⟩ := h1.stack
    have hlen : 5 ≤ t1.heap.length := hext.1
    intro p hp
    rcases (hs.kinds hv).2.2 with ⟨c1, _⟩ | ⟨k, _, _, _, c1, _⟩ | ⟨S, _, c1, _⟩ | ⟨e, k, c1, _⟩
    · exact ih p (by rw [← c1]; exact hp)
    · rw [c1, List.mem_append, List.mem_singleton] at hp
      rcases hp with hp | rfl
      · exact ih p hp
      · omega
    · rw [c1, List.mem_append, List.mem_singleton] at hp
      rcases hp with hp | rfl
      · exact ih p hp
      · omega
    · exact ih p (by rw [c1]; simp [hp])

/-! ## The claims -/

set_option maxRecDepth 100000 in
/-- C1: running `Tokenise` from `NewTokeniser` on the worked example input (a
class with one function whose body is a single return statement) yields
exactly the tree root[class[keyword class, opening brace,
subroutineDec[keyword function, keyword void, identifier f, opening
parenthesis, parameterList[], closing parenthesis, subroutineBody[opening
brace, statements[returnStatement[keyword return, semicolon]], closing
brace]], closing brace]]; the 19 nodes of that tree and the one unused global
leaf (the keyword `do`) are the 20 cells of the heap, so there are no other
nodes. -/
theorem C1_example_tree :
    (NewTokeniser.Tokenise exampleInput).bind (fun t => t.tree 7) = some exampleTree ∧
    (NewTokeniser.Tokenise exampleInput).map (fun t => t.heap.length) = some 20 := by
  constructor
  · rfl
  · decide

/-- C2 (as amended): for every well-formed input in which parentheses occur in
expressions only inside the argument list of a `do` call (a class whose body
holds function declarations with a parameter list and a body of return and do
statements, where the value of a `return` has no parentheses), the scan of
every beginning of the input succeeds with a context stack of depth at least
1, and the scan of the whole input ends with depth exactly 1, the context
stack holding only the root that `NewTokeniser` put there. -/
theorem C2_depth_invariant (input : List Char) (h : WellFormedPlainReturn input) :
    (∀ k, ∃ t, NewTokeniser.Tokenise (input.take k) = some t ∧ 1 ≤ t.depth) ∧
    (∃ t, NewTokeniser.Tokenise input = some t ∧ t.depth = 1 ∧
      t.currentTokenStack.items = NewTokeniser.currentTokenStack.items) := by
  obtain ⟨c, hok, hpf, hlex⟩ := h
  have hsafe := safe_class c hok hpf
  have hl : (lexScan "" input).1 = c.lexemes := by rw [hlex]
  constructor
  · intro k
    obtain ⟨n, hn⟩ := lexScan_take input k ""
    obtain ⟨ks1, h1, h2⟩ := hsafe.2 n
    rw [← hl, ← hn] at h1
    obtain ⟨t, ht, -, hd, -⟩ := Tokenise_of_absRun (input.take k) ks1 h1
    refine ⟨t, ht, ?_⟩
    rw [hd]
    exact List.length_pos.mpr h2
  · have h1 := hsafe.1
    rw [← hl] at h1
    obtain ⟨t, ht, hk, hd, hext⟩ := Tokenise_of_absRun input ["root"] h1
    refine ⟨t, ht, hd, ?_⟩
    simp only [Tokeniser.kinds] at hk
    cases hi : t.currentTokenStack.items with
    | nil => rw [hi] at hk; exact absurd hk (by simp)
    | cons p rest =>
      rw [hi] at hk
      simp only [List.map_cons, List.cons.injEq, List.map_eq_nil_iff] at hk
      rw [root_unique hext p hk.1, hk.2]
      rfl

/-- C2, witness: the worked example input is well-formed in that sense. -/
theorem C2_depth_invariant_witness :
    (∀ k, ∃ t, NewTokeniser.Tokenise (exampleInput.take k) = some t ∧ 1 ≤ t.depth) ∧
    (∃ t, NewTokeniser.Tokenise exampleInput = some t ∧ t.depth = 1 ∧
      t.currentTokenStack.items = NewTokeniser.currentTokenStack.items) :=
  C2_depth_invariant exampleInput
    ⟨ClassDecl.mk none [Subroutine.mk "void" "f" [] [Statement.ret none]],
      by decide, by decide, by decide⟩

set_option maxRecDepth 100000 in
/-- C2, counterexample to the claim as stated: the input with the statement
`return(5);` is well-formed (a return statement with a balanced parenthesised
expression), yet the closing parenthesis pops the `returnStatement`, the
semicolon then pops `statements`, and the scan ends with depth 2, the class
still open on top of the root. -/
theorem C2_counterexample :
    WellFormed parenReturnInput ∧
    (NewTokeniser.Tokenise parenReturnInput).map (fun t => (t.depth, t.kinds)) =
      some (2, ["root", "class"]) := by
  refine ⟨⟨ClassDecl.mk none [Subroutine.mk "void" "f" []
    [Statement.ret (some (Expr.paren (Expr.atom "5")))]], by decide, by decide⟩, by decide⟩

/-- C3 (as amended): for every lexeme that `GetTokenType` cannot classify,
`ProcessToken` returns normally and leaves the whole builder state (tree,
context stack, buffer) unchanged; no error is raised and the lexeme is
skipped. -/
theorem C3_unclassifiable_skipped (t : Tokeniser) (token : String)
    (h : GetTokenType token = "") : t.ProcessToken token = some t := by
  have h1 : shouldEndCurrentTokenGroup token = false := by
    by_contra hc
    have := shouldEnd_symbol token (by simpa using hc)
    rw [h] at this
    exact absurd this (by decide)
  have h2 : shouldOpenNewTokenGroup token = false := by
    by_contra hc
    have := shouldOpen_symbol token (by simpa using hc)
    rw [h] at this
    exact absurd this (by decide)
  simp [Tokeniser.ProcessToken, h1, h2, h]

/-- C3, witness: the buffered run `3x` on a state with the root on top. -/
theorem C3_unclassifiable_skipped_witness :
    GetTokenType "3x" = "" ∧
      Tokeniser.ProcessToken (Tokeniser.mk "" ⟨[4]⟩ [4] (globalHeap ++ [Token.mk "root" "" []]))
        "3x" = some (Tokeniser.mk "" ⟨[4]⟩ [4] (globalHeap ++ [Token.mk "root" "" []])) :=
  ⟨by decide, C3_unclassifiable_skipped _ "3x" (by decide)⟩

/-- C3, counterexample to the claim as stated: the run `3x` is unclassifiable,
yet `ProcessToken` does not abort, and a whole `Tokenise` run over `3x`
followed by a space ends normally in the untouched initial state. -/
theorem C3_counterexample :
    GetTokenType "3x" = "" ∧ NewTokeniser.ProcessToken "3x" ≠ none ∧
      NewTokeniser.Tokenise "3x ".toList = some NewTokeniser := by
  decide

/-- C4 (as amended): when a closing brace is processed while the context stack
holds only the root, no error is raised: the brace leaf is appended to the
root and the root is popped, which leaves an empty context stack, and the run
goes on; a further closing brace then fails on the stack access itself (the
Go run-time panic, `none` here). -/
theorem C4_unmatched_brace (t : Tokeniser) (r : Nat) (R : Token)
    (hs : t.currentTokenStack.items = [r]) (hR : t.deref r = some R)
    (hk : R.tokenType = "root") :
    t.ProcessToken "\x7d" = some { t with
      currentTokenStack := ⟨[]⟩
      heap := (t.heap.set r ⟨R.tokenType, R.token, R.children ++ [t.heap.length]⟩ ++
        [Token.mk "symbol" "\x7d" []]) } ∧
    Tokeniser.ProcessToken { t with
      currentTokenStack := ⟨[]⟩
      heap := (t.heap.set r ⟨R.tokenType, R.token, R.children ++ [t.heap.length]⟩ ++
        [Token.mk "symbol" "\x7d" []]) } "\x7d" = none := by
  have hlt := deref_lt t r R hR
  obtain ⟨buf, ⟨items⟩, toks, heap⟩ := t
  simp only [Tokeniser.deref] at hR hlt
  simp only at hs
  subst hs
  constructor <;>
  simp [Tokeniser.ProcessToken, shouldEndCurrentTokenGroup, shouldOpenNewTokenGroup,
      Tokeniser.endCurrentTokenGroup, Tokeniser.CheckCurrentContext, Tokeniser.checkLoop,
      Tokeniser.handleSymbol,
      TokenContextStack.Peek, Tokeniser.deref, hR, hk, Tokeniser.alloc, Tokeniser.AddToken,
      Tokeniser.PopContextStack, TokenContextStack.Pop,
      Token.addChild, hlt,
      -List.getElem?_eq_getElem, List.getElem?_cons_zero, List.getElem?_cons_succ,
      List.take_append, List.set_append_right, List.set_append_left, List.set_set]

/-- C4, witness: the closing brace as the first lexeme of a parse. -/
theorem C4_unmatched_brace_witness :
    NewTokeniser.ProcessToken "\x7d" = some { NewTokeniser with
      currentTokenStack := ⟨[]⟩
      heap := (globalHeap ++ [Token.mk "root" "" [5], Token.mk "symbol" "\x7d" []]) } ∧
    Tokeniser.ProcessToken { NewTokeniser with
      currentTokenStack := ⟨[]⟩
      heap := (globalHeap ++ [Token.mk "root" "" [5], Token.mk "symbol" "\x7d" []]) }
        "\x7d" = none :=
  C4_unmatched_brace NewTokeniser 4 (Token.mk "root" "" []) rfl rfl rfl

/-- C4, counterexample to the claim as stated: on the input of one closing
brace the run ends normally with the root removed from the context stack, and
on the input of two closing braces the run fails on the out-of-range stack
access. -/
theorem C4_counterexample :
    (NewTokeniser.Tokenise [Char.ofNat 125]).map (fun t => t.currentTokenStack.items) =
      some [] ∧
    NewTokeniser.Tokenise [Char.ofNat 125, Char.ofNat 125] = none := by
  decide

set_option maxRecDepth 100000 in
/-- C5, the code at the failing input: on the input `class` the run ends with
the lexeme still in the buffer and the tree is the bare root, while the same
input with one trailing space gives root[class[keyword class]]. -/
theorem C5_trailing_run_dropped :
    NewTokeniser.Tokenise "class".toList =
      some { NewTokeniser with tokenBeingParsed := "class" } ∧
    (NewTokeniser.Tokenise "class".toList).bind (fun t => t.tree 3) =
      some (Tree.node "root" "" []) ∧
    (NewTokeniser.Tokenise "class ".toList).bind (fun t => t.tree 3) =
      some (Tree.node "root" "" [Tree.node "class" "" [Tree.node "keyword" "class" []]]) := by
  refine ⟨by decide, rfl, rfl⟩

/-- C6 (as amended): no error is raised for the square brackets.  With a node
on top of the context stack, `ProcessToken` on the closing bracket leaves the
whole state unchanged (the symbol is dropped), and `ProcessToken` on the
opening bracket appends it to the top node as an ordinary symbol leaf and
leaves the stack unchanged. -/
theorem C6_brackets_no_error (t : Tokeniser) (e : Nat) (E : Token)
    (hs : t.currentTokenStack.Peek = some e) (hE : t.deref e = some E) :
    t.ProcessToken "]" = some t ∧
    t.ProcessToken "[" =
      some { t with heap := ((t.heap ++ [Token.mk "symbol" "[" []]).set e
        ⟨E.tokenType, E.token, E.children ++ [t.heap.length]⟩) } := by
  have hlt := deref_lt t e E hE
  simp only [Tokeniser.deref] at hlt hE
  constructor
  · simp [Tokeniser.ProcessToken, shouldEndCurrentTokenGroup, Tokeniser.endCurrentTokenGroup]
  · simp [Tokeniser.ProcessToken, shouldEndCurrentTokenGroup, shouldOpenNewTokenGroup,
      Tokeniser.openNewTokenGroup, hs, hE, Tokeniser.deref, Tokeniser.alloc,
      Tokeniser.AddToken, hlt]

/-- C6, witness: both brackets on the initial state. -/
theorem C6_brackets_no_error_witness :
    NewTokeniser.ProcessToken "]" = some NewTokeniser ∧
    NewTokeniser.ProcessToken "[" =
      some { NewTokeniser with heap :=
        (globalHeap ++ [Token.mk "root" "" [5], Token.mk "symbol" "[" []]) } :=
  C6_brackets_no_error NewTokeniser 4 (Token.mk "root" "" []) rfl rfl

set_option maxRecDepth 100000 in
/-- C6, counterexample to the claim as stated: on the input of an opening and
a closing bracket the run ends normally, the opening bracket is an ordinary
leaf of the root and the closing bracket has left no trace. -/
theorem C6_counterexample :
    (NewTokeniser.Tokenise "[]".toList).bind (fun t => t.tree 3) =
      some (Tree.node "root" "" [Tree.node "symbol" "[" []]) ∧
    (NewTokeniser.Tokenise "[]".toList).map (fun t => t.currentTokenStack.items) =
      some [4] := by
  refine ⟨rfl, by decide⟩

/-- C7: for every non-empty lexeme, `GetTokenType` answers `keyword` exactly
for class, function, void, return and do; otherwise `symbol` exactly for the
19 symbol characters; otherwise `identifier` exactly for a letter or
underscore followed by ASCII letters, digits or underscores; otherwise
`integerConstant` exactly for one or more ASCII digits; and otherwise the
empty string. -/
theorem C7_getTokenType_classes (s : String) (hs : s ≠ "") :
    (GetTokenType s = "keyword" ↔ s ∈ ["class", "function", "void", "return", "do"]) ∧
    (s ∉ ["class", "function", "void", "return", "do"] →
      (GetTokenType s = "symbol" ↔
        s ∈ ["\x7b", "\x7d", "(", ")", "[", "]", ".", ",", ";", "+", "-", "*", "/", "&", "|",
          "<", ">", "=", "~"])) ∧
    (s ∉ ["class", "function", "void", "return", "do"] →
      s ∉ ["\x7b", "\x7d", "(", ")", "[", "]", ".", ",", ";", "+", "-", "*", "/", "&", "|",
          "<", ">", "=", "~"] →
      (GetTokenType s = "identifier" ↔ IsIdentifierShape s)) ∧
    (s ∉ ["class", "function", "void", "return", "do"] →
      s ∉ ["\x7b", "\x7d", "(", ")", "[", "]", ".", ",", ";", "+", "-", "*", "/", "&", "|",
          "<", ">", "=", "~"] →
      ¬ IsIdentifierShape s →
      (GetTokenType s = "integerConstant" ↔ IsDigitRun s)) ∧
    (s ∉ ["class", "function", "void", "return", "do"] →
      s ∉ ["\x7b", "\x7d", "(", ")", "[", "]", ".", ",", ";", "+", "-", "*", "/", "&", "|",
          "<", ">", "=", "~"] →
      ¬ IsIdentifierShape s → ¬ IsDigitRun s → GetTokenType s = "") := by
  rw [← keyword_any_iff, ← isSymbol_iff, ← matchIdentifier_iff, ← matchDigits_iff s hs]
  unfold GetTokenType
  refine ⟨?_, ?_, ?_, ?_, ?_⟩
  · by_cases h1 : keywords.any (fun keyword => s == keyword) = true
    · simp [h1]
    · by_cases h2 : isSymbol s = true
      · simp [h1, h2]
      · by_cases h3 : matchIdentifier s = true
        · simp [h1, h2, h3]
        · by_cases h4 : matchDigits s = true <;> simp [h1, h2, h3, h4]
  · intro h1
    by_cases h2 : isSymbol s = true
    · simp [h1, h2]
    · by_cases h3 : matchIdentifier s = true
      · simp [h1, h2, h3]
      · by_cases h4 : matchDigits s = true <;> simp [h1, h2, h3, h4]
  · intro h1 h2
    by_cases h3 : matchIdentifier s = true
    · simp [h1, h2, h3]
    · by_cases h4 : matchDigits s = true <;> simp [h1, h2, h3, h4]
  · intro h1 h2 h3
    by_cases h4 : matchDigits s = true <;> simp [h1, h2, h3, h4]
  · intro h1 h2 h3 h4
    simp [h1, h2, h3, h4]

/-- C7, witness: the lexeme `x1` is neither keyword nor symbol, and it is an
identifier exactly because it has the identifier shape. -/
theorem C7_getTokenType_classes_witness :
    "x1" ≠ "" ∧ (GetTokenType "x1" = "identifier" ↔ IsIdentifierShape "x1") :=
  ⟨by decide, (C7_getTokenType_classes "x1" (by decide)).2.2.1 (by decide) (by decide)⟩

/-- The state after an operand, an operator and an operand in an `expression`
context. -/
theorem run_binary (t : Tokeniser) (e : Nat) (E : Token) (a b op : String)
    (hs : t.currentTokenStack.Peek = some e) (hE : t.deref e = some E)
    (hkind : E.tokenType = "expression")
    (ha : GetTokenType a = "integerConstant") (hb : GetTokenType b = "integerConstant")
    (hop : op ∈ ["+", "*", "/"]) :
    t.run [a, op, b] = some { t with heap :=
      (t.heap.set e ⟨E.tokenType, E.token,
          E.children ++ [t.heap.length, t.heap.length + 2, t.heap.length + 3]⟩ ++
        [Token.mk "term" "" [t.heap.length + 1], Token.mk "integerConstant" a [],
          Token.mk "symbol" op [],
          Token.mk "term" "" [t.heap.length + 4], Token.mk "integerConstant" b []]) } := by
  have hlt := deref_lt t e E hE
  simp only [Tokeniser.deref] at hlt
  rw [run_cons, step_atom_expression t e E a _ hs hE hkind ha (Or.inl rfl), Option.some_bind,
    run_cons, step_operator_expression _ e (E.addChild t.heap.length) op, Option.some_bind,
    run_cons, step_atom_expression _ e
      ((E.addChild t.heap.length).addChild (t.heap.length + 2)) b
      "integerConstant", Option.some_bind, run_nil]
  · simp [Token.addChild, hlt, List.set_append_left, List.set_set, Nat.add_assoc]
  · exact hs
  · simp [Tokeniser.deref, hlt, Token.addChild, List.set_append_left, List.set_set]
  · exact hkind
  · exact hb
  · exact Or.inl rfl
  · exact hs
  · simp [Tokeniser.deref, hlt]
  · exact hkind
  · exact hop

/-- C8: with an `expression` node E on top of the stack, two integer constants
a and b and an operator among plus, star and slash, processing a, the
operator, b succeeds, leaves the context stack as it was, appends to the
children of E exactly three addresses, and allocates exactly five nodes so
that the three new children read term[integerConstant a], the symbol leaf of
the operator, and term[integerConstant b], in that order. -/
theorem C8_binary_operator (t : Tokeniser) (e : Nat) (E : Token) (a b op : String)
    (hs : t.currentTokenStack.Peek = some e) (hE : t.deref e = some E)
    (hkind : E.tokenType = "expression")
    (ha : GetTokenType a = "integerConstant") (hb : GetTokenType b = "integerConstant")
    (hop : op ∈ ["+", "*", "/"]) :
    ∃ t', t.run [a, op, b] = some t' ∧
      t'.currentTokenStack = t.currentTokenStack ∧
      t'.heap = t.heap.set e ⟨E.tokenType, E.token,
          E.children ++ [t.heap.length, t.heap.length + 2, t.heap.length + 3]⟩ ++
        [Token.mk "term" "" [t.heap.length + 1], Token.mk "integerConstant" a [],
          Token.mk "symbol" op [],
          Token.mk "term" "" [t.heap.length + 4], Token.mk "integerConstant" b []] ∧
      treeOf t'.heap 2 t.heap.length =
        some (Tree.node "term" "" [Tree.node "integerConstant" a []]) ∧
      treeOf t'.heap 1 (t.heap.length + 2) = some (Tree.node "symbol" op []) ∧
      treeOf t'.heap 2 (t.heap.length + 3) =
        some (Tree.node "term" "" [Tree.node "integerConstant" b []]) := by
  refine ⟨_, run_binary t e E a b op hs hE hkind ha hb hop, rfl, rfl, ?_, ?_, ?_⟩ <;>
  simp [treeOf, collect, -List.getElem?_eq_getElem, List.getElem?_cons_zero,
    List.getElem?_cons_succ]

/-- C8, witness: the lexemes `5`, `+`, `3` with an empty `expression` under the
root on top of the stack. -/
theorem C8_binary_operator_witness :
    ∃ t', (Tokeniser.mk "" ⟨[4, 5]⟩ [4]
        (globalHeap ++ [Token.mk "root" "" [5], Token.mk "expression" "" []])).run
          ["5", "+", "3"] = some t' ∧
      t'.currentTokenStack = ⟨[4, 5]⟩ ∧
      t'.heap = globalHeap ++ [Token.mk "root" "" [5], Token.mk "expression" "" [6, 8, 9],
        Token.mk "term" "" [7], Token.mk "integerConstant" "5" [], Token.mk "symbol" "+" [],
        Token.mk "term" "" [10], Token.mk "integerConstant" "3" []] ∧
      treeOf t'.heap 2 6 = some (Tree.node "term" "" [Tree.node "integerConstant" "5" []]) ∧
      treeOf t'.heap 1 8 = some (Tree.node "symbol" "+" []) ∧
      treeOf t'.heap 2 9 = some (Tree.node "term" "" [Tree.node "integerConstant" "3" []]) :=
  C8_binary_operator (Tokeniser.mk "" ⟨[4, 5]⟩ [4]
      (globalHeap ++ [Token.mk "root" "" [5], Token.mk "expression" "" []])) 5
    (Token.mk "expression" "" []) "5" "3" "+" (by decide) (by decide) (by decide) (by decide)
    (by decide) (by decide)

/-- The state after two opening parentheses, the constant `5` and two closing
parentheses in an `expression` context. -/
theorem run_nested_parens (t : Tokeniser) (e : Nat) (E : Token)
    (hs : t.currentTokenStack.Peek = some e) (hE : t.deref e = some E)
    (hkind : E.tokenType = "expression") :
    t.run ["(", "(", "5", ")", ")"] = some { t with heap :=
      (t.heap.set e ⟨E.tokenType, E.token, E.children ++ [t.heap.length]⟩ ++
        [Token.mk "term" "" [t.heap.length + 1, t.heap.length + 2, t.heap.length + 9],
          Token.mk "symbol" "(" [],
          Token.mk "expression" "" [t.heap.length + 3],
          Token.mk "term" "" [t.heap.length + 4, t.heap.length + 5, t.heap.length + 8],
          Token.mk "symbol" "(" [],
          Token.mk "expression" "" [t.heap.length + 6],
          Token.mk "term" "" [t.heap.length + 7],
          Token.mk "integerConstant" "5" [],
          Token.mk "symbol" ")" [],
          Token.mk "symbol" ")" []]) } := by
  have hlt := deref_lt t e E hE
  simp only [Tokeniser.deref] at hlt
  obtain ⟨buf, ⟨items⟩, toks, heap⟩ := t
  simp only at hs hE hlt ⊢
  rw [run_cons, step_open_paren_expression _ e E hs hE hkind, Option.some_bind,
    run_cons, step_open_paren_expression _ (heap.length + 2) (Token.mk "expression" "" []),
    Option.some_bind,
    run_cons, step_atom_expression _ (heap.length + 5) (Token.mk "expression" "" []) "5"
      "integerConstant", Option.some_bind,
    run_cons, step_close_paren_term _ (items ++ [heap.length, heap.length + 2])
      (heap.length + 3) (heap.length + 5)
      (Token.mk "term" "" [heap.length + 4, heap.length + 5])
      (Token.mk "expression" "" [heap.length + 6]), Option.some_bind,
    run_cons, step_close_paren_term _ items heap.length
      (heap.length + 2) (Token.mk "term" "" [heap.length + 1, heap.length + 2])
      (Token.mk "expression" "" [heap.length + 3]), Option.some_bind, run_nil]
  · simp [Token.addChild, hlt, List.set_append_left, List.set_append_right, List.set_set,
      Nat.add_assoc]
  all_goals first
    | rfl
    | decide
    | simp [Tokeniser.deref, TokenContextStack.Peek, Token.addChild, hlt, List.set_append_left,
        List.set_append_right, List.set_set, Nat.add_assoc, -List.getElem?_eq_getElem,
        List.getElem?_cons_zero, List.getElem?_cons_succ]

/-- C9: with an `expression` node E on top of the stack, processing two
opening parentheses, `5` and two closing parentheses succeeds, leaves the
context stack as it was, and gives E one new child: the term opened by the
first parenthesis, under which two nested expression-term pairs wrap the
single integerConstant leaf `5`, four structural levels (expression, term,
expression, term) below that term. -/
theorem C9_nested_parentheses (t : Tokeniser) (e : Nat) (E : Token)
    (hs : t.currentTokenStack.Peek = some e) (hE : t.deref e = some E)
    (hkind : E.tokenType = "expression") :
    ∃ t', t.run ["(", "(", "5", ")", ")"] = some t' ∧
      t'.currentTokenStack = t.currentTokenStack ∧
      t'.deref e = some ⟨E.tokenType, E.token, E.children ++ [t.heap.length]⟩ ∧
      t'.heap.length = t.heap.length + 10 ∧
      treeOf t'.heap 6 t.heap.length =
        some (Tree.node "term" "" [
          Tree.node "symbol" "(" [],
          Tree.node "expression" "" [
            Tree.node "term" "" [
              Tree.node "symbol" "(" [],
              Tree.node "expression" "" [
                Tree.node "term" "" [Tree.node "integerConstant" "5" []]],
              Tree.node "symbol" ")" []]],
          Tree.node "symbol" ")" []]) := by
  have hlt := deref_lt t e E hE
  simp only [Tokeniser.deref] at hlt
  refine ⟨_, run_nested_parens t e E hs hE hkind, rfl, ?_, ?_, ?_⟩
  · simp [Tokeniser.deref, hlt]
  · simp
  · simp [treeOf, collect, -List.getElem?_eq_getElem, List.getElem?_cons_zero,
      List.getElem?_cons_succ]

/-- C9, witness: an empty `expression` under the root on top of the stack. -/
theorem C9_nested_parentheses_witness :
    ∃ t', (Tokeniser.mk "" ⟨[4, 5]⟩ [4]
        (globalHeap ++ [Token.mk "root" "" [5], Token.mk "expression" "" []])).run
          ["(", "(", "5", ")", ")"] = some t' ∧
      t'.currentTokenStack = ⟨[4, 5]⟩ ∧
      t'.deref 5 = some (Token.mk "expression" "" [6]) ∧
      t'.heap.length = 16 ∧
      treeOf t'.heap 6 6 =
        some (Tree.node "term" "" [
          Tree.node "symbol" "(" [],
          Tree.node "expression" "" [
            Tree.node "term" "" [
              Tree.node "symbol" "(" [],
              Tree.node "expression" "" [
                Tree.node "term" "" [Tree.node "integerConstant" "5" []]],
              Tree.node "symbol" ")" []]],
          Tree.node "symbol" ")" []]) :=
  C9_nested_parentheses (Tokeniser.mk "" ⟨[4, 5]⟩ [4]
      (globalHeap ++ [Token.mk "root" "" [5], Token.mk "expression" "" []])) 5
    (Token.mk "expression" "" []) (by decide) (by decide) (by decide)

/-- C10: `Tokenise` is whitespace-insensitive.  For every input, a whitespace
character inserted at the very start, immediately after a symbol or
whitespace character, or immediately before a symbol or whitespace character
changes nothing: the two runs give the same result, hence the same final tree
and the same final context stack (and fail together if they fail). -/
theorem C10_whitespace_insensitive (pre post : List Char) (w : Char)
    (hw : isWhitespace (String.singleton w) = true)
    (hpos : pre = [] ∨ (∃ p c, pre = p ++ [c] ∧ isSeparator c = true) ∨
      (∃ c q, post = c :: q ∧ isSeparator c = true)) :
    NewTokeniser.Tokenise (pre ++ w :: post) = NewTokeniser.Tokenise (pre ++ post) := by
  rcases hpos with rfl | ⟨p, c, rfl, hc⟩ | ⟨c, q, rfl, hc⟩
  · simp only [List.nil_append, Tokenise_cons]
    rw [scanStep_whitespace_empty NewTokeniser w rfl hw]
    rfl
  · rw [Tokenise_append, Tokenise_append (a := p ++ [c]), Tokenise_append (a := p)]
    cases h1 : NewTokeniser.Tokenise p with
    | none => rfl
    | some t1 =>
      simp only [Option.some_bind, Tokenise_cons, Tokenise_nil]
      cases h2 : t1.scanStep c with
      | none => rfl
      | some t2 =>
        have hb := scanStep_separator_buffer t1 t2 c hc h2
        simp only [Option.some_bind, Option.bind_some]
        rw [scanStep_whitespace_empty t2 w hb hw]
        rfl
  · rw [Tokenise_append, Tokenise_append]
    cases h1 : NewTokeniser.Tokenise pre with
    | none => rfl
    | some t1 =>
      simp only [Option.some_bind, Tokenise_cons]
      rw [← scanStep_whitespace_then_separator t1 w c hw hc]
      cases t1.scanStep w <;> rfl

/-- C10, witness: a newline between the word `class` and the opening brace
that follows it. -/
theorem C10_whitespace_insensitive_witness :
    NewTokeniser.Tokenise ("class".toList ++ Char.ofNat 10 :: "\x7b\x7d".toList) =
      NewTokeniser.Tokenise ("class".toList ++ "\x7b\x7d".toList) :=
  C10_whitespace_insensitive "class".toList "\x7b\x7d".toList (Char.ofNat 10) (by decide)
    (Or.inr (Or.inr ⟨Char.ofNat 123, [Char.ofNat 125], by decide, by decide⟩))

/-! ## C11: the root on the context stack -/

/-- C11, as stated, fails: after the single character closing brace, which
`Tokenise` processes without a failed stack access, the context stack is
empty; the closing brace has popped the root. -/
theorem C11_counterexample :
    (NewTokeniser.Tokenise ['\x7d']).map (fun t => t.currentTokenStack.items) = some [] := by
  decide

/-- C11, amended: for every input and after every character that `Tokenise`
processes without a failed stack access (the scan of every beginning of the
input), the context stack is either empty or has the root node created by
`NewTokeniser` (address 4) as its bottom entry and nowhere else; that node
is still the head of `tokens`, still has kind root, and is the only node of
kind root. -/
theorem C11_root_at_bottom (cs : List Char) (k : Nat) (t : Tokeniser)
    (h : NewTokeniser.Tokenise (cs.take k) = some t) :
    (t.currentTokenStack.items = [] ∨
      ∃ rest, t.currentTokenStack.items = 4 :: rest ∧ 4 ∉ rest) ∧
    t.tokens = NewTokeniser.tokens ∧ kindOf t.heap 4 = "root" ∧
    (∀ p, kindOf t.heap p = "root" → p = 4) := by
  have hr := Tokenise_reach (cs.take k) (Reach.initial NewTokeniser NewTokeniser_valid) h
  obtain ⟨_, hext, htok, hroot, _⟩ := hr.1.stack
  refine ⟨hroot, htok, ?_, fun p hp => root_unique hext p hp⟩
  rw [hext.2.1 4 (by decide)]
  decide

/-- C11, witness: after the first eight characters of the worked example the
stack holds the root at the bottom. -/
theorem C11_root_at_bottom_witness :
    ((Tokeniser.mk "fu" ⟨[4, 5]⟩ [4] (globalHeap ++
        [Token.mk "root" "" [5], Token.mk "class" "" [0, 6],
          Token.mk "symbol" "\x7b" []])).currentTokenStack.items = [] ∨
      ∃ rest, (Tokeniser.mk "fu" ⟨[4, 5]⟩ [4] (globalHeap ++
        [Token.mk "root" "" [5], Token.mk "class" "" [0, 6],
          Token.mk "symbol" "\x7b" []])).currentTokenStack.items = 4 :: rest ∧ 4 ∉ rest) ∧
    (Tokeniser.mk "fu" ⟨[4, 5]⟩ [4] (globalHeap ++
        [Token.mk "root" "" [5], Token.mk "class" "" [0, 6],
          Token.mk "symbol" "\x7b" []])).tokens = NewTokeniser.tokens ∧
    kindOf (Tokeniser.mk "fu" ⟨[4, 5]⟩ [4] (globalHeap ++
        [Token.mk "root" "" [5], Token.mk "class" "" [0, 6],
          Token.mk "symbol" "\x7b" []])).heap 4 = "root" ∧
    (∀ p, kindOf (Tokeniser.mk "fu" ⟨[4, 5]⟩ [4] (globalHeap ++
        [Token.mk "root" "" [5], Token.mk "class" "" [0, 6],
          Token.mk "symbol" "\x7b" []])).heap p = "root" → p = 4) :=
  C11_root_at_bottom "class \x7b function".toList 10 _ (by decide)

/-! ## C12: terminal nodes have no children -/

/-- C12: for every input and at every point of the parse that is reached
without a failed stack access, after any number of characters taken by
`Tokenise` and after any sequence of lexemes taken by `ProcessToken`, every
node of kind keyword, symbol, identifier or integerConstant has no children,
and every entry of the context stack is a node of a structural kind, so
`AddToken` never appends to a terminal node. -/
theorem C12_terminal_nodes_childless :
    (∀ (cs : List Char) (t : Tokeniser), NewTokeniser.Tokenise cs = some t →
      t.TerminalsAreLeaves) ∧
    (∀ (xs : List String) (t : Tokeniser), NewTokeniser.run xs = some t →
      t.TerminalsAreLeaves) ∧
    (∀ (xs : List String) (t : Tokeniser) (fuel p : Nat) (k lit : String) (cs : List Tree),
      NewTokeniser.run xs = some t → treeOf t.heap fuel p = some (Tree.node k lit cs) →
      isTerminalKind k = true → cs = []) := by
  have h2 : ∀ (xs : List String) (t : Tokeniser), NewTokeniser.run xs = some t →
      t.TerminalsAreLeaves := fun xs t h =>
    (run_reach xs (Reach.initial NewTokeniser NewTokeniser_valid) h).1.terminals_moves
  refine ⟨fun cs t h =>
    (Tokenise_reach cs (Reach.initial NewTokeniser NewTokeniser_valid) h).1.terminals_moves, h2, ?_⟩
  intro xs t fuel p k lit cs h htree hk
  cases fuel with
  | zero => simp [treeOf] at htree
  | succ fuel =>
    cases hp : t.heap[p]? with
    | none => simp [treeOf, hp] at htree
    | some tok =>
      rw [treeOf_succ _ _ _ _ hp] at htree
      simp only [Option.map_eq_some', Tree.node.injEq] at htree
      obtain ⟨ts, hts, hk1, _, rfl⟩ := htree
      have := (h2 xs t h).1 p tok hp (by rw [hk1]; exact hk)
      rw [this] at hts
      simp only [List.map_nil, collect, Option.some.injEq] at hts
      exact hts.symm

/-! ## C13: keywords -/

/-- The keywords other than the four construct keywords: only `void`. -/
theorem keyword_other (kw : String) (hk : GetTokenType kw = "keyword")
    (hkw : kw ∉ ["class", "function", "return", "do"]) : kw = "void" := by
  have h : keywords.any (fun keyword => kw == keyword) = true := by
    by_contra hc
    unfold GetTokenType at hk
    rw [if_neg hc] at hk
    split_ifs at hk <;> exact absurd hk (by decide)
  simp only [keywords, List.any_cons, List.any_nil, Bool.or_false, Bool.or_eq_true,
    beq_iff_eq] at h
  simp only [List.mem_cons, List.mem_singleton, List.not_mem_nil, or_false, not_or] at hkw
  tauto

/-- The state after a construct keyword, given the row of the skeleton table. -/
theorem skeleton_state (t : Tokeniser) (e : Nat) (E : Token) (kw kind : String) (c : Nat)
    (hs : t.currentTokenStack.Peek = some e) (hE : t.deref e = some E)
    (hg : t.heap.take 4 = globalHeap) (he : 4 ≤ e)
    (hkw : kw ∈ ["class", "function", "return", "do"])
    (hinit : initialTokens kw = Token.mk kind "" [c]) (hc : c < 4)
    (hgc : globalHeap[c]? = some (Token.mk "keyword" kw [])) :
    ∃ t' c, t.ProcessToken kw = some t' ∧
      t'.currentTokenStack.items = t.currentTokenStack.items ++ [t.heap.length] ∧
      t'.depth = t.depth + 1 ∧
      t'.heap = t.heap.set e (E.addChild t.heap.length) ++ [Token.mk kind "" [c]] ∧
      t'.heap[c]? = some (Token.mk "keyword" kw []) ∧
      treeOf t'.heap 2 t.heap.length =
        some (Tree.node kind "" [Tree.node "keyword" kw []]) := by
  have hstep := step_skeleton t e E kw hs hE hkw
  rw [hinit] at hstep
  have h0 := get_global t.heap [Token.mk kind "" [c]] e c (E.addChild t.heap.length) hg he hc
  rw [hgc] at h0
  refine ⟨_, c, hstep, rfl, by simp [Tokeniser.depth], rfl, h0, ?_⟩
  simp [treeOf, collect, h0, -List.getElem?_eq_getElem, List.getElem?_cons_zero,
    List.getElem?_cons_succ]

/-- C13: in a state whose global keyword leaves are in place and whose top of
stack e lies above them, ProcessToken on class, function, return or do
succeeds, allocates one node of kind class, subroutineDec, returnStatement or
doStatement whose only child is the keyword leaf of that literal, appends it
to the children of the top node and pushes it (depth + 1); ProcessToken on
any other keyword, which can only be void, succeeds, appends one keyword leaf
to the top node and leaves the stack unchanged. -/
theorem C13_keyword_handling (t : Tokeniser) (e : Nat) (E : Token)
    (hs : t.currentTokenStack.Peek = some e) (hE : t.deref e = some E)
    (hg : t.heap.take 4 = globalHeap) (he : 4 ≤ e) :
    (∀ kw kind, (kw, kind) ∈ [("class", "class"), ("function", "subroutineDec"),
        ("return", "returnStatement"), ("do", "doStatement")] →
      ∃ t' c, t.ProcessToken kw = some t' ∧
        t'.currentTokenStack.items = t.currentTokenStack.items ++ [t.heap.length] ∧
        t'.depth = t.depth + 1 ∧
        t'.heap = t.heap.set e (E.addChild t.heap.length) ++ [Token.mk kind "" [c]] ∧
        t'.heap[c]? = some (Token.mk "keyword" kw []) ∧
        treeOf t'.heap 2 t.heap.length =
          some (Tree.node kind "" [Tree.node "keyword" kw []])) ∧
    (∀ kw, GetTokenType kw = "keyword" → kw ∉ ["class", "function", "return", "do"] →
      kw = "void" ∧
      ∃ t', t.ProcessToken kw = some t' ∧
        t'.currentTokenStack = t.currentTokenStack ∧
        t'.heap = t.heap.set e (E.addChild t.heap.length) ++ [Token.mk "keyword" kw []] ∧
        treeOf t'.heap 1 t.heap.length = some (Tree.node "keyword" kw [])) := by
  constructor
  · intro kw kind hmem
    simp only [List.mem_cons, List.mem_singleton, List.not_mem_nil, or_false,
      Prod.mk.injEq] at hmem
    rcases hmem with ⟨rfl, rfl⟩ | ⟨rfl, rfl⟩ | ⟨rfl, rfl⟩ | ⟨rfl, rfl⟩
    · exact skeleton_state t e E _ _ 0 hs hE hg he (by decide) (by decide) (by decide)
        (by decide)
    · exact skeleton_state t e E _ _ 1 hs hE hg he (by decide) (by decide) (by decide)
        (by decide)
    · exact skeleton_state t e E _ _ 2 hs hE hg he (by decide) (by decide) (by decide)
        (by decide)
    · exact skeleton_state t e E _ _ 3 hs hE hg he (by decide) (by decide) (by decide)
        (by decide)
  · intro kw hk hkw
    refine ⟨keyword_other kw hk hkw, _, step_keyword_leaf t e E kw hs hE hk hkw, rfl, rfl, ?_⟩
    simp [treeOf, collect, -List.getElem?_eq_getElem, List.getElem?_cons_zero,
      List.getElem?_cons_succ]

/-- C13, witness: the initial state, whose top of stack is the root. -/
theorem C13_keyword_handling_witness :
    (∀ kw kind, (kw, kind) ∈ [("class", "class"), ("function", "subroutineDec"),
        ("return", "returnStatement"), ("do", "doStatement")] →
      ∃ t' c, NewTokeniser.ProcessToken kw = some t' ∧
        t'.currentTokenStack.items = [4, 5] ∧
        t'.depth = NewTokeniser.depth + 1 ∧
        t'.heap = globalHeap ++ [Token.mk "root" "" [5], Token.mk kind "" [c]] ∧
        t'.heap[c]? = some (Token.mk "keyword" kw []) ∧
        treeOf t'.heap 2 5 = some (Tree.node kind "" [Tree.node "keyword" kw []])) ∧
    (∀ kw, GetTokenType kw = "keyword" → kw ∉ ["class", "function", "return", "do"] →
      kw = "void" ∧
      ∃ t', NewTokeniser.ProcessToken kw = some t' ∧
        t'.currentTokenStack = ⟨[4]⟩ ∧
        t'.heap = globalHeap ++ [Token.mk "root" "" [5], Token.mk "keyword" kw []] ∧
        treeOf t'.heap 1 5 = some (Tree.node "keyword" kw [])) :=
  C13_keyword_handling NewTokeniser 4 (Token.mk "root" "" []) (by decide) (by decide)
    (by decide) (by decide)

/-! ## C14: the lexemes of a scan -/

/-- C14, as stated, fails on an input whose scan stops at a failed stack
access: on the three characters closing brace, closing brace, opening
parenthesis the second closing brace finds the stack empty, the scan ends
there, and the opening parenthesis, a symbol character of the input, is never
dispatched. -/
theorem C14_counterexample :
    (NewTokeniser.TokeniseTrace ['\x7d', '\x7d', '(']).1 = ["\x7d", "\x7d"] ∧
      (NewTokeniser.TokeniseTrace ['\x7d', '\x7d', '(']).2 = none ∧
      NewTokeniser.Tokenise ['\x7d', '\x7d', '('] = none ∧
      isSymbol (String.singleton '(') = true ∧
      String.singleton '(' ∉ (NewTokeniser.TokeniseTrace ['\x7d', '\x7d', '(']).1 := by
  decide

/-- C14, amended: for every input, the instrumented scan computes the state
of Tokenise, and of the lexemes it passes to ProcessToken (1) each is
non-empty and is either the one-rune string of a symbol character or a run
of characters none of which is a symbol or whitespace character; (2) each run
is maximal: it stands in the input between the start or a separator and a
separator, after exactly the input whose non-whitespace characters were
dispatched before it; (3) the characters dispatched are, in order, a
beginning of the non-whitespace characters of the input; (4) the symbol
lexemes dispatched are a beginning of the symbol characters of the input,
each once and in order; (5) when no stack access fails, every symbol
character is dispatched exactly once, and the dispatched characters followed
by the pending buffer are all non-whitespace characters of the input. -/
theorem C14_lexemes_dispatched (cs : List Char) :
    (NewTokeniser.TokeniseTrace cs).2 = NewTokeniser.Tokenise cs ∧
    (∀ x ∈ (NewTokeniser.TokeniseTrace cs).1, x ≠ "" ∧
      ((∃ c, x = String.singleton c ∧ isSymbol x = true) ∨
        (isSymbol x = false ∧ ∀ c ∈ x.data, isSeparator c = false))) ∧
    (∀ l1 x l2, (NewTokeniser.TokeniseTrace cs).1 = l1 ++ x :: l2 → isSymbol x = false →
      ∃ pre post d, cs = pre ++ x.data ++ d :: post ∧ isSeparator d = true ∧
        (pre = [] ∨ ∃ p q, pre = p ++ [q] ∧ isSeparator q = true) ∧
        (l1.map String.data).flatten =
          pre.filter (fun c => !isWhitespace (String.singleton c))) ∧
    ((NewTokeniser.TokeniseTrace cs).1.map String.data).flatten <+:
      cs.filter (fun c => !isWhitespace (String.singleton c)) ∧
    (NewTokeniser.TokeniseTrace cs).1.filter isSymbol <+:
      (cs.filter (fun c => isSymbol (String.singleton c))).map String.singleton ∧
    (∀ t', NewTokeniser.Tokenise cs = some t' →
      (NewTokeniser.TokeniseTrace cs).1.filter isSymbol =
        (cs.filter (fun c => isSymbol (String.singleton c))).map String.singleton ∧
      ((NewTokeniser.TokeniseTrace cs).1.map String.data).flatten ++
        t'.tokenBeingParsed.data = cs.filter (fun c => !isWhitespace (String.singleton c))) := by
  obtain ⟨hp, hs⟩ := TokeniseTrace_fst cs NewTokeniser
  have hb : ∀ c ∈ NewTokeniser.tokenBeingParsed.data, isSeparator c = false := by
    intro c hc
    simp [NewTokeniser] at hc
  have hbuf : NewTokeniser.tokenBeingParsed = "" := rfl
  rw [hbuf] at hp hs hb
  obtain ⟨r, hr⟩ := hp
  have hflat := lexScan_flatten cs ""
  have hsym := lexScan_symbols cs "" hb
  rw [← hr] at hflat hsym
  refine ⟨TokeniseTrace_snd cs NewTokeniser, ?_, ?_, ?_, ?_, ?_⟩
  · intro x hx
    obtain ⟨h1, h2⟩ := (lexScan_lexemes cs "" hb).1 x (by rw [← hr]; simp [hx])
    refine ⟨h1, ?_⟩
    rcases h2 with h2 | h2
    · exact Or.inl h2
    · exact Or.inr ⟨isSymbol_run x h2, h2⟩
  · intro l1 x l2 h hx
    obtain ⟨pre, post, d, e1, e2, e3, e4⟩ := lexScan_maximal cs l1 x (l2 ++ r)
      (by rw [← hr, h]; simp) hx
    refine ⟨pre, post, d, e1, e2, e3, ?_⟩
    have := lexScan_flatten pre ""
    rw [e4] at this
    simpa using this
  · refine ⟨(r.map String.data).flatten ++ (lexScan "" cs).2.data, ?_⟩
    simpa using hflat
  · refine ⟨r.filter isSymbol, ?_⟩
    rw [← hsym]
    simp
  · intro t' ht
    rw [← TokeniseTrace_snd] at ht
    obtain ⟨e1, e2⟩ := hs t' ht
    constructor
    · rw [e1]
      exact lexScan_symbols cs "" hb
    · rw [e1, e2]
      simpa using lexScan_flatten cs ""

/-- C14, witness: the lexemes of the worked example. -/
theorem C14_lexemes_dispatched_witness :
    (NewTokeniser.TokeniseTrace exampleInput).2 = NewTokeniser.Tokenise exampleInput ∧
    (∀ x ∈ (NewTokeniser.TokeniseTrace exampleInput).1, x ≠ "" ∧
      ((∃ c, x = String.singleton c ∧ isSymbol x = true) ∨
        (isSymbol x = false ∧ ∀ c ∈ x.data, isSeparator c = false))) ∧
    (∀ l1 x l2, (NewTokeniser.TokeniseTrace exampleInput).1 = l1 ++ x :: l2 →
      isSymbol x = false →
      ∃ pre post d, exampleInput = pre ++ x.data ++ d :: post ∧ isSeparator d = true ∧
        (pre = [] ∨ ∃ p q, pre = p ++ [q] ∧ isSeparator q = true) ∧
        (l1.map String.data).flatten =
          pre.filter (fun c => !isWhitespace (String.singleton c))) ∧
    ((NewTokeniser.TokeniseTrace exampleInput).1.map String.data).flatten <+:
      exampleInput.filter (fun c => !isWhitespace (String.singleton c)) ∧
    (NewTokeniser.TokeniseTrace exampleInput).1.filter isSymbol <+:
      (exampleInput.filter (fun c => isSymbol (String.singleton c))).map String.singleton ∧
    (∀ t', NewTokeniser.Tokenise exampleInput = some t' →
      (NewTokeniser.TokeniseTrace exampleInput).1.filter isSymbol =
        (exampleInput.filter (fun c => isSymbol (String.singleton c))).map String.singleton ∧
      ((NewTokeniser.TokeniseTrace exampleInput).1.map String.data).flatten ++
        t'.tokenBeingParsed.data =
          exampleInput.filter (fun c => !isWhitespace (String.singleton c))) :=
  C14_lexemes_dispatched exampleInput

/-! ## C15: the braces of a subroutine body -/

/-- C15: with a `subroutineDec` node D on top of a stack of depth d,
ProcessToken on an opening brace succeeds, appends to D one new
subroutineBody that reads subroutineBody[symbol opening brace, statements[]],
and leaves that body and its statements on the stack, statements on top, at
depth d + 2; a following ProcessToken on a closing brace succeeds, appends
the closing brace as the last child of that subroutineBody, leaves the
statements node without children, and leaves the stack as it was beneath D,
at depth d − 1. -/
theorem C15_subroutine_body_braces (t : Tokeniser) (S : List Nat) (e : Nat) (D : Token)
    (hs : t.currentTokenStack.items = S ++ [e]) (hD : t.deref e = some D)
    (hkind : D.tokenType = "subroutineDec") :
    ∃ t1 t2, t.ProcessToken "\x7b" = some t1 ∧
      t1.currentTokenStack.items = S ++ [e, t.heap.length, t.heap.length + 2] ∧
      t1.depth = t.depth + 2 ∧
      t1.heap[e]? = some (D.addChild t.heap.length) ∧
      (t1.heap[t.heap.length + 2]?).map Token.tokenType = some "statements" ∧
      treeOf t1.heap 2 t.heap.length = some (Tree.node "subroutineBody" ""
        [Tree.node "symbol" "\x7b" [], Tree.node "statements" "" []]) ∧
      t1.ProcessToken "\x7d" = some t2 ∧
      t2.currentTokenStack.items = S ∧
      t2.depth = t.depth - 1 ∧
      t2.heap[e]? = some (D.addChild t.heap.length) ∧
      t2.heap[t.heap.length]? = some (Token.mk "subroutineBody" ""
        [t.heap.length + 1, t.heap.length + 2, t.heap.length + 3]) ∧
      t2.heap[t.heap.length + 3]? = some (Token.mk "symbol" "\x7d" []) ∧
      treeOf t2.heap 2 t.heap.length = some (Tree.node "subroutineBody" ""
        [Tree.node "symbol" "\x7b" [], Tree.node "statements" "" [],
          Tree.node "symbol" "\x7d" []]) := by
  have hlt := deref_lt t e D hD
  have hpeek : t.currentTokenStack.Peek = some e := by
    simp [TokenContextStack.Peek, hs]
  have h1 := step_open_brace_subroutineDec t e D hpeek hD hkind
  have h2 := step_close_brace_statements
    { t with
      currentTokenStack := ⟨t.currentTokenStack.items ++ [t.heap.length, t.heap.length + 2]⟩
      heap := (t.heap.set e (D.addChild t.heap.length) ++
        [Token.mk "subroutineBody" "" [t.heap.length + 1, t.heap.length + 2],
          Token.mk "symbol" "\x7b" [], Token.mk "statements" "" []]) }
    S e t.heap.length (t.heap.length + 2)
    (Token.mk "subroutineBody" "" [t.heap.length + 1, t.heap.length + 2])
    (Token.mk "statements" "" []) (by simp [hs])
    (by simp [Tokeniser.deref, -List.getElem?_eq_getElem, List.getElem?_cons_zero]) rfl
    (by simp [Tokeniser.deref, -List.getElem?_eq_getElem, List.getElem?_cons_zero])
  simp only [Tokeniser.deref] at hlt
  refine ⟨_, _, h1, by simp [hs], by simp [Tokeniser.depth, hs], ?_, ?_, ?_, h2, rfl,
    by simp [Tokeniser.depth, hs], ?_, ?_, ?_, ?_⟩ <;>
  simp [treeOf, collect, Token.addChild, hlt, List.set_append_left, Nat.add_assoc,
    -List.getElem?_eq_getElem, List.getElem?_cons_zero, List.getElem?_cons_succ]

/-- C15, witness: the braces of a body with a `subroutineDec` under the root
on top of the stack. -/
theorem C15_subroutine_body_braces_witness :
    ∃ t1 t2, (Tokeniser.mk "" ⟨[4, 5]⟩ [4]
        (globalHeap ++ [Token.mk "root" "" [5], Token.mk "subroutineDec" "" [1]])).ProcessToken
          "\x7b" = some t1 ∧
      t1.currentTokenStack.items = [4, 5, 6, 8] ∧
      t1.depth = 4 ∧
      t1.heap[5]? = some (Token.mk "subroutineDec" "" [1, 6]) ∧
      (t1.heap[8]?).map Token.tokenType = some "statements" ∧
      treeOf t1.heap 2 6 = some (Tree.node "subroutineBody" ""
        [Tree.node "symbol" "\x7b" [], Tree.node "statements" "" []]) ∧
      t1.ProcessToken "\x7d" = some t2 ∧
      t2.currentTokenStack.items = [4] ∧
      t2.depth = 1 ∧
      t2.heap[5]? = some (Token.mk "subroutineDec" "" [1, 6]) ∧
      t2.heap[6]? = some (Token.mk "subroutineBody" "" [7, 8, 9]) ∧
      t2.heap[9]? = some (Token.mk "symbol" "\x7d" []) ∧
      treeOf t2.heap 2 6 = some (Tree.node "subroutineBody" ""
        [Tree.node "symbol" "\x7b" [], Tree.node "statements" "" [],
          Tree.node "symbol" "\x7d" []]) :=
  C15_subroutine_body_braces (Tokeniser.mk "" ⟨[4, 5]⟩ [4]
      (globalHeap ++ [Token.mk "root" "" [5], Token.mk "subroutineDec" "" [1]])) [4] 5
    (Token.mk "subroutineDec" "" [1]) (by decide) (by decide) (by decide)

/-! ## C16: the `do` statement -/

/-- The state after a `do`, a name, an empty argument list and a semicolon. -/
theorem run_do_statement (t : Tokeniser) (e : Nat) (E : Token) (f : String)
    (hs : t.currentTokenStack.Peek = some e) (hE : t.deref e = some E)
    (hf : GetTokenType f = "identifier") :
    t.run ["do", f, "(", ")", ";"] = some { t with heap :=
      (t.heap.set e (E.addChild t.heap.length) ++
        [Token.mk "doStatement" "" [3, t.heap.length + 1, t.heap.length + 2,
            t.heap.length + 3, t.heap.length + 4, t.heap.length + 5],
          Token.mk "identifier" f [], Token.mk "symbol" "(" [],
          Token.mk "expressionList" "" [], Token.mk "symbol" ")" [],
          Token.mk "symbol" ";" []]) } := by
  have hlt := deref_lt t e E hE
  simp only [Tokeniser.deref] at hlt
  rw [run_cons, step_skeleton t e E "do" hs hE (by decide), Option.some_bind,
    run_cons, step_atom_plain _ t.heap.length (Token.mk "doStatement" "" [3]) f "identifier",
    Option.some_bind,
    run_cons, step_open_paren_doStatement _ t.heap.length
      (Token.mk "doStatement" "" [3, t.heap.length + 1]), Option.some_bind,
    run_cons, step_close_paren_plain _ t.currentTokenStack.items t.heap.length
      (t.heap.length + 3)
      (Token.mk "doStatement" "" [3, t.heap.length + 1, t.heap.length + 2, t.heap.length + 3])
      (Token.mk "expressionList" "" []), Option.some_bind,
    run_cons, step_semicolon _ t.currentTokenStack.items t.heap.length
      (Token.mk "doStatement" "" [3, t.heap.length + 1, t.heap.length + 2, t.heap.length + 3,
        t.heap.length + 4]), Option.some_bind, run_nil]
  all_goals first
    | rfl
    | decide
    | exact hf
    | exact Or.inr rfl
    | simp [Tokeniser.deref, TokenContextStack.Peek, Token.addChild, hlt, initialTokens,
        List.set_append_left, List.set_append_right, List.set_set, Nat.add_assoc,
        -List.getElem?_eq_getElem, List.getElem?_cons_zero, List.getElem?_cons_succ]

/-- C16: in a state whose global keyword leaves are in place and whose top of
stack e lies above them, and for an identifier f, processing the lexemes do,
f, opening parenthesis, closing parenthesis, semicolon succeeds, leaves the
context stack as it was before, appends exactly one address to the children
of the top node, and the node at that address reads doStatement[keyword do,
identifier f, symbol opening parenthesis, expressionList[], symbol closing
parenthesis, symbol semicolon]. -/
theorem C16_do_statement (t : Tokeniser) (e : Nat) (E : Token) (f : String)
    (hs : t.currentTokenStack.Peek = some e) (hE : t.deref e = some E)
    (hg : t.heap.take 4 = globalHeap) (he : 4 ≤ e)
    (hf : GetTokenType f = "identifier") :
    ∃ t', t.run ["do", f, "(", ")", ";"] = some t' ∧
      t'.currentTokenStack = t.currentTokenStack ∧
      t'.heap.length = t.heap.length + 6 ∧
      t'.heap[e]? = some (Token.mk E.tokenType E.token (E.children ++ [t.heap.length])) ∧
      (∀ i, i < t.heap.length → i ≠ e → t'.heap[i]? = t.heap[i]?) ∧
      treeOf t'.heap 3 t.heap.length = some (Tree.node "doStatement" ""
        [Tree.node "keyword" "do" [], Tree.node "identifier" f [], Tree.node "symbol" "(" [],
          Tree.node "expressionList" "" [], Tree.node "symbol" ")" [],
          Tree.node "symbol" ";" []]) := by
  have hlt := deref_lt t e E hE
  simp only [Tokeniser.deref] at hlt
  have h3 := get_global t.heap
    [Token.mk "doStatement" "" [3, t.heap.length + 1, t.heap.length + 2,
        t.heap.length + 3, t.heap.length + 4, t.heap.length + 5],
      Token.mk "identifier" f [], Token.mk "symbol" "(" [],
      Token.mk "expressionList" "" [], Token.mk "symbol" ")" [],
      Token.mk "symbol" ";" []] e 3 (E.addChild t.heap.length) hg he (by decide)
  refine ⟨_, run_do_statement t e E f hs hE hf, rfl, by simp, ?_, ?_, ?_⟩
  · simp [Token.addChild, hlt, -List.getElem?_eq_getElem]
  · intro i hi hie
    simp only [List.length_set, hi, get_old]
    exact List.getElem?_set_ne (Ne.symm hie)
  · simp [treeOf, collect, h3, globalHeap, -List.getElem?_eq_getElem, List.getElem?_cons_zero,
      List.getElem?_cons_succ]

/-- C16, witness: `do f ( ) ;` in the initial state. -/
theorem C16_do_statement_witness :
    ∃ t', NewTokeniser.run ["do", "f", "(", ")", ";"] = some t' ∧
      t'.currentTokenStack = NewTokeniser.currentTokenStack ∧
      t'.heap.length = NewTokeniser.heap.length + 6 ∧
      t'.heap[4]? = some (Token.mk "root" "" [5]) ∧
      (∀ i, i < NewTokeniser.heap.length → i ≠ 4 → t'.heap[i]? = NewTokeniser.heap[i]?) ∧
      treeOf t'.heap 3 5 = some (Tree.node "doStatement" ""
        [Tree.node "keyword" "do" [], Tree.node "identifier" "f" [],
          Tree.node "symbol" "(" [], Tree.node "expressionList" "" [],
          Tree.node "symbol" ")" [], Tree.node "symbol" ";" []]) :=
  C16_do_statement NewTokeniser 4 (Token.mk "root" "" []) "f" (by decide) (by decide)
    (by decide) (by decide) (by decide)

/-! ## C17: an atom in an argument list -/

/-- C17: with an `expressionList` node L on top of a stack of depth d and a
lexeme x classified as identifier or integerConstant, ProcessToken on x
succeeds, appends exactly one address to the children of L, allocates
exactly three nodes so that the new child reads expression[term[leaf x of
the class of x]], and afterwards the stack is the old one with the new
expression pushed, at depth d + 1. -/
theorem C17_atom_in_expressionList (t : Tokeniser) (e : Nat) (L : Token) (x k : String)
    (hs : t.currentTokenStack.Peek = some e) (hL : t.deref e = some L)
    (hkind : L.tokenType = "expressionList")
    (hk : GetTokenType x = k) (hk2 : k = "integerConstant" ∨ k = "identifier") :
    ∃ t', t.ProcessToken x = some t' ∧
      t'.currentTokenStack.items = t.currentTokenStack.items ++ [t.heap.length] ∧
      t'.currentTokenStack.Peek = some t.heap.length ∧
      t'.depth = t.depth + 1 ∧
      t'.heap.length = t.heap.length + 3 ∧
      t'.heap[e]? = some (Token.mk L.tokenType L.token (L.children ++ [t.heap.length])) ∧
      (∀ i, i < t.heap.length → i ≠ e → t'.heap[i]? = t.heap[i]?) ∧
      treeOf t'.heap 3 t.heap.length = some (Tree.node "expression" ""
        [Tree.node "term" "" [Tree.node k x []]]) := by
  have hlt := deref_lt t e L hL
  simp only [Tokeniser.deref] at hlt
  refine ⟨_, step_atom_expressionList t e L x k hs hL hkind hk hk2, rfl,
    by simp [TokenContextStack.Peek], by simp [Tokeniser.depth], by simp, ?_, ?_, ?_⟩
  · simp [Token.addChild, hlt, -List.getElem?_eq_getElem]
  · intro i hi hie
    simp only [List.length_set, hi, get_old]
    exact List.getElem?_set_ne (Ne.symm hie)
  · simp [treeOf, collect, -List.getElem?_eq_getElem, List.getElem?_cons_zero,
      List.getElem?_cons_succ]

/-- C17, witness: the identifier `x` with an empty `expressionList` under the
root on top of the stack. -/
theorem C17_atom_in_expressionList_witness :
    ∃ t', (Tokeniser.mk "" ⟨[4, 5]⟩ [4]
        (globalHeap ++ [Token.mk "root" "" [5], Token.mk "expressionList" "" []])).ProcessToken
          "x" = some t' ∧
      t'.currentTokenStack.items = [4, 5, 6] ∧
      t'.currentTokenStack.Peek = some 6 ∧
      t'.depth = 3 ∧
      t'.heap.length = 9 ∧
      t'.heap[5]? = some (Token.mk "expressionList" "" [6]) ∧
      (∀ i, i < 6 → i ≠ 5 → t'.heap[i]? =
        (globalHeap ++ [Token.mk "root" "" [5], Token.mk "expressionList" "" []])[i]?) ∧
      treeOf t'.heap 3 6 = some (Tree.node "expression" ""
        [Tree.node "term" "" [Tree.node "identifier" "x" []]]) :=
  C17_atom_in_expressionList (Tokeniser.mk "" ⟨[4, 5]⟩ [4]
      (globalHeap ++ [Token.mk "root" "" [5], Token.mk "expressionList" "" []])) 5
    (Token.mk "expressionList" "" []) "x" "identifier" (by decide) (by decide) (by decide)
    (by decide) (by decide)

/-! ## C18: the order of the leaves -/

theorem filterMap_expectedLeaf (xs : List String) :
    xs.filterMap expectedLeaf =
      (xs.filter (fun x => x != "]" && GetTokenType x != "")).map
        (fun x => (GetTokenType x, x)) := by
  induction xs with
  | nil => rfl
  | cons x xs ih =>
    by_cases h1 : x = "]"
    · subst h1
      simp [List.filterMap_cons, expectedLeaf, ih]
    · by_cases h2 : GetTokenType x = ""
      · simp [List.filterMap_cons, expectedLeaf, h1, h2, ih]
      · simp [List.filterMap_cons, expectedLeaf, h1, h2, ih]

/-- The tree of a state reached from the initial state by a run over lexemes
reads with the expected leaves of the lexemes. -/
theorem run_leaves (xs : List String) (t : Tokeniser) (h : NewTokeniser.run xs = some t) :
    ∃ fuel T, t.tree fuel = some T ∧ T.leaves = xs.filterMap expectedLeaf := by
  have hr := run_reach xs (Reach.initial NewTokeniser NewTokeniser_valid) h
  obtain ⟨_, _, htok, _, _⟩ := hr.1.stack
  obtain ⟨fuel, T, h1, h2⟩ := hr.1.spine_moves.read
  refine ⟨fuel, T, ?_, by simpa using h2⟩
  simp [Tokeniser.tree, htok, h1]

/-- C18: token order is preserved by the tree.  For every sequence of lexemes
that `ProcessToken` processes from the initial state without a failed stack
access, the tree below the root can be read, and its terminal leaves, left
to right as pairs of kind and literal, are exactly the processed lexemes
paired with their `GetTokenType` class, in order, with the closing bracket
lexemes and the lexemes without a class left out; processing further
lexemes only appends their leaves, so no leaf is removed, reordered or
duplicated. -/
theorem C18_leaf_order (xs : List String) (t : Tokeniser)
    (h : NewTokeniser.run xs = some t) :
    ∃ fuel T, t.tree fuel = some T ∧
      T.leaves = (xs.filter (fun x => x != "]" && GetTokenType x != "")).map
        (fun x => (GetTokenType x, x)) ∧
      ∀ ys t2, t.run ys = some t2 → ∃ fuel2 T2, t2.tree fuel2 = some T2 ∧
        T2.leaves = T.leaves ++ (ys.filter (fun x => x != "]" && GetTokenType x != "")).map
          (fun x => (GetTokenType x, x)) := by
  obtain ⟨fuel, T, h1, h2⟩ := run_leaves xs t h
  refine ⟨fuel, T, h1, by rw [h2, filterMap_expectedLeaf], fun ys t2 hys => ?_⟩
  have h3 : NewTokeniser.run (xs ++ ys) = some t2 := by
    rw [run_append, h, Option.some_bind, hys]
  obtain ⟨fuel2, T2, h4, h5⟩ := run_leaves (xs ++ ys) t2 h3
  refine ⟨fuel2, T2, h4, ?_⟩
  rw [h5, h2, List.filterMap_append, filterMap_expectedLeaf ys]

/-- C18, witness: `do`, `f`, a closing bracket and the unclassifiable `3x`
leave the leaves of `do` and `f`. -/
theorem C18_leaf_order_witness :
    ∃ fuel T, (Tokeniser.mk "" ⟨[4, 5]⟩ [4] (globalHeap ++ [Token.mk "root" "" [5],
        Token.mk "doStatement" "" [3, 6], Token.mk "identifier" "f" []])).tree fuel = some T ∧
      T.leaves = (["do", "f", "]", "3x"].filter
        (fun x => x != "]" && GetTokenType x != "")).map (fun x => (GetTokenType x, x)) ∧
      ∀ ys t2, (Tokeniser.mk "" ⟨[4, 5]⟩ [4] (globalHeap ++ [Token.mk "root" "" [5],
        Token.mk "doStatement" "" [3, 6], Token.mk "identifier" "f" []])).run ys = some t2 →
        ∃ fuel2 T2, t2.tree fuel2 = some T2 ∧
          T2.leaves = T.leaves ++ (ys.filter (fun x => x != "]" && GetTokenType x != "")).map
            (fun x => (GetTokenType x, x)) :=
  C18_leaf_order ["do", "f", "]", "3x"] _ (by decide)

/-! ## C19: balanced parentheses -/

theorem nestedLexemes_eq (x : String) (k : Nat) :
    nestedLexemes x k = List.replicate k "(" ++ [x] ++ List.replicate k ")" := by
  induction k with
  | zero => rfl
  | succ k ih =>
    rw [nestedLexemes, ih, List.replicate_succ, List.replicate_succ']
    simp

/-- The run over an atom inside `k` pairs of parentheses, in an `expression`
context: the stack is restored, the top node gets one child, every other old
node is untouched, and the new child reads as the nested shape in every heap
that agrees with the final one on the new addresses. -/
theorem run_nested (x kind : String) (hk : GetTokenType x = kind)
    (hk2 : kind = "integerConstant" ∨ kind = "identifier") :
    ∀ (k : Nat) (t : Tokeniser) (e : Nat) (E : Token),
      t.currentTokenStack.Peek = some e → t.deref e = some E → E.tokenType = "expression" →
      ∃ t', t.run (nestedLexemes x k) = some t' ∧
        t'.currentTokenStack = t.currentTokenStack ∧
        t'.heap.length = t.heap.length + (4 * k + 2) ∧
        t'.heap[e]? = some (E.addChild t.heap.length) ∧
        (∀ i, i < t.heap.length → i ≠ e → t'.heap[i]? = t.heap[i]?) ∧
        (∀ H : List Token,
          (∀ i, t.heap.length ≤ i → i < t'.heap.length → H[i]? = t'.heap[i]?) →
          treeOf H (2 * k + 2) t.heap.length = some (nestedTerm kind x k)) := by
  intro k
  induction k with
  | zero =>
    intro t e E hs hE hkind
    have hlt := deref_lt t e E hE
    simp only [Tokeniser.deref] at hlt
    have hrun0 := step_atom_expression t e E x kind hs hE hkind hk hk2
    refine ⟨?_, ?_, ?_, ?_, ?_, ?_, ?_⟩
    rotate_left
    · rw [nestedLexemes, run_cons, hrun0, Option.some_bind, run_nil]
      exact rfl
    · rfl
    · simp
    · simp [Token.addChild, hlt, -List.getElem?_eq_getElem]
    · intro i hi hie
      simp only [List.length_set, hi, get_old]
      exact List.getElem?_set_ne (Ne.symm hie)
    · intro H hH
      have h0 := hH t.heap.length (Nat.le_refl _) (by simp)
      have h1 := hH (t.heap.length + 1) (by omega) (by simp)
      simp [-List.getElem?_eq_getElem, List.getElem?_cons_zero, List.getElem?_cons_succ] at h0 h1
      rw [treeOf_succ H 1 _ _ h0]
      simp [collect, treeOf_leaf H 0 _ _ _ h1, nestedTerm]
  | succ k ih =>
    intro t e E hs hE hkind
    have hlt := deref_lt t e E hE
    simp only [Tokeniser.deref] at hlt
    have h1 := step_open_paren_expression t e E hs hE hkind
    obtain ⟨t2, hrun, hstk, hlen, hE2, hframe, htree⟩ := ih _ (t.heap.length + 2)
      (Token.mk "expression" "" [])
      (show TokenContextStack.Peek ⟨t.currentTokenStack.items ++
          [t.heap.length, t.heap.length + 2]⟩ = some (t.heap.length + 2) by
        simp [TokenContextStack.Peek])
      (show Tokeniser.deref { t with
          currentTokenStack :=
            ⟨t.currentTokenStack.items ++ [t.heap.length, t.heap.length + 2]⟩
          heap := (t.heap.set e (E.addChild t.heap.length) ++
            [Token.mk "term" "" [t.heap.length + 1, t.heap.length + 2],
              Token.mk "symbol" "(" [], Token.mk "expression" "" []]) }
          (t.heap.length + 2) = some (Token.mk "expression" "" []) by
        simp [Tokeniser.deref, -List.getElem?_eq_getElem, List.getElem?_cons_zero,
          List.getElem?_cons_succ])
      rfl
    simp only [List.length_append, List.length_set, List.length_cons, List.length_nil] at hlen hE2 hframe htree
    have hn := hframe t.heap.length (by omega) (by omega)
    have hn1 := hframe (t.heap.length + 1) (by omega) (by omega)
    have he := hframe e (by omega) (by omega)
    simp [-List.getElem?_eq_getElem, List.getElem?_cons_zero, List.getElem?_cons_succ] at hn hn1
    simp only [hlt, List.length_set, get_old] at he
    have h3 := step_close_paren_term t2 t.currentTokenStack.items t.heap.length
      (t.heap.length + 2) (Token.mk "term" "" [t.heap.length + 1, t.heap.length + 2])
      ((Token.mk "expression" "" []).addChild (t.heap.length + 3))
      (by rw [hstk]) hE2 rfl hn rfl
    refine ⟨?_, ?_, ?_, ?_, ?_, ?_, ?_⟩
    rotate_left
    · rw [nestedLexemes, run_cons, h1, Option.some_bind, run_append, hrun,
        Option.some_bind, run_cons, h3, Option.some_bind, run_nil]
      exact rfl
    · rfl
    · simp only [List.length_append, List.length_set, List.length_cons, List.length_nil]
      omega
    · have : e < (t2.heap.set t.heap.length
          ((Token.mk "term" "" [t.heap.length + 1, t.heap.length + 2]).addChild
            t2.heap.length)).length := by
        simp only [List.length_set]; omega
      simp only [get_old, this]
      rw [List.getElem?_set_ne (by omega), he]
      simp [hlt, -List.getElem?_eq_getElem]
    · intro i hi hie
      have : i < (t2.heap.set t.heap.length
          ((Token.mk "term" "" [t.heap.length + 1, t.heap.length + 2]).addChild
            t2.heap.length)).length := by
        simp only [List.length_set]; omega
      simp only [get_old, this]
      rw [List.getElem?_set_ne (by omega), hframe i (by omega) (by omega)]
      simp only [List.length_set, hi, get_old]
      exact List.getElem?_set_ne (Ne.symm hie)
    · intro H hH
      simp only [List.length_append, List.length_set, List.length_cons, List.length_nil] at hH
      have key : ∀ i, t.heap.length < i → i < t2.heap.length → H[i]? = t2.heap[i]? := by
        intro i h1 h2
        rw [hH i (by omega) (by omega), List.getElem?_append_left (by simp; omega),
          List.getElem?_set_ne (by omega)]
      have g0 : H[t.heap.length]? = some (Token.mk "term" ""
          [t.heap.length + 1, t.heap.length + 2, t2.heap.length]) := by
        rw [hH _ (Nat.le_refl _) (by omega), List.getElem?_append_left (by simp; omega),
          List.getElem?_set_self (by omega)]
        rfl
      have g1 := key (t.heap.length + 1) (by omega) (by omega)
      have g2 := key (t.heap.length + 2) (by omega) (by omega)
      have g3 : H[t2.heap.length]? = some (Token.mk "symbol" ")" []) := by
        rw [hH _ (by omega) (by omega)]
        simp [-List.getElem?_eq_getElem, List.getElem?_cons_zero]
      rw [hn1] at g1
      rw [hE2] at g2
      have g4 := htree H (fun i h1 h2 => key i (by omega) h2)
      rw [show 2 * (k + 1) + 2 = (2 * k + 2) + 1 + 1 by omega,
        treeOf_succ H _ _ _ g0]
      simp only [List.map_cons, List.map_nil]
      rw [treeOf_leaf H _ _ _ _ g1, treeOf_leaf H _ _ _ _ g3, treeOf_succ H _ _ _ g2]
      simp only [Token.addChild, List.nil_append, List.map_cons, List.map_nil]
      rw [g4]
      rfl

/-- C19: balanced parentheses restore the context.  With an `expression`
node E on top of the stack, an identifier or integer constant x and any k
(in particular every k ≥ 1), processing k opening parentheses, x and k
closing parentheses succeeds, leaves the context stack exactly as it was
with E on top, appends exactly one address to the children of E, leaves every
other old node untouched, and the new child reads as a `term` whose subtree
wraps term[x] in k parenthesised expression levels, that is k − 1 further
expression-term pairs around expression[term[x]]. -/
theorem C19_balanced_parentheses (t : Tokeniser) (e : Nat) (E : Token) (x kind : String)
    (k : Nat) (hs : t.currentTokenStack.Peek = some e) (hE : t.deref e = some E)
    (hkind : E.tokenType = "expression") (hk : GetTokenType x = kind)
    (hk2 : kind = "integerConstant" ∨ kind = "identifier") :
    ∃ t', t.run (List.replicate k "(" ++ [x] ++ List.replicate k ")") = some t' ∧
      t'.currentTokenStack = t.currentTokenStack ∧
      t'.currentTokenStack.Peek = some e ∧
      t'.heap.length = t.heap.length + (4 * k + 2) ∧
      t'.heap[e]? = some (Token.mk E.tokenType E.token (E.children ++ [t.heap.length])) ∧
      (∀ i, i < t.heap.length → i ≠ e → t'.heap[i]? = t.heap[i]?) ∧
      treeOf t'.heap (2 * k + 2) t.heap.length = some (nestedTerm kind x k) := by
  obtain ⟨t', hrun, hstk, hlen, hE', hframe, htree⟩ :=
    run_nested x kind hk hk2 k t e E hs hE hkind
  refine ⟨t', ?_, hstk, ?_, hlen, hE', hframe, htree t'.heap (fun _ _ _ => rfl)⟩
  · rw [← nestedLexemes_eq, hrun]
  · rw [hstk, hs]

/-- C19, witness: `( ( ( x ) ) )` with an empty `expression` under the root on
top of the stack. -/
theorem C19_balanced_parentheses_witness :
    ∃ t', (Tokeniser.mk "" ⟨[4, 5]⟩ [4]
        (globalHeap ++ [Token.mk "root" "" [5], Token.mk "expression" "" []])).run
          ["(", "(", "(", "x", ")", ")", ")"] = some t' ∧
      t'.currentTokenStack = ⟨[4, 5]⟩ ∧
      t'.currentTokenStack.Peek = some 5 ∧
      t'.heap.length = 20 ∧
      t'.heap[5]? = some (Token.mk "expression" "" [6]) ∧
      (∀ i, i < 6 → i ≠ 5 → t'.heap[i]? =
        (globalHeap ++ [Token.mk "root" "" [5], Token.mk "expression" "" []])[i]?) ∧
      treeOf t'.heap 8 6 = some (Tree.node "term" "" [Tree.node "symbol" "(" [],
        Tree.node "expression" "" [Tree.node "term" "" [Tree.node "symbol" "(" [],
          Tree.node "expression" "" [Tree.node "term" "" [Tree.node "symbol" "(" [],
            Tree.node "expression" "" [Tree.node "term" "" [Tree.node "identifier" "x" []]],
            Tree.node "symbol" ")" []]],
          Tree.node "symbol" ")" []]],
        Tree.node "symbol" ")" []]) :=
  C19_balanced_parentheses (Tokeniser.mk "" ⟨[4, 5]⟩ [4]
      (globalHeap ++ [Token.mk "root" "" [5], Token.mk "expression" "" []])) 5
    (Token.mk "expression" "" []) "x" "identifier" 3 (by decide) (by decide) (by decide)
    (by decide) (by decide)

/-! ## C20: `statements` on top of the stack -/

/-- C20: in every state reached from `NewTokeniser` by a sequence of
successful `ProcessToken` steps, if the top of the context stack is a
`statements` node then the entry directly beneath it is a `subroutineBody`,
the entry beneath that is a `subroutineDec`, beneath them lies a non-empty
rest of the stack with the root at the bottom, and the depth is at least 4;
hence `ProcessToken` on a closing brace succeeds there, its three pops leave
exactly that rest, and the root stays at the bottom of the stack. -/
theorem C20_statements_context (xs : List String) (t : Tokeniser) (e : Nat) (E : Token)
    (h : NewTokeniser.run xs = some t) (hs : t.currentTokenStack.Peek = some e)
    (hE : t.deref e = some E) (hk : E.tokenType = "statements") :
    ∃ S d b D B, t.currentTokenStack.items = 4 :: S ++ [d, b, e] ∧
      t.deref d = some D ∧ D.tokenType = "subroutineDec" ∧
      t.deref b = some B ∧ B.tokenType = "subroutineBody" ∧
      4 ≤ t.depth ∧
      ∃ t', t.ProcessToken "\x7d" = some t' ∧ t'.currentTokenStack.items = 4 :: S ∧
        t'.depth + 3 = t.depth ∧ 1 ≤ t'.depth := by
  have hr := run_reach xs (Reach.initial NewTokeniser NewTokeniser_valid) h
  obtain ⟨hv, hext, _, hroot, hst⟩ := hr.1.stack
  obtain ⟨S0, hS0⟩ := List.getLast?_eq_some_iff.mp hs
  have hkE : kindOf t.heap e = "statements" := by
    simp only [Tokeniser.deref] at hE
    simp [kindOf, hE, hk]
  have hkinds : t.kinds = S0.map (kindOf t.heap) ++ "statements" :: [] := by
    simp [Tokeniser.kinds, hS0, hkE]
  obtain ⟨A', hA'⟩ := hst _ _ hkinds
  rcases List.eq_nil_or_concat S0 with h0 | ⟨S1, b, h1⟩
  · rw [h0] at hA'; simp at hA'
  rw [List.concat_eq_append] at h1
  subst h1
  rcases List.eq_nil_or_concat S1 with h0 | ⟨S2, d, h1⟩
  · rw [h0] at hA'
    have := congrArg List.length hA'
    simp at this
  rw [List.concat_eq_append] at h1
  subst h1
  simp only [List.map_append, List.map_cons, List.map_nil, List.append_assoc,
    List.singleton_append] at hA'
  have hA2 : S2.map (kindOf t.heap) ++ [kindOf t.heap d, kindOf t.heap b] =
      A' ++ ["subroutineDec", "subroutineBody"] := by simpa using hA'
  obtain ⟨_, hdb⟩ := List.append_inj' hA2 rfl
  simp only [List.cons.injEq, and_true] at hdb
  obtain ⟨hkd, hkb⟩ := hdb
  have getNode : ∀ p kind, kindOf t.heap p = kind → kind ≠ "" →
      ∃ tok, t.deref p = some tok ∧ tok.tokenType = kind := by
    intro p kind hp hne
    simp only [kindOf] at hp
    cases hq : t.heap[p]? with
    | none => rw [hq] at hp; exact absurd hp.symm hne
    | some tok => rw [hq] at hp; exact ⟨tok, hq, hp⟩
  obtain ⟨D, hD, hkD⟩ := getNode d _ hkd (by decide)
  obtain ⟨B, hB, hkB⟩ := getNode b _ hkb (by decide)
  have hitems : t.currentTokenStack.items = S2 ++ [d, b, e] := by
    rw [hS0]; simp
  have h4 : kindOf t.heap 4 = "root" := by
    rw [hext.2.1 4 (by decide)]; decide
  rcases hroot with h0 | ⟨rest, hr1, _⟩
  · rw [hitems] at h0; simp at h0
  cases S2 with
  | nil =>
    rw [hitems] at hr1
    simp only [List.nil_append, List.cons.injEq] at hr1
    rw [hr1.1, h4] at hkd
    exact absurd hkd (by decide)
  | cons p S =>
    rw [hitems] at hr1
    simp only [List.cons_append, List.cons.injEq] at hr1
    obtain ⟨rfl, -⟩ := hr1
    refine ⟨S, d, b, D, B, by rw [hitems], hD, hkD, hB, hkB, ?_, ?_⟩
    · simp [Tokeniser.depth, hitems]
    · refine ⟨_, step_close_brace_statements t (4 :: S) d b e B E (by rw [hitems])
        hE hk hB, rfl, ?_, ?_⟩
      · simp [Tokeniser.depth, hitems]
      · simp [Tokeniser.depth]

/-- C20, witness: after `function` and an opening brace the stack is root,
subroutineDec, subroutineBody, statements. -/
theorem C20_statements_context_witness :
    ∃ S d b D B,
      (Tokeniser.mk "" ⟨[4, 5, 6, 8]⟩ [4] (globalHeap ++ [Token.mk "root" "" [5],
        Token.mk "subroutineDec" "" [1, 6], Token.mk "subroutineBody" "" [7, 8],
        Token.mk "symbol" "\x7b" [],
        Token.mk "statements" "" []])).currentTokenStack.items = 4 :: S ++ [d, b, 8] ∧
      (Tokeniser.mk "" ⟨[4, 5, 6, 8]⟩ [4] (globalHeap ++ [Token.mk "root" "" [5],
        Token.mk "subroutineDec" "" [1, 6], Token.mk "subroutineBody" "" [7, 8],
        Token.mk "symbol" "\x7b" [], Token.mk "statements" "" []])).deref d = some D ∧
      D.tokenType = "subroutineDec" ∧
      (Tokeniser.mk "" ⟨[4, 5, 6, 8]⟩ [4] (globalHeap ++ [Token.mk "root" "" [5],
        Token.mk "subroutineDec" "" [1, 6], Token.mk "subroutineBody" "" [7, 8],
        Token.mk "symbol" "\x7b" [], Token.mk "statements" "" []])).deref b = some B ∧
      B.tokenType = "subroutineBody" ∧
      4 ≤ (Tokeniser.mk "" ⟨[4, 5, 6, 8]⟩ [4] (globalHeap ++ [Token.mk "root" "" [5],
        Token.mk "subroutineDec" "" [1, 6], Token.mk "subroutineBody" "" [7, 8],
        Token.mk "symbol" "\x7b" [], Token.mk "statements" "" []])).depth ∧
      ∃ t', (Tokeniser.mk "" ⟨[4, 5, 6, 8]⟩ [4] (globalHeap ++ [Token.mk "root" "" [5],
        Token.mk "subroutineDec" "" [1, 6], Token.mk "subroutineBody" "" [7, 8],
        Token.mk "symbol" "\x7b" [], Token.mk "statements" "" []])).ProcessToken "\x7d" =
          some t' ∧ t'.currentTokenStack.items = 4 :: S ∧
        t'.depth + 3 = (Tokeniser.mk "" ⟨[4, 5, 6, 8]⟩ [4] (globalHeap ++
          [Token.mk "root" "" [5], Token.mk "subroutineDec" "" [1, 6],
            Token.mk "subroutineBody" "" [7, 8], Token.mk "symbol" "\x7b" [],
            Token.mk "statements" "" []])).depth ∧ 1 ≤ t'.depth :=
  C20_statements_context ["function", "\x7b"] _ 8 (Token.mk "statements" "" []) (by decide)
    (by decide) (by decide) (by decide)

end HackCompiler
